import Mathlib

/-!
# Verification of the YouTubeSummarizer serverless backend and frontend renderer

This file gives a shallow embedding, in Lean 4, of the transcript-retrieval
pipeline of `netlify/functions/summarize.ts` (request normalization, job
polling, mode/language fallbacks, the HTTP handler), of the basic-auth edge
middleware, and of the frontend `renderRichSummary` markdown-like renderer of
`src/App.tsx`, together with theorems about their behaviour.

Conventions of the embedding:
* External HTTP effects are modelled by explicit response values: the
  transcript endpoint's response is a `SupadataResponse`, the job-status
  endpoint is a stream `Nat → PollResponse` (one entry per poll), and the
  LLM is an oracle `List String → Except String String` from the prompt
  parts to either a summary or a thrown error message.
* Thrown JavaScript exceptions are modelled as `Except.error msg` carrying
  the `Error` message.
* JavaScript strings are modelled as Lean `String`/`List Char`; `length`,
  `slice` and character classes are with respect to characters.
* Time inside `pollSupadataJob` advances by `intervalMs` per sleep, so the
  poll with index `i` happens at elapsed time `i * intervalMs`; the loop is
  written with an explicit fuel that is large enough never to run out at the
  default timeout and interval.
-/

/-- JavaScript truthiness-based string defaulting `x || d` where `x` is an
optional string (absent, or present and possibly empty). -/
def jsOrStr (x : Option String) (d : String) : String :=
  match x with
  | none => d
  | some s => if s.isEmpty then d else s

/-- The error message thrown by `requestSupadata` on a non-200/202 status. -/
def requestFailMsg (status : Nat) (body : String) : String :=
  s!"Supadata transcript request failed ({status}): {body}"

/-- The error message thrown by `pollSupadataJob` on a non-OK poll status. -/
def pollHttpErrMsg (status : Nat) (body : String) : String :=
  s!"Supadata job polling failed ({status}): {body}"

/-- A transcript chunk as in the `SupadataChunk` type of `summarize.ts`:
`text`, `offset` and `duration` in milliseconds, and a language tag. -/
structure SupadataChunk where
  text : String
  offset : Int
  duration : Int
  lang : String
  deriving Repr, DecidableEq

/-- The `content` field of a Supadata JSON payload: a chunk array, a flat
string, or absent (`undefined`/`null`). -/
inductive ContentVal where
  | chunks (cs : List SupadataChunk)
  | str (s : String)
  | nullv
  deriving Repr, DecidableEq

/-- A parsed Supadata JSON body (the `SupadataImmediate` shape of
`summarize.ts`, with optional fields kept optional as on the wire). -/
structure Json200 where
  content : ContentVal
  lang : Option String
  availableLangs : Option (List String)
  deriving Repr, DecidableEq

/-- The possible responses of the `https://api.supadata.ai/v1/transcript`
endpoint as distinguished by `requestSupadata`. -/
inductive SupadataResponse where
  | http200 (json : Json200)
  | http202 (jobId : String)
  | httpErr (status : Nat) (body : String)
  deriving Repr, DecidableEq

/-- `requestSupadata` (summarize.ts lines 47-76).  On HTTP 200 it returns the
parsed JSON, normalizing a *truthy* (non-empty) flat string `content` into a
single zero-offset chunk; on HTTP 202 it returns the job id; on any other
status it throws.  The guard `json.content && !Array.isArray(json.content) &&
typeof json.content === "string"` is truthy exactly for a non-empty string
content, so an empty string (and an absent content) is passed through
unchanged. -/
def requestSupadata (res : SupadataResponse) : Except String (Json200 ⊕ String) :=
  match res with
  | .http200 json =>
    match json.content with
    | .str s =>
      if s.isEmpty then .ok (.inl json)
      else
        let l := jsOrStr json.lang "en"
        .ok (.inl ⟨.chunks [⟨s, 0, 0, l⟩], some l, some (json.availableLangs.getD [])⟩)
    | _ => .ok (.inl json)
  | .http202 jobId => .ok (.inr jobId)
  | .httpErr status body => .error (requestFailMsg status body)

/-- The `status` field of a Supadata job-status payload. -/
inductive JobPhase where
  | queued
  | active
  | completed
  | failed
  deriving Repr, DecidableEq

/-- The string carried by the `status` field. -/
def JobPhase.toStr : JobPhase → String
  | .queued => "queued"
  | .active => "active"
  | .completed => "completed"
  | .failed => "failed"

/-- The error message thrown when a job reports status `failed`
(`JSON.stringify(json.error || {})` is the `errJson` field). -/
def pollFailMsg (errJson : String) : String :=
  s!"Supadata job failed: {errJson}"

/-- A parsed job-status JSON body (`SupadataJobStatus` in summarize.ts).
`errJson` stands for `JSON.stringify(json.error || {})`, the serialized form
of the `error` field used in the failure message. -/
structure JobStatusJson where
  status : JobPhase
  content : ContentVal
  lang : Option String
  availableLangs : Option (List String)
  errJson : String
  deriving Repr, DecidableEq

/-- One response of the job-status endpoint: either a non-OK HTTP status
(with its error text) or a parsed job-status body. -/
inductive PollResponse where
  | httpErr (status : Nat) (body : String)
  | job (j : JobStatusJson)
  deriving Repr, DecidableEq

/-- Normalization of a *completed* job result (summarize.ts lines 96-102):
array content is passed through, any other content becomes one zero-offset
chunk whose text is the string content (empty when content is absent), and
the language defaults to `"en"`. -/
def completedResult (j : JobStatusJson) : Json200 :=
  match j.content with
  | .chunks cs => ⟨.chunks cs, some (jsOrStr j.lang "en"), j.availableLangs⟩
  | .str s => ⟨.chunks [⟨s, 0, 0, jsOrStr j.lang "en"⟩], some (jsOrStr j.lang "en"), j.availableLangs⟩
  | .nullv => ⟨.chunks [⟨"", 0, 0, jsOrStr j.lang "en"⟩], some (jsOrStr j.lang "en"), j.availableLangs⟩

/-- The timeout error message of `pollSupadataJob` (`lastStatus || "unknown"`). -/
def pollTimeoutMsg (lastStatus : String) : String :=
  let shown := if lastStatus.isEmpty then "unknown" else lastStatus
  s!"Supadata job polling timed out (last status: {shown})"

/-- Is this poll response a non-terminal (`queued`/`active`) job status? -/
def pendingPoll (r : PollResponse) : Bool :=
  match r with
  | .job j =>
    match j.status with
    | .queued => true
    | .active => true
    | _ => false
  | _ => false

/-- The body of the `while` loop of `pollSupadataJob` (summarize.ts lines
87-109), with the elapsed time made explicit: poll `i` happens at elapsed
time `i * intervalMs` (the network round trip is treated as instantaneous,
time advances only in the sleep between polls).  The fuel argument only
serves termination; `pollSupadataJob` below supplies enough fuel for the
loop condition itself to stop the recursion first. -/
def pollLoop (responses : Nat → PollResponse) (timeoutMs intervalMs : Nat) :
    Nat → Nat → String → Except String Json200
  | 0, _, lastStatus => .error (pollTimeoutMsg lastStatus)
  | fuel + 1, i, lastStatus =>
    if i * intervalMs < timeoutMs then
      match responses i with
      | .httpErr status body => .error (pollHttpErrMsg status body)
      | .job j =>
        let ls := j.status.toStr
        match j.status with
        | .completed => .ok (completedResult j)
        | .failed => .error (pollFailMsg j.errJson)
        | _ => pollLoop responses timeoutMs intervalMs fuel (i + 1) ls
    else
      .error (pollTimeoutMsg lastStatus)

/-- `pollSupadataJob` (summarize.ts lines 78-112) over a stream of poll
responses: repeatedly fetch the job status, return the normalized result on
`completed`, throw on `failed` or a non-OK HTTP status, and throw a timeout
error once `timeoutMs` have elapsed. -/
def pollSupadataJob (responses : Nat → PollResponse) (timeoutMs intervalMs : Nat) :
    Except String Json200 :=
  pollLoop responses timeoutMs intervalMs (timeoutMs / intervalMs + 1) 0 ""

/-- `pollSupadataJob` at its default arguments `timeoutMs = 60000`,
`intervalMs = 1500` (the only values used by `perform`). -/
def pollSupadataJobD (responses : Nat → PollResponse) : Except String Json200 :=
  pollSupadataJob responses 60000 1500

/-- The transcript request mode. -/
inductive Mode where
  | auto
  | native
  | generate
  deriving Repr, DecidableEq

/-- Outcome tag of a `TranscriptAttemptRecord`. -/
inductive AttemptOutcome where
  | ok
  | job
  | empty
  | error
  deriving Repr, DecidableEq

/-- Content kind recorded in a `TranscriptAttemptRecord`. -/
inductive ContentKind where
  | chunks
  | text
  deriving Repr, DecidableEq

/-- The `TranscriptAttemptRecord` debug record of summarize.ts. -/
structure TranscriptAttemptRecord where
  mode : Mode
  lang : Option String
  outcome : AttemptOutcome
  itemCount : Option Nat
  returnedLang : Option String
  availableLangs : Option (List String)
  contentKind : Option ContentKind
  errorMessage : Option String
  deriving Repr, DecidableEq

/-- The external responses available to one `perform` attempt: the response
of the transcript request, and the poll-response stream used if that request
answers with a job id. -/
structure AttemptEnv where
  request : SupadataResponse
  polls : Nat → PollResponse

/-- The result shape of `perform`/`getTranscriptWithFallbacks`:
`{ items, lang, availableLangs }` (with `lang` possibly `undefined` and
`availableLangs` defaulted to `[]`). -/
structure PerformResult where
  items : List SupadataChunk
  lang : Option String
  availableLangs : List String
  deriving Repr, DecidableEq

/-- The item normalization inside `perform` (summarize.ts lines 143-146):
array content is used as is, any other content becomes one zero-offset chunk
whose text is `String(content || "")`. -/
def itemsOfImmediate (imm : Json200) : List SupadataChunk :=
  match imm.content with
  | .chunks cs => cs
  | .str s => [⟨s, 0, 0, jsOrStr imm.lang "en"⟩]
  | .nullv => [⟨"", 0, 0, jsOrStr imm.lang "en"⟩]

/-- The `contentKind` recorded by `perform` (`Array.isArray` test). -/
def contentKindOf (imm : Json200) : ContentKind :=
  match imm.content with
  | .chunks _ => .chunks
  | _ => .text

/-- The success record pushed by `perform` for an immediate result. -/
def okRecord (mode : Mode) (lang : Option String) (imm : Json200)
    (items : List SupadataChunk) : TranscriptAttemptRecord :=
  { mode := mode
    lang := lang
    outcome := if items.length ≠ 0 then .ok else .empty
    itemCount := some items.length
    returnedLang := imm.lang
    availableLangs := imm.availableLangs
    contentKind := some (contentKindOf imm)
    errorMessage := none }

/-- The record pushed by `perform` when the request answers with a job id. -/
def jobRecord (mode : Mode) (lang : Option String) : TranscriptAttemptRecord :=
  { mode := mode
    lang := lang
    outcome := .job
    itemCount := none
    returnedLang := none
    availableLangs := none
    contentKind := none
    errorMessage := none }

/-- The record pushed by `perform` when the attempt throws. -/
def errRecord (mode : Mode) (lang : Option String) (msg : String) :
    TranscriptAttemptRecord :=
  { mode := mode
    lang := lang
    outcome := .error
    itemCount := none
    returnedLang := none
    availableLangs := none
    contentKind := none
    errorMessage := some msg }

/-- The result built by `perform` from a normalized immediate payload. -/
def mkPerformResult (imm : Json200) : PerformResult :=
  { items := itemsOfImmediate imm
    lang := imm.lang
    availableLangs := imm.availableLangs.getD [] }

/-- The inner `perform` of `getTranscriptWithFallbacks` (summarize.ts lines
133-161): one transcript attempt made of a `requestSupadata` call, a poll
phase when a job id is returned, item normalization, and the debug records
pushed along the way.  The second component is the list of records appended
to `debugAttempts` by this attempt, in order. -/
def perform (e : AttemptEnv) (mode : Mode) (lang : Option String) :
    Except String PerformResult × List TranscriptAttemptRecord :=
  match requestSupadata e.request with
  | .error msg => (.error msg, [errRecord mode lang msg])
  | .ok (.inr _jobId) =>
    match pollSupadataJobD e.polls with
    | .error msg => (.error msg, [jobRecord mode lang, errRecord mode lang msg])
    | .ok imm =>
      (.ok (mkPerformResult imm),
        [jobRecord mode lang, okRecord mode lang imm (itemsOfImmediate imm)])
  | .ok (.inl imm) =>
    (.ok (mkPerformResult imm), [okRecord mode lang imm (itemsOfImmediate imm)])

/-- One of the two `try { const r = await perform(...); if (r.items.length)
result = r } catch {}` fallback blocks of `getTranscriptWithFallbacks`: the
attempt's records always land in the log; a thrown attempt leaves the result
unchanged; a returned attempt replaces it only when its item list is
non-empty. -/
def swallowAttempt (cur : PerformResult × List TranscriptAttemptRecord)
    (attempt : Except String PerformResult × List TranscriptAttemptRecord) :
    PerformResult × List TranscriptAttemptRecord :=
  match attempt with
  | (.error _, l) => (cur.1, cur.2 ++ l)
  | (.ok n, l) => ((if n.items.length ≠ 0 then n else cur.1), cur.2 ++ l)

/-- `getTranscriptWithFallbacks` (summarize.ts lines 125-190) over an
environment giving each `(mode, lang)` attempt its external responses.  The
first attempt uses the forced mode (`"auto"` when none); when English is
preferred, the result is not English and English is available, one explicit
English retry of the initial mode runs (its exceptions are *not* caught) and
is adopted if non-empty; when the result is still empty, a `native` and then
a `generate` attempt run inside `try {} catch {}`, each adopted if non-empty.
The second component is the full `debugAttempts` log. -/
def getTranscriptWithFallbacks (env : Mode → Option String → AttemptEnv)
    (preferEnglishOpt : Option Bool) (forceMode : Option Mode) :
    Except String PerformResult × List TranscriptAttemptRecord :=
  let preferEnglish := preferEnglishOpt ≠ some false
  let initialMode := forceMode.getD .auto
  match perform (env initialMode none) initialMode none with
  | (.error e, log0) => (.error e, log0)
  | (.ok res0, log0) =>
    -- If not English but English available and preferred, try English explicitly
    let step1 : Except String PerformResult × List TranscriptAttemptRecord :=
      if preferEnglish ∧ res0.lang ≠ some "en" ∧ res0.availableLangs.contains "en" then
        match perform (env initialMode (some "en")) initialMode (some "en") with
        | (.error e, log1) => (.error e, log0 ++ log1)
        | (.ok enRes, log1) =>
          (.ok (if enRes.items.length ≠ 0 then enRes else res0), log0 ++ log1)
      else (.ok res0, log0)
    match step1 with
    | (.error e, log1) => (.error e, log1)
    | (.ok res1, log1) =>
      -- If still empty, try native then generate (exceptions swallowed)
      let step2 : PerformResult × List TranscriptAttemptRecord :=
        if res1.items.length = 0 ∧ initialMode ≠ .native then
          swallowAttempt (res1, log1) (perform (env .native none) .native none)
        else (res1, log1)
      let step3 : PerformResult × List TranscriptAttemptRecord :=
        if step2.1.items.length = 0 ∧ initialMode ≠ .generate then
          swallowAttempt step2 (perform (env .generate none) .generate none)
        else step2
      (.ok step3.1, step3.2)

/-- JS `padStart(2, "0")`. -/
def padStart2 (s : String) : String :=
  if s.length < 2 then String.mk (List.replicate (2 - s.length) '0') ++ s else s

/-- `formatTimestamp` (summarize.ts lines 26-35).  The JS number input is
modelled as a rational; `Math.max(0, Math.floor(x))` is the clamped floor,
taken as a natural number. -/
def formatTimestamp (totalSeconds : ℚ) : String :=
  let seconds : Nat := (max 0 (Rat.floor totalSeconds)).toNat
  let h := seconds / 3600
  let m := seconds % 3600 / 60
  let s := seconds % 60
  let mm := padStart2 (toString m)
  let ss := padStart2 (toString s)
  if h > 0 then s!"{h}:{mm}:{ss}" else s!"{m}:{ss}"

/-- Case-insensitive literal prefix matching: `p` is given in lowercase, and
input characters are lowered (ASCII) before comparison, as the `i` flag does
on the ASCII patterns of `isSupportedVideoUrl`.  Returns the rest of the
input after the prefix. -/
def dropPrefixCIAux : List Char → List Char → Option (List Char)
  | [], rest => some rest
  | _ :: _, [] => none
  | x :: xs, c :: rest => if c.toLower = x then dropPrefixCIAux xs rest else none

def dropPrefixCI (p : String) (cs : List Char) : Option (List Char) :=
  dropPrefixCIAux p.data cs

/-- The character class `[a-zA-Z0-9_-]` of the YouTube-id patterns. -/
def isYtIdChar (c : Char) : Bool :=
  c.isAlpha || c.isDigit || c = '_' || c = '-'

/-- The bare-id pattern `/^[a-zA-Z0-9_-]{11}$/`. -/
def isBareYouTubeId (cs : List Char) : Bool :=
  cs.length = 11 && cs.all isYtIdChar

/-- `isSupportedVideoUrl` (summarize.ts lines 40-45): the anchored,
case-insensitive pattern
`^(?:https?:\/\/)?(?:www\.)?(?:youtube\.com|youtu\.be|tiktok\.com|instagram\.com)\/`
compiled into prefix tests (the optional groups and the host alternatives
start with pairwise distinct characters, so this is exactly the set of
strings the regex accepts), or a bare 11-character YouTube id. -/
def isSupportedVideoUrl (input : String) : Bool :=
  let cs := input.data
  let afterScheme :=
    match dropPrefixCI "https://" cs with
    | some r => r
    | none =>
      match dropPrefixCI "http://" cs with
      | some r => r
      | none => cs
  let afterWww :=
    match dropPrefixCI "www." afterScheme with
    | some r => r
    | none => afterScheme
  let hostOk := ["youtube.com/", "youtu.be/", "tiktok.com/", "instagram.com/"].any
    (fun h => (dropPrefixCI h afterWww).isSome)
  hostOk || isBareYouTubeId cs

/-- Case-sensitive literal prefix matching over character lists. -/
def dropPrefixCSAux : List Char → List Char → Option (List Char)
  | [], rest => some rest
  | _ :: _, [] => none
  | x :: xs, c :: rest => if c = x then dropPrefixCSAux xs rest else none

def dropPrefixCS (p : String) (cs : List Char) : Option (List Char) :=
  dropPrefixCSAux p.data cs

/-- Try one marker of `extractYouTubeVideoIdOptional` at the current
position: the marker literal followed by exactly eleven id characters,
capturing those eleven characters. -/
def tryIdMarker (m : String) (cs : List Char) : Option String :=
  match dropPrefixCS m cs with
  | some r =>
    let cand := r.take 11
    if cand.length = 11 && cand.all isYtIdChar then some (String.mk cand) else none
  | none => none

/-- Leftmost search for `/(?:v=|\/embed\/|\/shorts\/|youtu\.be\/)([a-zA-Z0-9_-]{11})/`,
trying the alternatives in their order at each position. -/
def extractIdScan : List Char → Option String
  | [] => none
  | c :: rest =>
    match tryIdMarker "v=" (c :: rest) with
    | some r => some r
    | none =>
      match tryIdMarker "/embed/" (c :: rest) with
      | some r => some r
      | none =>
        match tryIdMarker "/shorts/" (c :: rest) with
        | some r => some r
        | none =>
          match tryIdMarker "youtu.be/" (c :: rest) with
          | some r => some r
          | none => extractIdScan rest

/-- `extractYouTubeVideoIdOptional` (summarize.ts lines 192-198). -/
def extractYouTubeVideoIdOptional (input : String) : Option String :=
  if isBareYouTubeId input.data then some input
  else extractIdScan input.data

/-- Truthiness of an optional environment variable / header (`!x` is true
for an absent or empty string). -/
def falsyStr (x : Option String) : Bool :=
  match x with
  | none => true
  | some s => s.isEmpty

/-- JS `startsWith`. -/
def strStartsWith (s p : String) : Bool :=
  p.data.isPrefixOf s.data

/-- The base64 alphabet used by `btoa`. -/
def base64Alphabet : List Char :=
  "ABCDEFGHIJKLMNOPQRSTUVWXYZabcdefghijklmnopqrstuvwxyz0123456789+/".data

/-- Digit of the base64 alphabet. -/
def b64c (n : Nat) : Char := base64Alphabet.getD n 'A'

/-- Base64 encoding of a byte list with `=` padding, little groups of 3. -/
def btoaBytes : List Nat → List Char
  | [] => []
  | [a] => [b64c (a / 4), b64c (a % 4 * 16), '=', '=']
  | [a, b] => [b64c (a / 4), b64c (a % 4 * 16 + b / 16), b64c (b % 16 * 4), '=']
  | a :: b :: c :: rest =>
    [b64c (a / 4), b64c (a % 4 * 16 + b / 16), b64c (b % 16 * 4 + c / 64), b64c (c % 64)]
      ++ btoaBytes rest

/-- JS `btoa` on a latin1 string (every char below U+0100; the basic-auth
credentials are such strings), encoding the character codes. -/
def btoa (s : String) : String :=
  String.mk (btoaBytes (s.data.map Char.toNat))

/-- Result of the edge middleware: pass the request on, or a blocking
response with status, headers and body. -/
inductive EdgeResult where
  | next
  | blocked (status : Nat) (headers : List (String × String)) (body : String)
  deriving Repr, DecidableEq

/-- `unauthorizedResponse` of the basic-auth edge middleware. -/
def unauthorizedResponse : EdgeResult :=
  .blocked 401
    [("WWW-Authenticate", "Basic realm=\"Restricted\""), ("Cache-Control", "no-store")]
    "Unauthorized"

/-- The basic-auth edge middleware (the unnamed edge-function source file):
pass through when `BASIC_AUTH_USER`/`BASIC_AUTH_PASS` is unset or empty,
otherwise demand an Authorization header equal to
`Basic <btoa(user:pass)>`.  `authHeader` is the value of the
`authorization` request header (`none` when absent). -/
def basicAuthEdge (user pass : Option String) (authHeader : Option String) :
    EdgeResult :=
  if falsyStr user || falsyStr pass then .next
  else
    let u := user.getD ""
    let p := pass.getD ""
    let expected := "Basic " ++ btoa (u ++ ":" ++ p)
    match authHeader with
    | none => unauthorizedResponse
    | some h =>
      if h.isEmpty then unauthorizedResponse
      else if ! strStartsWith h "Basic " then unauthorizedResponse
      else if h ≠ expected then unauthorizedResponse
      else .next

/-- The `url` field of a parsed request body: absent, present but not a
string, or a string. -/
inductive UrlField where
  | missing
  | notStr
  | str (s : String)
  deriving Repr, DecidableEq

/-- The fields of a successfully parsed JSON request body that the handler
reads: `url`, `Boolean(debug)`, and `mode` when it is one of the three mode
strings (`forceMode` stays undefined otherwise). -/
structure ParsedBody where
  url : UrlField
  debug : Bool
  mode : Option Mode
  deriving Repr, DecidableEq

/-- The request body as seen by the handler: absent/empty (parsed as `{}`),
unparsable JSON (`JSON.parse` throws), or parsed. -/
inductive EventBody where
  | absent
  | invalid
  | parsed (b : ParsedBody)
  deriving Repr, DecidableEq

/-- The parts of the Netlify event the handler reads. -/
structure HandlerEvent where
  httpMethod : String
  body : EventBody
  deriving Repr, DecidableEq

/-- The debug payload spread into 404/200 bodies when `debug` was truthy. -/
structure DebugInfo where
  attempts : List TranscriptAttemptRecord
  finalLang : Option String
  availableLangs : List String
  deriving Repr, DecidableEq

/-- A response body: an error object, or the success object with `videoId`,
`summary`, `transcript` and `truncated` (each with optional debug data). -/
inductive RespBody where
  | err (message : String) (debug : Option DebugInfo)
  | ok (videoId : String) (summary : String) (transcript : String)
      (truncated : Bool) (debug : Option DebugInfo)
  deriving Repr, DecidableEq

/-- An HTTP response of the handler. -/
structure HttpResponse where
  statusCode : Nat
  headers : List (String × String)
  body : RespBody
  deriving Repr, DecidableEq

/-- Every handler response carries exactly this header object. -/
def jsonHeaders : List (String × String) := [("Content-Type", "application/json")]

/-- `e?.message || "Failed to process transcript"` of the handler's catch. -/
def shownError (msg : String) : String :=
  if msg.isEmpty then "Failed to process transcript" else msg

/-- One formatted transcript line `[timestamp] text` (summarize.ts lines
289-294); the offset is in milliseconds, divided by 1000 and floored. -/
def chunkLine (it : SupadataChunk) : String :=
  let seconds : Int := Int.fdiv it.offset 1000
  "[" ++ formatTimestamp (seconds : ℚ) ++ "] " ++ it.text

/-- The formatted transcript joined with newlines. -/
def transcriptTextOf (items : List SupadataChunk) : String :=
  String.intercalate "\n" (items.map chunkLine)

/-- `MAX_CHARS` of the handler. -/
def MAX_CHARS : Nat := 180000

/-- The system instruction sent to the model (summarize.ts lines 302-312). -/
def systemInstruction : String :=
  "You are an expert at creating concise, structured summaries of videos from transcripts.\nReturn a highly readable, well-structured summary containing:\n- A one-paragraph overview of the video.\n- A detailed summary of the video.\n- 5-10 bullet key takeaways. Each takeaway must include a concise title (<=10 words), 1-2 sentence description, and the start timestamp from the transcript in [mm:ss] or [h:mm:ss] format (e.g. [02:15], [1:02:15]).\n\nGuidelines:\n- Use clear headings, formatting, and bullet points.\n- Maintain the video\x27s original terminology where helpful.\n- If content is truncated, mention that the summary may be incomplete.\n- Do not fabricate timestamps; use ones present in the transcript text provided."

/-- The user instruction, depending on truncation. -/
def userInstructionFor (truncated : Bool) : String :=
  if truncated then
    "The transcript was truncated due to length. Summarize the provided portion faithfully."
  else "Summarize the transcript faithfully."

/-- The request URL passed to the transcript provider: a bare YouTube id is
turned into a `youtu.be` URL, anything else is passed as given (summarize.ts
lines 267-270). -/
def requestUrlOf (srcUrl : String) : String :=
  if isBareYouTubeId srcUrl.data then "https://youtu.be/" ++ srcUrl else srcUrl

/-- The `summarize` handler (summarize.ts lines 200-348).  `supadataKey` and
`geminiKey` are the two environment variables; `tenv` gives the transcript
responses for the request URL actually passed to
`getTranscriptWithFallbacks`; `gem` is the LLM oracle receiving the three
prompt parts and answering with the summary text or throwing. -/
def summarizeHandler (ev : HandlerEvent) (supadataKey geminiKey : Option String)
    (tenv : String → Mode → Option String → AttemptEnv)
    (gem : List String → Except String String) : HttpResponse :=
  if ev.httpMethod ≠ "POST" then
    ⟨405, jsonHeaders, .err "Method Not Allowed" none⟩
  else
    match ev.body with
    | .invalid => ⟨400, jsonHeaders, .err "Invalid JSON body" none⟩
    | .absent => ⟨400, jsonHeaders, .err "Missing \x27url\x27 in request body" none⟩
    | .parsed b =>
      match b.url with
      | .missing => ⟨400, jsonHeaders, .err "Missing \x27url\x27 in request body" none⟩
      | .notStr => ⟨400, jsonHeaders, .err "Missing \x27url\x27 in request body" none⟩
      | .str srcUrl =>
        if srcUrl.isEmpty then
          ⟨400, jsonHeaders, .err "Missing \x27url\x27 in request body" none⟩
        else if ! isSupportedVideoUrl srcUrl then
          ⟨400, jsonHeaders,
            .err "Please provide a supported video URL (YouTube, TikTok, Instagram)" none⟩
        else if falsyStr supadataKey then
          ⟨500, jsonHeaders,
            .err "Missing SUPADATA_API_KEY. Set it as a Netlify environment variable or in netlify/functions/config.local.json" none⟩
        else if falsyStr geminiKey then
          ⟨500, jsonHeaders,
            .err "Missing GEMINI_API_KEY. Set it as a Netlify environment variable or in netlify/functions/config.local.json" none⟩
        else
          match getTranscriptWithFallbacks (tenv (requestUrlOf srcUrl)) (some true) b.mode with
          | (.error msg, _) => ⟨500, jsonHeaders, .err (shownError msg) none⟩
          | (.ok r, attempts) =>
            if r.items.length = 0 then
              ⟨404, jsonHeaders, .err "No transcript found for this video."
                (if b.debug then some ⟨attempts, r.lang, r.availableLangs⟩ else none)⟩
            else
              let transcriptText := transcriptTextOf r.items
              let truncated : Bool := decide (transcriptText.length > MAX_CHARS)
              let transcriptForModel :=
                if truncated then transcriptText.take MAX_CHARS else transcriptText
              match gem [systemInstruction, userInstructionFor truncated,
                  "\n\nTRANSCRIPT:\n" ++ transcriptForModel] with
              | .error msg => ⟨500, jsonHeaders, .err (shownError msg) none⟩
              | .ok summary =>
                ⟨200, jsonHeaders,
                  .ok ((extractYouTubeVideoIdOptional srcUrl).getD "") summary
                    transcriptText truncated
                    (if b.debug then some ⟨attempts, r.lang, r.availableLangs⟩ else none)⟩

/-- Spec-side two-digit zero padding, as the claim words it. -/
def pad2 (n : Nat) : String :=
  if n < 10 then "0" ++ toString n else toString n

/-- Spec-side rendering of a (clamped, floored) number of seconds: `m:ss`
under one hour, `h:mm:ss` otherwise, minutes and seconds zero-padded to two
digits where the pattern shows two letters, hours and the sub-hour minute
unpadded. -/
def formatTimestampSpec (n : Nat) : String :=
  if n < 3600 then
    s!"{n / 60}:{pad2 (n % 60)}"
  else
    s!"{n / 3600}:{pad2 (n % 3600 / 60)}:{pad2 (n % 60)}"

/-- The `status` string carried by a poll response (empty for an HTTP error,
which never updates `lastStatus`). -/
def statusStrOf (r : PollResponse) : String :=
  match r with
  | .job j => j.status.toStr
  | .httpErr _ _ => ""

/-- A poll stream never used by the concrete test environments (their
requests answer immediately with HTTP 200). -/
def cxPolls : Nat → PollResponse := fun _ => .httpErr 500 "boom"

/-- A test attempt environment answering immediately with the given JSON. -/
def immEnv (j : Json200) : AttemptEnv := ⟨.http200 j, cxPolls⟩

/-- Test environment for C1: the initial `auto` attempt is empty with
English available, the explicit English retry is non-empty, and the
`native`/`generate` fallbacks would also be non-empty. -/
def cxEnvEnglishPreempt : Mode → Option String → AttemptEnv := fun m l =>
  if l = some "en" then
    immEnv ⟨.chunks [⟨"english subtitle", 0, 0, "en"⟩], some "en", some []⟩
  else
    match m with
    | .auto => immEnv ⟨.chunks [], some "de", some ["en"]⟩
    | .native => immEnv ⟨.chunks [⟨"native subtitle", 0, 0, "en"⟩], some "en", some []⟩
    | .generate => immEnv ⟨.chunks [⟨"generated subtitle", 0, 0, "en"⟩], some "en", some []⟩

/-- Test environment for C2: the initial attempt already has a *non-empty*
German transcript with English available, and the English retry returns a
non-empty English one. -/
def cxEnvEnglishRetry : Mode → Option String → AttemptEnv := fun _ l =>
  if l = some "en" then
    immEnv ⟨.chunks [⟨"english subtitle", 0, 0, "en"⟩], some "en", some []⟩
  else
    immEnv ⟨.chunks [⟨"german subtitle", 0, 0, "de"⟩], some "de", some ["en"]⟩

/-- Test environment for the C1 witness: the initial `auto` result is empty
and already English (no English retry), and the `native` fallback has a
non-empty transcript. -/
def cxEnvFallback : Mode → Option String → AttemptEnv := fun m _ =>
  match m with
  | .auto => immEnv ⟨.chunks [], some "en", some []⟩
  | .native => immEnv ⟨.chunks [⟨"native subtitle", 0, 0, "en"⟩], some "en", some []⟩
  | .generate => immEnv ⟨.chunks [⟨"generated subtitle", 0, 0, "en"⟩], some "en", some []⟩

/-- The 24 case-insensitive prefixes accepted by the URL regex of
`isSupportedVideoUrl`: one of the four hosts followed by `/`, optionally
preceded by `www.` and optionally by an `http`/`https` scheme. -/
def supportedUrlPrefixes : List (List Char) :=
  ["", "http://", "https://"].foldr
    (fun scheme acc =>
      (["", "www."].foldr
        (fun www acc2 =>
          (["youtube.com/", "youtu.be/", "tiktok.com/", "instagram.com/"].map
            (fun host => (scheme ++ www ++ host).data)) ++ acc2) []) ++ acc) []

/-- Test environment whose every attempt immediately returns one English
chunk. -/
def cxGoodEnv : Mode → Option String → AttemptEnv := fun _ _ =>
  immEnv ⟨.chunks [⟨"hello world", 0, 0, "en"⟩], some "en", some []⟩

/-- Test environment whose every attempt immediately returns an empty
English chunk list. -/
def cxEmptyEnv : Mode → Option String → AttemptEnv := fun _ _ =>
  immEnv ⟨.chunks [], some "en", some []⟩

/-! ## renderRichSummary (App.tsx, first version): shallow embedding.

JS regex semantics are compiled by hand: each global replace is a
left-to-right scanner; a lazy `[\s\S]*?` finds the earliest closing
position; greedy `\s*` before a non-whitespace literal is forced to the
maximal whitespace run; backtracking priorities (greedy outer quantifier
first, lazy inner) are implemented literally where they matter. -/

/-- ECMAScript whitespace (`\s`): WhiteSpace plus LineTerminator. -/
def jsWs (c : Char) : Bool :=
  c == ' ' || c == '\t' || c == '\n' || c == '\r' ||
  c.val == 11 || c.val == 12 || c.val == 0xa0 || c.val == 0x1680 ||
  (decide (0x2000 ≤ c.val) && decide (c.val ≤ 0x200a)) ||
  c.val == 0x2028 || c.val == 0x2029 || c.val == 0x202f || c.val == 0x205f ||
  c.val == 0x3000 || c.val == 0xfeff

/-- Length of the maximal leading `\s` run. -/
def wsCount : List Char → Nat
  | [] => 0
  | c :: t => if jsWs c then wsCount t + 1 else 0

/-- ECMAScript `\d` is exactly [0-9]. -/
def isJsDigit (c : Char) : Bool := decide ('0' ≤ c) && decide (c ≤ '9')

/-- `String.prototype.trim` (strips the same `\s` set on both ends). -/
def trimJs (l : List Char) : List Char :=
  ((l.dropWhile (fun c => jsWs c)).reverse.dropWhile (fun c => jsWs c)).reverse

/-- `text.split(/\r?\n/)`: a lone CR does not split. -/
def splitLinesGo : List Char → List Char → List (List Char)
  | acc, [] => [acc.reverse]
  | acc, '\n' :: t => acc.reverse :: splitLinesGo [] t
  | acc, '\r' :: '\n' :: t => acc.reverse :: splitLinesGo [] t
  | acc, c :: t => splitLinesGo (c :: acc) t

/-- `.replace(/&/g, "&amp;")` (single-char global replace). -/
def escAmp : List Char → List Char
  | [] => []
  | c :: t => (if c = '&' then "&amp;".data else [c]) ++ escAmp t

/-- `.replace(/</g, "&lt;")`. -/
def escLt : List Char → List Char
  | [] => []
  | c :: t => (if c = '<' then "&lt;".data else [c]) ++ escLt t

/-- `.replace(/>/g, "&gt;")`. -/
def escGt : List Char → List Char
  | [] => []
  | c :: t => (if c = '>' then "&gt;".data else [c]) ++ escGt t

/-- The renderer's `esc`: the three replaces in source order. -/
def esc (l : List Char) : List Char := escGt (escLt (escAmp l))

/-- Closing search for `\s*([\s\S]*?)\s*D`: minimal split point where,
after the maximal whitespace run, the delimiter follows; returns the
(trailing-trimmed) group and the rest after the delimiter. -/
def findDelimClose (D : List Char) : List Char → Option (List Char × List Char)
  | [] => none
  | c :: t =>
    if D.isPrefixOf ((c :: t).drop (wsCount (c :: t))) = true then
      some ([], (c :: t).drop (wsCount (c :: t) + D.length))
    else (findDelimClose D t).map (fun p => (c :: p.1, p.2))

/-- Scanner for `/D\s*([\s\S]*?)\s*D/g` replaced by `openT$1closeT`
(stages `***`, `**`, `__` of `toInlineHtml`). -/
def replaceDelim (D openT closeT : List Char) : Nat → List Char → List Char
  | 0, l => l
  | _ + 1, [] => []
  | fuel + 1, c :: t =>
    if D.isPrefixOf (c :: t) = true then
      match findDelimClose D
          (((c :: t).drop D.length).drop (wsCount ((c :: t).drop D.length))) with
      | some p => openT ++ p.1 ++ closeT ++ replaceDelim D openT closeT fuel p.2
      | none => c :: replaceDelim D openT closeT fuel t
    else c :: replaceDelim D openT closeT fuel t

/-- `s.replace(/\*\*\*\s*([\s\S]*?)\s*\*\*\*/g, "<em><strong>$1</strong></em>")`. -/
def stageA (l : List Char) : List Char :=
  replaceDelim "***".data "<em><strong>".data "</strong></em>".data l.length l

/-- `s.replace(/\*\*\s*([\s\S]*?)\s*\*\*/g, "<strong>$1</strong>")`. -/
def stageB (l : List Char) : List Char :=
  replaceDelim "**".data "<strong>".data "</strong>".data l.length l

/-- `s.replace(/__\s*([\s\S]*?)\s*__/g, "<strong>$1</strong>")`. -/
def stageC (l : List Char) : List Char :=
  replaceDelim "__".data "<strong>".data "</strong>".data l.length l

/-- Does the list start with the given character? -/
def firstIs (c : Char) : List Char → Bool
  | [] => false
  | d :: _ => d == c

/-- Is `*` (not followed by another `*`) at this position? (`\*(?!\*)`). -/
def starCloseHere (l : List Char) : Bool :=
  firstIs '*' l && !(firstIs '*' (l.drop 1))

/-- Closing search for `\s*\*(?!\*)` after the lazy group of the
`*`-italic stage. -/
def findStarClose : List Char → Option (List Char × List Char)
  | [] => none
  | c :: t =>
    if starCloseHere ((c :: t).drop (wsCount (c :: t))) = true then
      some ([], ((c :: t).drop (wsCount (c :: t))).drop 1)
    else (findStarClose t).map (fun p => (c :: p.1, p.2))

/-- Group attempt `([^*][\s\S]*?)\s*\*(?!\*)` at a fixed start. -/
def attemptStar : List Char → Option (List Char × List Char)
  | [] => none
  | c :: t => if c = '*' then none else (findStarClose t).map (fun p => (c :: p.1, p.2))

/-- Leading `\s*` of the `*`-italic stage, greedy with backtracking:
try the attempt after `lw` whitespace characters, descending. -/
def tryStarFrom : Nat → List Char → Option (List Char × List Char)
  | 0, l => attemptStar l
  | lw + 1, l =>
    match attemptStar (l.drop (lw + 1)) with
    | some p => some p
    | none => tryStarFrom lw l

/-- Match of `\s*([^*][\s\S]*?)\s*\*(?!\*)` right after an opening `*`. -/
def tryStar (l : List Char) : Option (List Char × List Char) :=
  tryStarFrom (wsCount l) l

/-- Does the list start with `*`? -/
def firstIsStar (l : List Char) : Bool := firstIs '*' l

/-- Does the list start with `_`? -/
def firstIsUnder (l : List Char) : Bool := firstIs '_' l

/-- Scanner for
`/(^|[^*])\*\s*([^*][\s\S]*?)\s*\*(?!\*)/g` replaced by
`pre + "<em>" + inner + "</em>"`; the flag says whether the current
position is index 0 (where the `^` alternative applies). -/
def stageDGo : Nat → Bool → List Char → List Char
  | 0, _, l => l
  | _ + 1, _, [] => []
  | fuel + 1, atStart, c :: t =>
    if atStart = true ∧ c = '*' then
      match tryStar t with
      | some p => "<em>".data ++ p.1 ++ "</em>".data ++ stageDGo fuel false p.2
      | none => c :: stageDGo fuel false t
    else if c ≠ '*' ∧ firstIsStar t = true then
      match tryStar (t.drop 1) with
      | some p => c :: ("<em>".data ++ p.1 ++ "</em>".data ++ stageDGo fuel false p.2)
      | none => c :: stageDGo fuel false t
    else c :: stageDGo fuel false t

/-- The `*`-italic stage. -/
def stageD (l : List Char) : List Char := stageDGo l.length true l

/-- Is `_` (not followed by another `_`) at this position? (`_(?!_)`). -/
def underCloseHere (l : List Char) : Bool :=
  firstIs '_' l && !(firstIs '_' (l.drop 1))

/-- Closing search for `\s*_(?!_)` after the lazy group of the
`_`-italic stage. -/
def findUnderClose : List Char → Option (List Char × List Char)
  | [] => none
  | c :: t =>
    if underCloseHere ((c :: t).drop (wsCount (c :: t))) = true then
      some ([], ((c :: t).drop (wsCount (c :: t))).drop 1)
    else (findUnderClose t).map (fun p => (c :: p.1, p.2))

/-- Match of `\s*([\s\S]*?)\s*_(?!_)` right after an opening `_(?!_)`:
the unconstrained lazy group forces the leading `\s*` to its maximum. -/
def tryUnder (l : List Char) : Option (List Char × List Char) :=
  findUnderClose (l.drop (wsCount l))

/-- Scanner for `/(^|[^_])_(?!_)\s*([\s\S]*?)\s*_(?!_)/g` replaced by
`pre + "<em>" + inner + "</em>"`. -/
def stageEGo : Nat → Bool → List Char → List Char
  | 0, _, l => l
  | _ + 1, _, [] => []
  | fuel + 1, atStart, c :: t =>
    if atStart = true ∧ c = '_' ∧ firstIsUnder t = false then
      match tryUnder t with
      | some p => "<em>".data ++ p.1 ++ "</em>".data ++ stageEGo fuel false p.2
      | none => c :: stageEGo fuel false t
    else if c ≠ '_' ∧ firstIsUnder t = true ∧ firstIsUnder (t.drop 1) = false then
      match tryUnder (t.drop 1) with
      | some p => c :: ("<em>".data ++ p.1 ++ "</em>".data ++ stageEGo fuel false p.2)
      | none => c :: stageEGo fuel false t
    else c :: stageEGo fuel false t

/-- The `_`-italic stage. -/
def stageE (l : List Char) : List Char := stageEGo l.length true l

/-- Parse `:\d{2}(?::\d{2})?\]` after the hour digits of a timestamp
(greedy optional seconds group, with backtracking into the final `]`). -/
def tryTsTail : List Char → Option (List Char × List Char)
  | [] => none
  | c0 :: l1 =>
    if c0 = ':' then
      match l1 with
      | [] => none
      | a :: l2 =>
        if isJsDigit a = true then
          match l2 with
          | [] => none
          | b :: rest =>
            if isJsDigit b = true then
              match rest with
              | [] => none
              | c1 :: r2 =>
                if c1 = ']' then some ([':', a, b], r2)
                else if c1 = ':' then
                  match r2 with
                  | [] => none
                  | x :: r2a =>
                    match r2a with
                    | [] => none
                    | y :: r2b =>
                      match r2b with
                      | [] => none
                      | c2 :: r3 =>
                        if isJsDigit x = true ∧ isJsDigit y = true ∧ c2 = ']' then
                          some ([':', a, b, ':', x, y], r3)
                        else none
                else none
            else none
        else none
    else none

/-- Parse `\d{1,2}:\d{2}(?::\d{2})?\]` (greedy one-or-two hour digits). -/
def tryTs : List Char → Option (List Char × List Char)
  | [] => none
  | a :: t =>
    if isJsDigit a = true then
      match t with
      | b :: t2 =>
        if isJsDigit b = true then
          match tryTsTail t2 with
          | some p => some (a :: b :: p.1, p.2)
          | none =>
            match tryTsTail t with
            | some p => some (a :: p.1, p.2)
            | none => none
        else
          match tryTsTail t with
          | some p => some (a :: p.1, p.2)
          | none => none
      | [] => none
    else none

/-- Scanner for `/\[(\d{1,2}:\d{2}(?::\d{2})?)\]/g` replaced by
`<span class="timestamp">[$1]</span>`. -/
def stageFGo : Nat → List Char → List Char
  | 0, l => l
  | _ + 1, [] => []
  | fuel + 1, c :: t =>
    if c = '[' then
      match tryTs t with
      | some p =>
        "<span class=\"timestamp\">[".data ++ p.1 ++ "]</span>".data ++ stageFGo fuel p.2
      | none => c :: stageFGo fuel t
    else c :: stageFGo fuel t

/-- The timestamp stage. -/
def stageF (l : List Char) : List Char := stageFGo l.length l

/-- `toInlineHtml`: escape, then the six replaces in source order. -/
def toInlineHtml (raw : List Char) : List Char :=
  stageF (stageE (stageD (stageC (stageB (stageA (esc raw))))))

/-- Number of leading `#` characters (`line.match(/^#+/)[0].length`). -/
def hashCount : List Char → Nat
  | '#' :: t => hashCount t + 1
  | _ => 0

/-- `/^#+\s+/.test(line)`. -/
def headingTest (l : List Char) : Bool :=
  decide (1 ≤ hashCount l) &&
    (match l.drop (hashCount l) with
     | c :: _ => jsWs c
     | [] => false)

/-- `line.replace(/^#+\s+/, "")` under a successful heading test. -/
def headingContent (l : List Char) : List Char :=
  (l.drop (hashCount l)).drop (wsCount (l.drop (hashCount l)))

/-- `Math.min(6, hashes)`. -/
def headingLevel (l : List Char) : Nat := min 6 (hashCount l)

/-- `<h${level}>`. -/
def hOpen (lvl : Nat) : List Char := '<' :: 'h' :: Char.ofNat (48 + lvl) :: ['>']

/-- `</h${level}>`. -/
def hClose (lvl : Nat) : List Char := '<' :: '/' :: 'h' :: Char.ofNat (48 + lvl) :: ['>']

/-- Lengths of the valid instantiations of the prefix `\*?\s*\*\*`
(the `\s*` before the literal `**` is forced to the maximal run). -/
def h3PreLens (l : List Char) : List Nat :=
  (match l with
   | '*' :: t =>
     if "**".data.isPrefixOf (t.drop (wsCount t)) = true then [1 + (wsCount t + 2)] else []
   | _ => []) ++
  (if "**".data.isPrefixOf (l.drop (wsCount l)) = true then [wsCount l + 2] else [])

/-- Lengths of the valid instantiations of the suffix `\*\*\s*\*?$`,
computed on the reversed line. -/
def h3SufLens (l : List Char) : List Nat :=
  (match l.reverse with
   | '*' :: r =>
     if "**".data.isPrefixOf (r.drop (wsCount r)) = true then [1 + (wsCount r + 2)] else []
   | _ => []) ++
  (if "**".data.isPrefixOf (l.reverse.drop (wsCount l.reverse)) = true then
    [wsCount l.reverse + 2]
  else [])

/-- `/^\*?\s*\*\*[\s\S]+\*\*\s*\*?$/.test(line)`: an anchored match
exists iff some valid prefix and suffix leave at least one middle
character. -/
def h3Test (l : List Char) : Bool :=
  (h3PreLens l).any (fun p => (h3SufLens l).any (fun q => decide (p + q < l.length)))

/-- `line.replace(/^\*?\s*/, "")`. -/
def stripLeadStarWs (l : List Char) : List Char :=
  match l with
  | '*' :: t => t.drop (wsCount t)
  | _ => l.drop (wsCount l)

/-- `line.replace(/\s*\*?$/, "")`: the leftmost end-anchored match is
the longest suffix of the form `\s*\*?`. -/
def stripTrailWsStar (l : List Char) : List Char :=
  match l.reverse with
  | '*' :: r => (r.drop (wsCount r)).reverse
  | c :: r => if jsWs c = true then ((c :: r).drop (wsCount (c :: r))).reverse else l
  | [] => l

/-- The h3 branch content. -/
def h3Inner (l : List Char) : List Char := stripTrailWsStar (stripLeadStarWs l)

/-- `/^[-*•]\s+/.test(line)`. -/
def bulletTest (l : List Char) : Bool :=
  match l with
  | c :: d :: _ => decide (c = '-' ∨ c = '*' ∨ c = '•') && jsWs d
  | _ => false

/-- `line.replace(/^[-*•]\s+/, "")`. -/
def bulletContent (l : List Char) : List Char :=
  (l.drop 1).drop (wsCount (l.drop 1))

/-- One iteration of the renderer's line loop. -/
def renderLine (original : List Char) : List Char :=
  let line := trimJs original
  if line.isEmpty = true then []
  else if headingTest line = true then
    hOpen (headingLevel line) ++ toInlineHtml (headingContent line) ++
      hClose (headingLevel line)
  else if h3Test line = true then
    "<h3>".data ++ toInlineHtml (h3Inner line) ++ "</h3>".data
  else if bulletTest line = true then
    "<li>".data ++ toInlineHtml (bulletContent line) ++ "</li>".data
  else "<p>".data ++ toInlineHtml line ++ "</p>".data

/-- Split at the first `</li>` (the lazy `[\s\S]*?<\/li>`). -/
def findCloseLi : List Char → Option (List Char × List Char)
  | [] => none
  | c :: t =>
    if "</li>".data.isPrefixOf (c :: t) = true then some ([], (c :: t).drop 5)
    else (findCloseLi t).map (fun p => (c :: p.1, p.2))

/-- One unit `<li>[\s\S]*?<\/li>\n?` of the list-wrapping regex. -/
def parseLiUnit (l : List Char) : Option (List Char × List Char) :=
  if "<li>".data.isPrefixOf l = true then
    (findCloseLi (l.drop 4)).map (fun p =>
      if firstIs '\n' p.2 = true then
        ("<li>".data ++ p.1 ++ "</li>".data ++ ['\n'], p.2.drop 1)
      else ("<li>".data ++ p.1 ++ "</li>".data, p.2))
  else none

/-- One or more consecutive units (the greedy `+`). -/
def parseLiRun : Nat → List Char → Option (List Char × List Char)
  | 0, _ => none
  | fuel + 1, l =>
    (parseLiUnit l).map (fun u =>
      (parseLiRun fuel u.2).elim u (fun m => (u.1 ++ m.1, m.2)))

/-- Scanner for
`joined.replace(/(?:<li>[\s\S]*?<\/li>\n?)+/g, (m) => ...)`. -/
def ulWrapGo : Nat → List Char → List Char
  | 0, l => l
  | _ + 1, [] => []
  | fuel + 1, c :: t =>
    match parseLiRun (c :: t).length (c :: t) with
    | some m =>
      "<ul class=\"list\">\n".data ++ m.1 ++ "\n</ul>\n".data ++ ulWrapGo fuel m.2
    | none => c :: ulWrapGo fuel t

/-- `html.join("\n")`. -/
def joinNl : List (List Char) → List Char
  | [] => []
  | [x] => x
  | x :: y :: t => x ++ '\n' :: joinNl (y :: t)

/-- The whole of `renderRichSummary` over a character list. -/
def renderRichSummaryL (text : List Char) : List Char :=
  ulWrapGo (joinNl ((splitLinesGo [] text).map renderLine)).length
    (joinNl ((splitLinesGo [] text).map renderLine))

/-- `renderRichSummary`. -/
def renderRichSummary (text : String) : String :=
  ⟨renderRichSummaryL text.data⟩

/-- The three entities emitted by `esc`. -/
def entAtoms : List (List Char) := ["&amp;".data, "&lt;".data, "&gt;".data]

/-- Tags emitted by the bold/italic stages. -/
def inlineTagAtoms : List (List Char) :=
  ["<em>".data, "</em>".data, "<strong>".data, "</strong>".data]

/-- Atom alphabet after the bold/italic stages. -/
def inlineAtoms : List (List Char) := entAtoms ++ inlineTagAtoms

/-- Tags emitted by the timestamp stage. -/
def spanAtoms : List (List Char) :=
  ["<span class=\"timestamp\">".data, "</span>".data]

/-- Atom alphabet of `toInlineHtml` output. -/
def fullInlineAtoms : List (List Char) := inlineAtoms ++ spanAtoms

/-- Tags emitted by the line loop and the list wrapper. -/
def blockTagAtoms : List (List Char) :=
  ["<h1>".data, "</h1>".data, "<h2>".data, "</h2>".data, "<h3>".data, "</h3>".data,
   "<h4>".data, "</h4>".data, "<h5>".data, "</h5>".data, "<h6>".data, "</h6>".data,
   "<p>".data, "</p>".data, "<li>".data, "</li>".data,
   "<ul class=\"list\">".data, "</ul>".data]

/-- Every string the renderer may emit between plain characters. -/
def htmlAtoms : List (List Char) := fullInlineAtoms ++ blockTagAtoms

/-- A list is made of allowed atoms and plain characters: every `<`, `>`
or `&` lies inside an atom of `A`. -/
inductive InAt (A : List (List Char)) : List Char → Prop
  | nil : InAt A []
  | chr {c : Char} {t : List Char} :
      c ≠ '<' → c ≠ '>' → c ≠ '&' → InAt A t → InAt A (c :: t)
  | tok {a t : List Char} : a ∈ A → InAt A t → InAt A (a ++ t)

/-- Executable safety checker: consume allowed atoms at `<` and `&`,
reject any `<`, `>` or `&` outside them. -/
def safeOkGo : Nat → List Char → Bool
  | 0, l => l.isEmpty
  | _ + 1, [] => true
  | fuel + 1, c :: t =>
    if c = '<' ∨ c = '&' then
      match (htmlAtoms.filter (fun a => a.isPrefixOf (c :: t))).head? with
      | some a => safeOkGo (fuel - (a.length - 1)) ((c :: t).drop a.length)
      | none => false
    else if c = '>' then false
    else safeOkGo fuel t

/-- Top-level checker. -/
def safeOk (l : List Char) : Bool := safeOkGo l.length l

-- ===== end of definitions (theorems follow) =====

/-! ## General helper lemmas -/

theorem padStart2_eq_pad2 : ∀ x < 60, padStart2 (toString x) = pad2 x := by decide

theorem ratFloor_eq (q : ℚ) : Rat.floor q = ⌊q⌋ := by
  rw [Rat.floor_def, Rat.floor_def']

theorem isPrefixOf_append (l r : List Char) : l.isPrefixOf (l ++ r) = true := by
  rw [List.isPrefixOf_iff_prefix]
  exact List.prefix_append l r

theorem append_isEmpty_false (p x : String) (hp : p.data ≠ []) :
    (p ++ x).isEmpty = false := by
  rw [Bool.eq_false_iff]
  intro hemp
  rw [String.isEmpty_iff] at hemp
  have hd := congrArg String.data hemp
  rw [String.data_append] at hd
  have hz : p.data ++ x.data = ([] : List Char) := hd
  exact hp (List.append_eq_nil.mp hz).1

/-! ## C7: `formatTimestamp` -/

/-- C7: `formatTimestamp` renders any number of seconds as `m:ss` when the
floored, zero-clamped value is under one hour and as `h:mm:ss` otherwise,
with the `mm`/`ss` components zero-padded to two digits and hours (and the
sub-hour minute digit) unpadded; fractional input is floored (the rendering
depends only on `⌊q⌋`) and negative input renders as `0:00`. -/
theorem formatTimestamp_renders_clamped_floor (q : ℚ) :
    formatTimestamp q = formatTimestampSpec ((max 0 ⌊q⌋).toNat)
      ∧ (q < 0 → formatTimestamp q = "0:00") := by
  have hm : formatTimestamp q = formatTimestampSpec ((max 0 ⌊q⌋).toNat) := by
    unfold formatTimestamp formatTimestampSpec
    rw [ratFloor_eq]
    set n := (max 0 ⌊q⌋).toNat with hn
    by_cases h36 : n < 3600
    · have h0 : n / 3600 = 0 := Nat.div_eq_of_lt h36
      have hmod : n % 3600 = n := Nat.mod_eq_of_lt h36
      simp only [h0, gt_iff_lt, Nat.lt_irrefl, if_false, hmod, if_pos h36]
      rw [padStart2_eq_pad2 _ (Nat.mod_lt _ (by norm_num))]
    · have h0 : n / 3600 > 0 := Nat.div_pos (by omega) (by norm_num)
      rw [if_pos h0, if_neg h36,
        padStart2_eq_pad2 _ (by have := Nat.mod_lt (n % 3600) (show 0 < 60 by norm_num); omega),
        padStart2_eq_pad2 _ (Nat.mod_lt _ (by norm_num))]
  refine ⟨hm, fun hq => ?_⟩
  have hfl : ⌊q⌋ < 0 := by
    rw [Int.floor_lt]
    exact_mod_cast hq
  have hz : (max 0 ⌊q⌋).toNat = 0 := by
    rw [max_eq_left hfl.le]
    rfl
  rw [hm, hz]
  rfl

/-- Witness for C7 at the concrete inputs `-7/2` (negative, fractional) and
`3725` (above one hour). -/
theorem formatTimestamp_renders_clamped_floor_witness :
    (-(7:ℚ)/2 < 0 ∧ formatTimestamp (-(7:ℚ)/2) = "0:00")
      ∧ formatTimestamp 3725 = "1:02:05" := by
  refine ⟨⟨by norm_num, (formatTimestamp_renders_clamped_floor _).2 (by norm_num)⟩, ?_⟩
  have h := (formatTimestamp_renders_clamped_floor 3725).1
  rw [h]
  norm_num
  rfl

/-! ## C9: basic-auth edge middleware -/

theorem strStartsWith_append (p x : String) :
    strStartsWith (p ++ x) p = true := by
  unfold strStartsWith
  rw [String.data_append]
  exact isPrefixOf_append _ _

theorem basicAuthEdge_some_some (u p : String) (hu : u.isEmpty = false)
    (hp : p.isEmpty = false) (ah : Option String) :
    basicAuthEdge (some u) (some p) ah =
      if ah = some ("Basic " ++ btoa (u ++ ":" ++ p)) then .next
      else unauthorizedResponse := by
  unfold basicAuthEdge
  simp only [falsyStr, hu, hp, Bool.or_self, Bool.false_eq_true, if_false, Option.getD]
  cases ah with
  | none => simp
  | some h =>
    simp only [Option.some.injEq]
    by_cases hhe : h = "Basic " ++ btoa (u ++ ":" ++ p)
    · subst hhe
      rw [if_pos rfl, append_isEmpty_false "Basic " _ (by decide), strStartsWith_append]
      simp
    · rw [if_neg hhe, if_pos (show h ≠ "Basic " ++ btoa (u ++ ":" ++ p) from hhe)]
      split_ifs <;> rfl

/-- C9: the middleware blocks nothing when `BASIC_AUTH_USER` or
`BASIC_AUTH_PASS` is unset or empty; when both are set it forwards the
request if and only if the Authorization header is exactly
`Basic <base64(user:pass)>`, and otherwise answers 401 with a
`WWW-Authenticate: Basic` challenge and `Cache-Control: no-store`. -/
theorem basicAuthEdge_access_control (user pass ah : Option String) :
    (falsyStr user = true ∨ falsyStr pass = true → basicAuthEdge user pass ah = .next)
    ∧ (∀ u p, user = some u → pass = some p → u.isEmpty = false → p.isEmpty = false →
        ((basicAuthEdge user pass ah = .next ↔ ah = some ("Basic " ++ btoa (u ++ ":" ++ p)))
          ∧ (ah ≠ some ("Basic " ++ btoa (u ++ ":" ++ p)) →
              basicAuthEdge user pass ah = unauthorizedResponse)))
    ∧ unauthorizedResponse
        = .blocked 401
            [("WWW-Authenticate", "Basic realm=\"Restricted\""), ("Cache-Control", "no-store")]
            "Unauthorized" := by
  refine ⟨?_, ?_, rfl⟩
  · intro h
    unfold basicAuthEdge
    rcases h with h | h <;> simp [h]
  · rintro u p rfl rfl hu hp
    rw [basicAuthEdge_some_some u p hu hp ah]
    by_cases hah : ah = some ("Basic " ++ btoa (u ++ ":" ++ p))
    · rw [if_pos hah]
      exact ⟨⟨fun _ => hah, fun _ => rfl⟩, fun hne => absurd hah hne⟩
    · rw [if_neg hah]
      refine ⟨⟨fun hx => ?_, fun hx => absurd hx hah⟩, fun _ => rfl⟩
      exact absurd hx (by simp [unauthorizedResponse])

/-- Witness for C9 at concrete credentials and headers. -/
theorem basicAuthEdge_access_control_witness :
    basicAuthEdge (some "alice") (some "secret")
        (some ("Basic " ++ btoa ("alice" ++ ":" ++ "secret"))) = .next
      ∧ basicAuthEdge none none none = .next := by
  constructor
  · exact ((basicAuthEdge_access_control _ _ _).2.1 "alice" "secret" rfl rfl
      (by decide) (by decide)).1.mpr rfl
  · exact (basicAuthEdge_access_control _ _ _).1 (Or.inl rfl)

/-! ## C3: normalization of flat string content -/

/-- C3 counterexample: a 200 response whose `content` is the *empty* flat
string is returned by `requestSupadata` unchanged — its result keeps the
string content (it is not a single zero-offset chunk) and its language is
not defaulted, because the guard `json.content && ...` is falsy for `""`. -/
theorem requestSupadata_empty_string_passthrough :
    requestSupadata (.http200 ⟨.str "", some "de", some ["de"]⟩)
        = .ok (.inl ⟨.str "", some "de", some ["de"]⟩)
      ∧ ∀ cs, (ContentVal.str "" : ContentVal) ≠ ContentVal.chunks cs := by
  exact ⟨rfl, fun cs h => ContentVal.noConfusion h⟩

/-- C3 (amended): successful retrievals are normalized to timestamped
chunks, with the one caveat the counterexample forces: in the immediate
HTTP 200 response the flat-string normalization applies to a *non-empty*
string (an empty one passes through unchanged there and only `perform`
turns it into a chunk); a completed job result and `perform` normalize any
non-array content into a single chunk with offset 0 and duration 0 whose
language defaults to `en` when the response carries none; chunk arrays are
passed through unchanged everywhere. -/
theorem transcript_normalization_spec :
    (∀ (s : String) (lang : Option String) (al : Option (List String)),
        s.isEmpty = false →
        requestSupadata (.http200 ⟨.str s, lang, al⟩)
          = .ok (.inl ⟨.chunks [⟨s, 0, 0, jsOrStr lang "en"⟩],
              some (jsOrStr lang "en"), some (al.getD [])⟩))
    ∧ (∀ (cs : List SupadataChunk) (lang : Option String) (al : Option (List String)),
        requestSupadata (.http200 ⟨.chunks cs, lang, al⟩)
          = .ok (.inl ⟨.chunks cs, lang, al⟩))
    ∧ (∀ (lang : Option String) (al : Option (List String)),
        requestSupadata (.http200 ⟨.str "", lang, al⟩)
          = .ok (.inl ⟨.str "", lang, al⟩))
    ∧ (∀ j : JobStatusJson, j.status = .completed →
        pollSupadataJobD (fun _ => .job j) = .ok (completedResult j))
    ∧ (∀ (st : JobPhase) (s : String) (lang : Option String)
          (al : Option (List String)) (ej : String),
        completedResult ⟨st, .str s, lang, al, ej⟩
          = ⟨.chunks [⟨s, 0, 0, jsOrStr lang "en"⟩], some (jsOrStr lang "en"), al⟩)
    ∧ (∀ (st : JobPhase) (cs : List SupadataChunk) (lang : Option String)
          (al : Option (List String)) (ej : String),
        completedResult ⟨st, .chunks cs, lang, al, ej⟩
          = ⟨.chunks cs, some (jsOrStr lang "en"), al⟩)
    ∧ (∀ (imm : Json200) (s : String), imm.content = .str s →
        itemsOfImmediate imm = [⟨s, 0, 0, jsOrStr imm.lang "en"⟩])
    ∧ (∀ (imm : Json200) (cs : List SupadataChunk), imm.content = .chunks cs →
        itemsOfImmediate imm = cs)
    ∧ jsOrStr none "en" = "en" := by
  refine ⟨?_, fun cs lang al => rfl, fun lang al => rfl, ?_, fun st s lang al ej => rfl,
    fun st cs lang al ej => rfl, ?_, ?_, rfl⟩
  · intro s lang al hs
    unfold requestSupadata
    simp only [hs, Bool.false_eq_true, if_false]
  · intro j hj
    unfold pollSupadataJobD pollSupadataJob pollLoop
    simp only [show (0 * 1500 < 60000) = True by simp, if_true]
    rw [hj]
  · intro imm s h
    unfold itemsOfImmediate
    rw [h]
  · intro imm cs h
    unfold itemsOfImmediate
    rw [h]

/-- Witness for C3's amended theorem at concrete payloads. -/
theorem transcript_normalization_spec_witness :
    requestSupadata (.http200 ⟨.str "hello", none, none⟩)
        = .ok (.inl ⟨.chunks [⟨"hello", 0, 0, "en"⟩], some "en", some []⟩)
      ∧ pollSupadataJobD (fun _ => .job ⟨.completed, .str "hi", none, none, "{}"⟩)
          = .ok ⟨.chunks [⟨"hi", 0, 0, "en"⟩], some "en", none⟩ := by
  constructor
  · exact transcript_normalization_spec.1 "hello" none none rfl
  · exact transcript_normalization_spec.2.2.2.1 ⟨.completed, .str "hi", none, none, "{}"⟩ rfl

/-! ## C4: job polling -/

theorem pollLoop_step_pending (responses : Nat → PollResponse) (t v fuel i : Nat)
    (last : String) (hcond : i * v < t) (hp : pendingPoll (responses i) = true) :
    pollLoop responses t v (fuel + 1) i last
      = pollLoop responses t v fuel (i + 1) (statusStrOf (responses i)) := by
  conv_lhs => rw [pollLoop]
  rw [if_pos hcond]
  cases hr : responses i with
  | httpErr st b => rw [hr] at hp; simp [pendingPoll] at hp
  | job j =>
    rw [hr] at hp
    cases hst : j.status with
    | completed => simp [pendingPoll, hst] at hp
    | failed => simp [pendingPoll, hst] at hp
    | queued => simp [hst, statusStrOf, hr, JobPhase.toStr]
    | active => simp [hst, statusStrOf, hr, JobPhase.toStr]

theorem pollLoop_step_completed (responses : Nat → PollResponse) (t v fuel i : Nat)
    (last : String) (j : JobStatusJson) (hcond : i * v < t)
    (hr : responses i = .job j) (hst : j.status = .completed) :
    pollLoop responses t v (fuel + 1) i last = .ok (completedResult j) := by
  conv_lhs => rw [pollLoop]
  rw [if_pos hcond]
  simp [hr, hst]

theorem pollLoop_step_failed (responses : Nat → PollResponse) (t v fuel i : Nat)
    (last : String) (j : JobStatusJson) (hcond : i * v < t)
    (hr : responses i = .job j) (hst : j.status = .failed) :
    pollLoop responses t v (fuel + 1) i last = .error (pollFailMsg j.errJson) := by
  conv_lhs => rw [pollLoop]
  rw [if_pos hcond]
  simp [hr, hst]

theorem pollLoop_step_httpErr (responses : Nat → PollResponse) (t v fuel i : Nat)
    (last : String) (st : Nat) (b : String) (hcond : i * v < t)
    (hr : responses i = .httpErr st b) :
    pollLoop responses t v (fuel + 1) i last = .error (pollHttpErrMsg st b) := by
  conv_lhs => rw [pollLoop]
  rw [if_pos hcond]
  simp [hr]

theorem pollLoop_step_timeout (responses : Nat → PollResponse) (t v fuel i : Nat)
    (last : String) (hcond : ¬ i * v < t) :
    pollLoop responses t v (fuel + 1) i last = .error (pollTimeoutMsg last) := by
  conv_lhs => rw [pollLoop]
  rw [if_neg hcond]

theorem pollLoop_skip (responses : Nat → PollResponse) (k : Nat) :
    ∀ i last, i + k ≤ 40 →
      (∀ t, t < k → pendingPoll (responses (i + t)) = true) →
      pollLoop responses 60000 1500 (41 - i) i last
        = pollLoop responses 60000 1500 (41 - (i + k)) (i + k)
            (if k = 0 then last else statusStrOf (responses (i + k - 1))) := by
  induction k with
  | zero => intro i last _ _; simp
  | succ k ih =>
    intro i last hik hpend
    have hfuel : 41 - i = (41 - (i + 1)) + 1 := by omega
    rw [hfuel]
    have hcond : i * 1500 < 60000 := by omega
    have h0 := hpend 0 (by omega)
    simp only [Nat.add_zero] at h0
    rw [pollLoop_step_pending responses 60000 1500 _ i last hcond h0]
    have := ih (i + 1) (statusStrOf (responses i)) (by omega)
      (fun t ht => by
        have := hpend (t + 1) (by omega)
        simpa [Nat.add_assoc, Nat.add_comm 1 t] using this)
    rw [this]
    have e1 : i + 1 + k = i + (k + 1) := by omega
    rw [e1]
    by_cases hk : k = 0
    · subst hk
      simp
    · rw [if_neg hk, if_neg (by omega : ¬ k + 1 = 0)]

theorem pollLoop_congr (r1 r2 : Nat → PollResponse) (t v : Nat)
    (h : ∀ i, i * v < t → r1 i = r2 i) :
    ∀ fuel i last, pollLoop r1 t v fuel i last = pollLoop r2 t v fuel i last := by
  intro fuel
  induction fuel with
  | zero => intro i last; rfl
  | succ fuel ih =>
    intro i last
    unfold pollLoop
    by_cases hc : i * v < t
    · rw [if_pos hc, if_pos hc, h i hc]
      cases hr : r2 i with
      | httpErr st b => rfl
      | job j =>
        obtain ⟨st, c, l, a, e⟩ := j
        cases st with
        | completed => rfl
        | failed => rfl
        | queued => exact ih (i + 1) _
        | active => exact ih (i + 1) _
    · rw [if_neg hc, if_neg hc]

/-- C4: at the default timeout of 60000 ms and poll interval of 1500 ms, the
job endpoint is polled at elapsed times `i * 1500 < 60000`, i.e. at most 40
times.  With every earlier poll still `queued`/`active`: a poll reporting
`completed` makes `pollSupadataJob` return the normalized result, a poll
reporting `failed` or answering a non-OK HTTP status makes it throw, and if
all 40 polls stay pending it throws a timeout error carrying the last
observed status.  The result depends only on the first 40 poll responses. -/
theorem pollSupadataJob_protocol (responses : Nat → PollResponse) :
    (∀ k, k < 40 → (∀ t, t < k → pendingPoll (responses t) = true) →
      (∀ j, responses k = .job j → j.status = .completed →
          pollSupadataJobD responses = .ok (completedResult j))
      ∧ (∀ j, responses k = .job j → j.status = .failed →
          pollSupadataJobD responses = .error (pollFailMsg j.errJson))
      ∧ (∀ st b, responses k = .httpErr st b →
          pollSupadataJobD responses = .error (pollHttpErrMsg st b)))
    ∧ ((∀ t, t < 40 → pendingPoll (responses t) = true) →
        pollSupadataJobD responses = .error (pollTimeoutMsg (statusStrOf (responses 39))))
    ∧ (∀ rs2 : Nat → PollResponse, (∀ t, t < 40 → responses t = rs2 t) →
        pollSupadataJobD responses = pollSupadataJobD rs2) := by
  have hD : pollSupadataJobD responses = pollLoop responses 60000 1500 (41 - 0) 0 "" := rfl
  refine ⟨?_, ?_, ?_⟩
  · intro k hk hpend
    have hskip := pollLoop_skip responses k 0 "" (by omega)
      (fun t ht => by simpa using hpend t ht)
    simp only [Nat.zero_add] at hskip
    have hfuel : 41 - k = (40 - k) + 1 := by omega
    have hcond : k * 1500 < 60000 := by omega
    refine ⟨?_, ?_, ?_⟩
    · intro j hr hst
      rw [hD, hskip, hfuel, pollLoop_step_completed responses 60000 1500 _ k _ j hcond hr hst]
    · intro j hr hst
      rw [hD, hskip, hfuel, pollLoop_step_failed responses 60000 1500 _ k _ j hcond hr hst]
    · intro st b hr
      rw [hD, hskip, hfuel, pollLoop_step_httpErr responses 60000 1500 _ k _ st b hcond hr]
  · intro hpend
    have hskip := pollLoop_skip responses 40 0 "" (by omega)
      (fun t ht => by simpa using hpend t ht)
    simp only [Nat.zero_add] at hskip
    rw [hD, hskip]
    rw [show (41 - 40 : Nat) = 0 + 1 from rfl]
    rw [pollLoop_step_timeout responses 60000 1500 0 40 _ (by omega)]
    rfl
  · intro rs2 hagree
    rw [hD]
    have := pollLoop_congr responses rs2 60000 1500
      (fun i hi => hagree i (by omega)) 41 0 ""
    rw [this]
    rfl

/-- Witness for C4 at concrete poll streams: an always-active job times out
with the last status in the message, and an immediately completed job
returns its normalized content. -/
theorem pollSupadataJob_protocol_witness :
    pollSupadataJobD (fun _ => .job ⟨.active, .nullv, none, none, "{}"⟩)
        = .error "Supadata job polling timed out (last status: active)"
      ∧ pollSupadataJobD (fun _ => .job ⟨.completed, .chunks [], some "en", none, "{}"⟩)
          = .ok ⟨.chunks [], some "en", none⟩ := by
  constructor
  · exact (pollSupadataJob_protocol _).2.1 (fun t ht => rfl)
  · exact ((pollSupadataJob_protocol _).1 0 (by omega) (fun t ht => by omega)).1
      ⟨.completed, .chunks [], some "en", none, "{}"⟩ rfl rfl

/-! ## C1 and C2: the fallback chain of `getTranscriptWithFallbacks` -/

theorem perform_log_shape (e : AttemptEnv) (m : Mode) (l : Option String) :
    (perform e m l).2 ≠ []
      ∧ ∀ rec ∈ (perform e m l).2, rec.mode = m ∧ rec.lang = l := by
  unfold perform
  cases hreq : requestSupadata e.request with
  | error msg => simp [errRecord]
  | ok v =>
    cases v with
    | inl imm => simp [okRecord]
    | inr jid =>
      cases hpoll : pollSupadataJobD e.polls with
      | error msg => simp [jobRecord, errRecord]
      | ok imm => simp [jobRecord, okRecord]

theorem swallowAttempt_snd_mem (cur : PerformResult × List TranscriptAttemptRecord)
    (att : Except String PerformResult × List TranscriptAttemptRecord)
    (rec : TranscriptAttemptRecord) (h : rec ∈ (swallowAttempt cur att).2) :
    rec ∈ cur.2 ∨ rec ∈ att.2 := by
  obtain ⟨a, l⟩ := att
  cases a with
  | error msg => simpa [swallowAttempt] using (List.mem_append.mp h)
  | ok n =>
    unfold swallowAttempt at h
    simpa using (List.mem_append.mp h)

/-- Common reduction: when the initial attempt returns `r0` and the English
retry (if its precondition holds) returns an empty result, the function
computes the native/generate chain over `r0` with some accumulated log. -/
theorem getTranscript_reduces_to_chain
    (env : Mode → Option String → AttemptEnv) (pe : Option Bool) (fm : Option Mode)
    (im : Mode) (r0 : PerformResult) (log0 : List TranscriptAttemptRecord)
    (him : im = fm.getD .auto)
    (h0 : perform (env im none) im none = (.ok r0, log0))
    (hEn : (pe ≠ some false ∧ r0.lang ≠ some "en" ∧ r0.availableLangs.contains "en" = true) →
      ∃ r1 log1, perform (env im (some "en")) im (some "en") = (.ok r1, log1)
        ∧ r1.items = []) :
    ∃ logE,
      getTranscriptWithFallbacks env pe fm
        = (let s2 := if r0.items.length = 0 ∧ im ≠ .native then
              swallowAttempt (r0, logE) (perform (env .native none) .native none)
            else (r0, logE);
          let s3 := if s2.1.items.length = 0 ∧ im ≠ .generate then
              swallowAttempt s2 (perform (env .generate none) .generate none)
            else s2;
          (.ok s3.1, s3.2))
      ∧ (∀ rec ∈ logE, rec ∈ (perform (env im none) im none).2
          ∨ rec ∈ (perform (env im (some "en")) im (some "en")).2) := by
  by_cases hc : (pe ≠ some false ∧ r0.lang ≠ some "en" ∧ r0.availableLangs.contains "en" = true)
  · obtain ⟨r1, log1, hEq, hEmp⟩ := hEn hc
    refine ⟨log0 ++ log1, ?_, ?_⟩
    · simp only [getTranscriptWithFallbacks, ← him, h0, hEq, if_pos hc, hEmp,
        List.length_nil, ne_eq, not_true_eq_false, if_false, ite_false]
    · intro rec hrec
      rcases List.mem_append.mp hrec with h | h
      · exact Or.inl (by rw [h0]; exact h)
      · exact Or.inr (by rw [hEq]; exact h)
  · refine ⟨log0, ?_, ?_⟩
    · simp only [getTranscriptWithFallbacks, ← him, h0, if_neg hc]
    · intro rec hrec
      exact Or.inl (by rw [h0]; exact hrec)

/-- C1 counterexample: a call whose initial (`auto`) attempt succeeds with an
empty item list, but where the explicit English retry is available and
non-empty: the retry result is adopted and the claimed `native`/`generate`
mode fallbacks are never attempted (no such attempt record exists), although
a non-empty `native` fallback was available. -/
theorem getTranscript_english_preempts_mode_fallback :
    (perform (cxEnvEnglishPreempt .auto none) .auto none).1
        = .ok ⟨[], some "de", ["en"]⟩
      ∧ (perform (cxEnvEnglishPreempt .native none) .native none).1
          = .ok ⟨[⟨"native subtitle", 0, 0, "en"⟩], some "en", []⟩
      ∧ (getTranscriptWithFallbacks cxEnvEnglishPreempt (some true) none).1
          = .ok ⟨[⟨"english subtitle", 0, 0, "en"⟩], some "en", []⟩
      ∧ ∀ rec ∈ (getTranscriptWithFallbacks cxEnvEnglishPreempt (some true) none).2,
          rec.mode ≠ Mode.native ∧ rec.mode ≠ Mode.generate := by
  refine ⟨rfl, rfl, rfl, ?_⟩
  decide

/-- C1 (amended): when the initial attempt succeeds with an empty item list
and the English retry, in case its preconditions hold, also succeeds with an
empty item list, the function falls back across modes: it attempts `native`
(when the initial mode is not `native`); if the result is still empty it
attempts `generate` (when the initial mode is not `generate`); the first
non-empty fallback result is adopted, exceptions of these fallback attempts
are swallowed, and the original empty result is returned when every fallback
is skipped, empty or failing. -/
theorem getTranscript_mode_fallback_on_empty
    (env : Mode → Option String → AttemptEnv) (pe : Option Bool) (fm : Option Mode)
    (im : Mode) (r0 : PerformResult) (log0 : List TranscriptAttemptRecord)
    (him : im = fm.getD .auto)
    (h0 : perform (env im none) im none = (.ok r0, log0))
    (hempty : r0.items = [])
    (hEn : (pe ≠ some false ∧ r0.lang ≠ some "en" ∧ r0.availableLangs.contains "en" = true) →
      ∃ r1 log1, perform (env im (some "en")) im (some "en") = (.ok r1, log1)
        ∧ r1.items = []) :
    (im ≠ .native → ∀ n logN,
        perform (env .native none) .native none = (.ok n, logN) → n.items ≠ [] →
        (getTranscriptWithFallbacks env pe fm).1 = .ok n
          ∧ ∃ rec ∈ (getTranscriptWithFallbacks env pe fm).2, rec.mode = .native)
    ∧ ((im = .native ∨
          (∃ n logN, perform (env .native none) .native none = (.ok n, logN)
            ∧ n.items = []) ∨
          (∃ msg logN, perform (env .native none) .native none = (.error msg, logN))) →
        im ≠ .generate → ∀ g logG,
        perform (env .generate none) .generate none = (.ok g, logG) → g.items ≠ [] →
        (getTranscriptWithFallbacks env pe fm).1 = .ok g
          ∧ ∃ rec ∈ (getTranscriptWithFallbacks env pe fm).2, rec.mode = .generate)
    ∧ ((im = .native ∨
          (∃ n logN, perform (env .native none) .native none = (.ok n, logN)
            ∧ n.items = []) ∨
          (∃ msg logN, perform (env .native none) .native none = (.error msg, logN))) →
        (im = .generate ∨
          (∃ g logG, perform (env .generate none) .generate none = (.ok g, logG)
            ∧ g.items = []) ∨
          (∃ msg logG, perform (env .generate none) .generate none = (.error msg, logG))) →
        (getTranscriptWithFallbacks env pe fm).1 = .ok r0) := by
  obtain ⟨logE, hE, _⟩ := getTranscript_reduces_to_chain env pe fm im r0 log0 him h0 hEn
  have hlen0 : r0.items.length = 0 := by rw [hempty]; rfl
  refine ⟨?_, ?_, ?_⟩
  · intro hnn n logN hnat hne
    have hcond : r0.items.length = 0 ∧ im ≠ Mode.native := ⟨hlen0, hnn⟩
    have hnlen : n.items.length ≠ 0 := by
      intro h
      exact hne (List.length_eq_zero.mp h)
    rw [hE]
    simp only [if_pos hcond, hnat, swallowAttempt, if_pos hnlen]
    constructor
    · simp [hnlen]
    · have hmem := perform_log_shape (env .native none) .native none
      obtain ⟨rec, hrec⟩ := List.exists_mem_of_ne_nil _ hmem.1
      refine ⟨rec, ?_, (hmem.2 rec hrec).1⟩
      rw [hnat] at hrec
      simp [hnlen]
      exact Or.inr hrec
  · intro hnu hng g logG hgen hgne
    have hglen : g.items.length ≠ 0 := by
      intro h
      exact hgne (List.length_eq_zero.mp h)
    -- in every native-useless case the second step starts from `r0`
    have hs2 : ∃ logE2, (if r0.items.length = 0 ∧ im ≠ Mode.native then
        swallowAttempt (r0, logE) (perform (env .native none) .native none)
      else (r0, logE)) = (r0, logE2) := by
      rcases hnu with hnat | ⟨n, logN, hnat, hnemp⟩ | ⟨msg, logN, hnat⟩
      · exact ⟨logE, by rw [if_neg (by simp [hnat])]⟩
      · by_cases hcn : r0.items.length = 0 ∧ im ≠ Mode.native
        · exact ⟨logE ++ logN, by rw [if_pos hcn]; simp [swallowAttempt, hnat, hnemp]⟩
        · exact ⟨logE, by rw [if_neg hcn]⟩
      · by_cases hcn : r0.items.length = 0 ∧ im ≠ Mode.native
        · exact ⟨logE ++ logN, by rw [if_pos hcn]; simp [swallowAttempt, hnat]⟩
        · exact ⟨logE, by rw [if_neg hcn]⟩
    obtain ⟨logE2, hs2⟩ := hs2
    rw [hE]
    simp only [hs2]
    have hcond : r0.items.length = 0 ∧ im ≠ Mode.generate := ⟨hlen0, hng⟩
    simp only [if_pos hcond, hgen, swallowAttempt, if_pos hglen]
    constructor
    · simp [hglen]
    · have hmem := perform_log_shape (env .generate none) .generate none
      obtain ⟨rec, hrec⟩ := List.exists_mem_of_ne_nil _ hmem.1
      refine ⟨rec, ?_, (hmem.2 rec hrec).1⟩
      rw [hgen] at hrec
      simp [hglen]
      exact Or.inr hrec
  · intro hnu hgu
    have hs2 : ∃ logE2, (if r0.items.length = 0 ∧ im ≠ Mode.native then
        swallowAttempt (r0, logE) (perform (env .native none) .native none)
      else (r0, logE)) = (r0, logE2) := by
      rcases hnu with hnat | ⟨n, logN, hnat, hnemp⟩ | ⟨msg, logN, hnat⟩
      · exact ⟨logE, by rw [if_neg (by simp [hnat])]⟩
      · by_cases hcn : r0.items.length = 0 ∧ im ≠ Mode.native
        · exact ⟨logE ++ logN, by rw [if_pos hcn]; simp [swallowAttempt, hnat, hnemp]⟩
        · exact ⟨logE, by rw [if_neg hcn]⟩
      · by_cases hcn : r0.items.length = 0 ∧ im ≠ Mode.native
        · exact ⟨logE ++ logN, by rw [if_pos hcn]; simp [swallowAttempt, hnat]⟩
        · exact ⟨logE, by rw [if_neg hcn]⟩
    obtain ⟨logE2, hs2⟩ := hs2
    rw [hE]
    simp only [hs2]
    rcases hgu with hgen | ⟨g, logG, hgen, hgemp⟩ | ⟨msg, logG, hgen⟩
    · rw [if_neg (by simp [hgen])]
    · by_cases hcg : r0.items.length = 0 ∧ im ≠ Mode.generate
      · rw [if_pos hcg]
        simp [swallowAttempt, hgen, hgemp]
      · rw [if_neg hcg]
    · by_cases hcg : r0.items.length = 0 ∧ im ≠ Mode.generate
      · rw [if_pos hcg]
        simp [swallowAttempt, hgen]
      · rw [if_neg hcg]

/-- Witness for C1's amended theorem: with an empty English initial result
and a non-empty native transcript, the native fallback is adopted. -/
theorem getTranscript_mode_fallback_on_empty_witness :
    (getTranscriptWithFallbacks cxEnvFallback (some true) none).1
      = .ok ⟨[⟨"native subtitle", 0, 0, "en"⟩], some "en", []⟩ := by
  have h := getTranscript_mode_fallback_on_empty cxEnvFallback (some true) none .auto
    ⟨[], some "en", []⟩ [okRecord .auto none ⟨.chunks [], some "en", some []⟩ []]
    rfl rfl rfl (fun hc => absurd rfl hc.2.1)
  exact (h.1 (by decide) ⟨[⟨"native subtitle", 0, 0, "en"⟩], some "en", []⟩
    [okRecord .native none ⟨.chunks [⟨"native subtitle", 0, 0, "en"⟩], some "en", some []⟩
      [⟨"native subtitle", 0, 0, "en"⟩]] rfl (by decide)).1

theorem swallowAttempt_snd (cur : PerformResult × List TranscriptAttemptRecord)
    (att : Except String PerformResult × List TranscriptAttemptRecord) :
    (swallowAttempt cur att).2 = cur.2 ++ att.2 := by
  obtain ⟨a, l⟩ := att
  cases a <;> rfl

/-- C2 counterexample: the explicit English retry runs although the initial
item list is *non-empty* — here the initial `auto` attempt already returned
a non-empty German transcript, yet an attempt record with `lang = "en"`
exists and the English result is adopted. -/
theorem getTranscript_english_retry_despite_nonempty :
    (perform (cxEnvEnglishRetry .auto none) .auto none).1
        = .ok ⟨[⟨"german subtitle", 0, 0, "de"⟩], some "de", ["en"]⟩
      ∧ [⟨"german subtitle", 0, 0, "de"⟩] ≠ ([] : List SupadataChunk)
      ∧ (∃ rec ∈ (getTranscriptWithFallbacks cxEnvEnglishRetry (some true) none).2,
          rec.lang = some "en")
      ∧ (getTranscriptWithFallbacks cxEnvEnglishRetry (some true) none).1
          = .ok ⟨[⟨"english subtitle", 0, 0, "en"⟩], some "en", []⟩ := by
  refine ⟨rfl, by decide, by decide, rfl⟩

/-- C2 (amended): the explicit English retry of the initial mode is
performed exactly when English is preferred, the initial result's language
is not `en` and its `availableLangs` contain `en` — regardless of whether
the initial item list is empty; its result is adopted only when the retry's
item list is non-empty (and an exception of the retry propagates). -/
theorem getTranscript_english_retry_spec
    (env : Mode → Option String → AttemptEnv) (pe : Option Bool) (fm : Option Mode)
    (im : Mode) (r0 : PerformResult) (log0 : List TranscriptAttemptRecord)
    (him : im = fm.getD .auto)
    (h0 : perform (env im none) im none = (.ok r0, log0)) :
    ((pe ≠ some false ∧ r0.lang ≠ some "en" ∧ r0.availableLangs.contains "en" = true) →
      (∀ r1 log1, perform (env im (some "en")) im (some "en") = (.ok r1, log1) →
        ((∃ rec ∈ (getTranscriptWithFallbacks env pe fm).2, rec.lang = some "en")
          ∧ (r1.items ≠ [] → (getTranscriptWithFallbacks env pe fm).1 = .ok r1)
          ∧ (r1.items = [] → r0.items ≠ [] →
              (getTranscriptWithFallbacks env pe fm).1 = .ok r0)))
      ∧ (∀ msg log1, perform (env im (some "en")) im (some "en") = (.error msg, log1) →
          getTranscriptWithFallbacks env pe fm = (.error msg, log0 ++ log1)))
    ∧ (¬(pe ≠ some false ∧ r0.lang ≠ some "en" ∧ r0.availableLangs.contains "en" = true) →
        ∀ rec ∈ (getTranscriptWithFallbacks env pe fm).2, rec.lang = none) := by
  constructor
  · intro hc
    constructor
    · intro r1 log1 hEq
      have hEnRec : ∃ rec ∈ log0 ++ log1, rec.lang = some "en" := by
        have hmem := perform_log_shape (env im (some "en")) im (some "en")
        obtain ⟨rec, hrec⟩ := List.exists_mem_of_ne_nil _ hmem.1
        have hl := (hmem.2 rec hrec).2
        rw [hEq] at hrec
        exact ⟨rec, List.mem_append_right _ hrec, hl⟩
      by_cases h1 : r1.items.length ≠ 0
      · have hred : getTranscriptWithFallbacks env pe fm = (.ok r1, log0 ++ log1) := by
          simp only [getTranscriptWithFallbacks, ← him, h0, if_pos hc, hEq, if_pos h1]
          simp [h1]
        rw [hred]
        exact ⟨hEnRec, fun _ => rfl,
          fun hemp _ => absurd (by rw [hemp]; rfl) h1⟩
      · have hr1emp : r1.items = [] := List.length_eq_zero.mp (not_not.mp h1)
        refine ⟨?_, fun hne => absurd hr1emp hne, ?_⟩
        · -- the retry record is in the final log whatever the fallbacks do
          have hred : ∃ logE,
              getTranscriptWithFallbacks env pe fm
                = (let s2 := if r0.items.length = 0 ∧ im ≠ .native then
                      swallowAttempt (r0, logE) (perform (env .native none) .native none)
                    else (r0, logE);
                  let s3 := if s2.1.items.length = 0 ∧ im ≠ .generate then
                      swallowAttempt s2 (perform (env .generate none) .generate none)
                    else s2;
                  (.ok s3.1, s3.2))
                ∧ logE = log0 ++ log1 := by
            refine ⟨log0 ++ log1, ?_, rfl⟩
            simp only [getTranscriptWithFallbacks, ← him, h0, if_pos hc, hEq, hr1emp,
              List.length_nil, ne_eq, not_true_eq_false, if_false, ite_false]
          obtain ⟨logE, hred, hlogE⟩ := hred
          rw [hred]
          obtain ⟨rec, hrec, hlang⟩ := hEnRec
          rw [← hlogE] at hrec
          refine ⟨rec, ?_, hlang⟩
          by_cases hcn : r0.items.length = 0 ∧ im ≠ Mode.native
          · simp only [if_pos hcn, swallowAttempt_snd]
            by_cases hcg : (swallowAttempt (r0, logE)
                (perform (env Mode.native none) Mode.native none)).1.items.length = 0
                ∧ im ≠ Mode.generate
            · rw [if_pos hcg]
              rw [swallowAttempt_snd]
              exact List.mem_append_left _ (by
                rw [swallowAttempt_snd]
                exact List.mem_append_left _ hrec)
            · rw [if_neg hcg, swallowAttempt_snd]
              exact List.mem_append_left _ hrec
          · simp only [if_neg hcn]
            by_cases hcg : r0.items.length = 0 ∧ im ≠ Mode.generate
            · rw [if_pos hcg, swallowAttempt_snd]
              exact List.mem_append_left _ hrec
            · rw [if_neg hcg]
              exact hrec
        · intro _ hr0ne
          have h0len : ¬ r0.items.length = 0 := by
            intro hh
            exact hr0ne (List.length_eq_zero.mp hh)
          have hred : getTranscriptWithFallbacks env pe fm = (.ok r0, log0 ++ log1) := by
            simp only [getTranscriptWithFallbacks, ← him, h0, if_pos hc, hEq, hr1emp,
              List.length_nil, ne_eq, not_true_eq_false, if_false, ite_false]
            simp [h0len]
          rw [hred]
    · intro msg log1 hEq
      simp only [getTranscriptWithFallbacks, ← him, h0, if_pos hc, hEq]
  · intro hc rec hrec
    have hred : getTranscriptWithFallbacks env pe fm
        = (let s2 := if r0.items.length = 0 ∧ im ≠ .native then
              swallowAttempt (r0, log0) (perform (env .native none) .native none)
            else (r0, log0);
          let s3 := if s2.1.items.length = 0 ∧ im ≠ .generate then
              swallowAttempt s2 (perform (env .generate none) .generate none)
            else s2;
          (.ok s3.1, s3.2)) := by
      simp only [getTranscriptWithFallbacks, ← him, h0, if_neg hc]
    rw [hred] at hrec
    have hmem : rec ∈ log0
        ∨ rec ∈ (perform (env .native none) .native none).2
        ∨ rec ∈ (perform (env .generate none) .generate none).2 := by
      simp only at hrec
      by_cases hcn : r0.items.length = 0 ∧ im ≠ Mode.native
      · rw [if_pos hcn] at hrec
        by_cases hcg : (swallowAttempt (r0, log0)
            (perform (env Mode.native none) Mode.native none)).1.items.length = 0
            ∧ im ≠ Mode.generate
        · rw [if_pos hcg, swallowAttempt_snd, swallowAttempt_snd] at hrec
          rcases List.mem_append.mp hrec with h | h
          · rcases List.mem_append.mp h with h | h
            · exact Or.inl h
            · exact Or.inr (Or.inl h)
          · exact Or.inr (Or.inr h)
        · rw [if_neg hcg, swallowAttempt_snd] at hrec
          rcases List.mem_append.mp hrec with h | h
          · exact Or.inl h
          · exact Or.inr (Or.inl h)
      · rw [if_neg hcn] at hrec
        by_cases hcg : r0.items.length = 0 ∧ im ≠ Mode.generate
        · rw [if_pos hcg, swallowAttempt_snd] at hrec
          rcases List.mem_append.mp hrec with h | h
          · exact Or.inl h
          · exact Or.inr (Or.inr h)
        · rw [if_neg hcg] at hrec
          exact Or.inl hrec
    rcases hmem with h | h | h
    · have := (perform_log_shape (env im none) im none).2 rec (by rw [h0]; exact h)
      exact this.2
    · exact ((perform_log_shape (env .native none) .native none).2 rec h).2
    · exact ((perform_log_shape (env .generate none) .generate none).2 rec h).2

/-- Witness for C2's amended theorem: in the C2 environment the retry runs
(non-empty German initial result, English available) and its non-empty
result is adopted. -/
theorem getTranscript_english_retry_spec_witness :
    (getTranscriptWithFallbacks cxEnvEnglishRetry (some true) none).1
      = .ok ⟨[⟨"english subtitle", 0, 0, "en"⟩], some "en", []⟩ := by
  have h := (getTranscript_english_retry_spec cxEnvEnglishRetry (some true) none .auto
    ⟨[⟨"german subtitle", 0, 0, "de"⟩], some "de", ["en"]⟩
    [okRecord .auto none ⟨.chunks [⟨"german subtitle", 0, 0, "de"⟩], some "de", some ["en"]⟩
      [⟨"german subtitle", 0, 0, "de"⟩]]
    rfl rfl).1 (by refine ⟨by decide, by decide, by decide⟩)
  exact ((h.1 ⟨[⟨"english subtitle", 0, 0, "en"⟩], some "en", []⟩
    [okRecord .auto (some "en")
      ⟨.chunks [⟨"english subtitle", 0, 0, "en"⟩], some "en", some []⟩
      [⟨"english subtitle", 0, 0, "en"⟩]] rfl).2.1 (by decide))

/-! ## URL validation -/

theorem dropPrefixCIAux_eq (ps : List Char) :
    ∀ cs : List Char,
      dropPrefixCIAux ps cs
        = if ps.isPrefixOf (cs.map Char.toLower) then some (cs.drop ps.length)
          else none := by
  induction ps with
  | nil => intro cs; simp [dropPrefixCIAux, List.isPrefixOf]
  | cons x xs ih =>
    intro cs
    cases cs with
    | nil => simp [dropPrefixCIAux, List.isPrefixOf]
    | cons c rest =>
      simp only [dropPrefixCIAux, List.map_cons, List.isPrefixOf, List.length_cons,
        List.drop_succ_cons]
      by_cases hx : c.toLower = x
      · rw [if_pos hx, ih rest]
        have : (x == c.toLower) = true := by simp [hx]
        rw [this, Bool.true_and]
      · rw [if_neg hx]
        have : (x == c.toLower) = false := by
          simp only [beq_eq_false_iff_ne, ne_eq]
          exact fun h => hx h.symm
        rw [this, Bool.false_and]
        simp

theorem dropPrefixCI_eq (p : String) (cs : List Char) :
    dropPrefixCI p cs
      = if p.data.isPrefixOf (cs.map Char.toLower) then some (cs.drop p.data.length)
        else none :=
  dropPrefixCIAux_eq p.data cs

theorem prefix_drop {a b : List Char} (n : Nat) (h : a <+: b) : a.drop n <+: b.drop n := by
  obtain ⟨t, rfl⟩ := h
  by_cases hn : n ≤ a.length
  · rw [List.drop_append_of_le_length hn]
    exact List.prefix_append _ _
  · rw [List.drop_eq_nil_of_le (le_of_not_le hn)]
    exact List.nil_prefix

theorem prefix_trans_drop {a b low : List Char} (ha : a <+: low) (hb : b <+: low.drop a.length) :
    a ++ b <+: low := by
  obtain ⟨t, hbt⟩ := hb
  obtain ⟨u, rfl⟩ := ha
  rw [List.drop_append_of_le_length le_rfl, List.drop_length, List.nil_append] at hbt
  exact ⟨t, by rw [List.append_assoc, hbt]⟩

theorem prefix_getElem {l1 l2 : List Char} (h : l1 <+: l2) (i : Nat)
    (hi : i < l1.length) : l2[i]? = l1[i]? := by
  obtain ⟨t, rfl⟩ := h
  rw [List.getElem?_append, if_pos hi]

theorem isSome_ite_some {c : Prop} [Decidable c] {x : List Char} :
    ((if c then some x else none).isSome = true) ↔ c := by
  split_ifs with h <;> simp [h]

theorem url_hosts_decompose :
    ∀ p ∈ supportedUrlPrefixes,
      ∃ sch ∈ ["", "http://", "https://"], ∃ ww ∈ ["", "www."],
        ∃ host ∈ ["youtube.com/", "youtu.be/", "tiktok.com/", "instagram.com/"],
          p = sch.data ++ (ww.data ++ host.data) := by decide

theorem url_hosts_head :
    ∀ host ∈ ["youtube.com/", "youtu.be/", "tiktok.com/", "instagram.com/"],
      host.data[0]? = some 'y' ∨ host.data[0]? = some 't'
        ∨ host.data[0]? = some 'i' := by decide

theorem url_hosts_len :
    ∀ host ∈ ["youtube.com/", "youtu.be/", "tiktok.com/", "instagram.com/"],
      9 ≤ host.data.length := by decide

theorem hostOk_any_iff (w : List Char) :
    ((["youtube.com/", "youtu.be/", "tiktok.com/", "instagram.com/"].any
        (fun h => (dropPrefixCI h w).isSome)) = true)
      ↔ ∃ host ∈ ["youtube.com/", "youtu.be/", "tiktok.com/", "instagram.com/"],
          host.data <+: (w.map Char.toLower) := by
  rw [List.any_eq_true]
  constructor
  · rintro ⟨h, hm, hp⟩
    rw [dropPrefixCI_eq] at hp
    refine ⟨h, hm, ?_⟩
    rw [← List.isPrefixOf_iff_prefix]
    exact isSome_ite_some.mp hp
  · rintro ⟨h, hm, hp⟩
    refine ⟨h, hm, ?_⟩
    rw [dropPrefixCI_eq]
    exact isSome_ite_some.mpr (by rw [List.isPrefixOf_iff_prefix]; exact hp)

theorem url_combo_mem_nosw :
    ∀ host ∈ ["youtube.com/", "youtu.be/", "tiktok.com/", "instagram.com/"],
      host.data ∈ supportedUrlPrefixes := by decide

theorem url_combo_mem_w :
    ∀ host ∈ ["youtube.com/", "youtu.be/", "tiktok.com/", "instagram.com/"],
      "www.".data ++ host.data ∈ supportedUrlPrefixes := by decide

theorem url_combo_mem_hnosw :
    ∀ host ∈ ["youtube.com/", "youtu.be/", "tiktok.com/", "instagram.com/"],
      "http://".data ++ host.data ∈ supportedUrlPrefixes := by decide

theorem url_combo_mem_hw :
    ∀ host ∈ ["youtube.com/", "youtu.be/", "tiktok.com/", "instagram.com/"],
      "http://".data ++ ("www.".data ++ host.data) ∈ supportedUrlPrefixes := by decide

theorem url_combo_mem_snosw :
    ∀ host ∈ ["youtube.com/", "youtu.be/", "tiktok.com/", "instagram.com/"],
      "https://".data ++ host.data ∈ supportedUrlPrefixes := by decide

theorem url_combo_mem_sw :
    ∀ host ∈ ["youtube.com/", "youtu.be/", "tiktok.com/", "instagram.com/"],
      "https://".data ++ ("www.".data ++ host.data) ∈ supportedUrlPrefixes := by decide

theorem isSupported_eval_sw (s : String)
    (hS : ("https://".data.isPrefixOf (s.data.map Char.toLower)) = true)
    (hW : ("www.".data.isPrefixOf ((s.data.drop 8).map Char.toLower)) = true) :
    isSupportedVideoUrl s
      = ((["youtube.com/", "youtu.be/", "tiktok.com/", "instagram.com/"].any
          (fun h => (dropPrefixCI h (s.data.drop 12)).isSome))
        || isBareYouTubeId s.data) := by
  unfold isSupportedVideoUrl
  simp at hS hW
  simp [dropPrefixCI_eq, hS, hW, List.drop_drop,
    (show "https://".data.length = 8 from rfl), (show "www.".data.length = 4 from rfl)]

theorem isSupported_eval_s (s : String)
    (hS : ("https://".data.isPrefixOf (s.data.map Char.toLower)) = true)
    (hW : ("www.".data.isPrefixOf ((s.data.drop 8).map Char.toLower)) = false) :
    isSupportedVideoUrl s
      = ((["youtube.com/", "youtu.be/", "tiktok.com/", "instagram.com/"].any
          (fun h => (dropPrefixCI h (s.data.drop 8)).isSome))
        || isBareYouTubeId s.data) := by
  unfold isSupportedVideoUrl
  simp at hS hW
  simp [dropPrefixCI_eq, hS, hW, (show "https://".data.length = 8 from rfl)]

theorem isSupported_eval_hw (s : String)
    (hS : ("https://".data.isPrefixOf (s.data.map Char.toLower)) = false)
    (hH : ("http://".data.isPrefixOf (s.data.map Char.toLower)) = true)
    (hW : ("www.".data.isPrefixOf ((s.data.drop 7).map Char.toLower)) = true) :
    isSupportedVideoUrl s
      = ((["youtube.com/", "youtu.be/", "tiktok.com/", "instagram.com/"].any
          (fun h => (dropPrefixCI h (s.data.drop 11)).isSome))
        || isBareYouTubeId s.data) := by
  unfold isSupportedVideoUrl
  simp at hS hH hW
  simp [dropPrefixCI_eq, hS, hH, hW, List.drop_drop,
    (show "http://".data.length = 7 from rfl), (show "www.".data.length = 4 from rfl)]

theorem isSupported_eval_h (s : String)
    (hS : ("https://".data.isPrefixOf (s.data.map Char.toLower)) = false)
    (hH : ("http://".data.isPrefixOf (s.data.map Char.toLower)) = true)
    (hW : ("www.".data.isPrefixOf ((s.data.drop 7).map Char.toLower)) = false) :
    isSupportedVideoUrl s
      = ((["youtube.com/", "youtu.be/", "tiktok.com/", "instagram.com/"].any
          (fun h => (dropPrefixCI h (s.data.drop 7)).isSome))
        || isBareYouTubeId s.data) := by
  unfold isSupportedVideoUrl
  simp at hS hH hW
  simp [dropPrefixCI_eq, hS, hH, hW, (show "http://".data.length = 7 from rfl)]

theorem isSupported_eval_w (s : String)
    (hS : ("https://".data.isPrefixOf (s.data.map Char.toLower)) = false)
    (hH : ("http://".data.isPrefixOf (s.data.map Char.toLower)) = false)
    (hW : ("www.".data.isPrefixOf (s.data.map Char.toLower)) = true) :
    isSupportedVideoUrl s
      = ((["youtube.com/", "youtu.be/", "tiktok.com/", "instagram.com/"].any
          (fun h => (dropPrefixCI h (s.data.drop 4)).isSome))
        || isBareYouTubeId s.data) := by
  unfold isSupportedVideoUrl
  simp at hS hH hW
  simp [dropPrefixCI_eq, hS, hH, hW, (show "www.".data.length = 4 from rfl)]

theorem isSupported_eval_none (s : String)
    (hS : ("https://".data.isPrefixOf (s.data.map Char.toLower)) = false)
    (hH : ("http://".data.isPrefixOf (s.data.map Char.toLower)) = false)
    (hW : ("www.".data.isPrefixOf (s.data.map Char.toLower)) = false) :
    isSupportedVideoUrl s
      = ((["youtube.com/", "youtu.be/", "tiktok.com/", "instagram.com/"].any
          (fun h => (dropPrefixCI h s.data).isSome))
        || isBareYouTubeId s.data) := by
  unfold isSupportedVideoUrl
  simp at hS hH hW
  simp [dropPrefixCI_eq, hS, hH, hW]

theorem prefix_clash {p low : List Char} (q : List Char) (hq : q <+: low) (hp : p <+: low)
    (i : Nat) (hiq : i < q.length) (hip : i < p.length) (hne : q[i]? ≠ p[i]?) : False := by
  have h1 := prefix_getElem hq i hiq
  have h2 := prefix_getElem hp i hip
  exact hne (h1.symm.trans h2)

theorem bare_id_iff (s : String) :
    isBareYouTubeId s.data = true ↔
      (s.data.length = 11 ∧ ∀ c ∈ s.data, isYtIdChar c = true) := by
  simp [isBareYouTubeId, List.all_eq_true]

theorem isSupportedVideoUrl_iff (s : String) :
    isSupportedVideoUrl s = true ↔
      ((∃ p ∈ supportedUrlPrefixes, p <+: s.data.map Char.toLower)
        ∨ (s.data.length = 11 ∧ ∀ c ∈ s.data, isYtIdChar c = true)) := by
  constructor
  · intro h
    by_cases hS : ("https://".data.isPrefixOf (s.data.map Char.toLower)) = true
    · by_cases hW : ("www.".data.isPrefixOf ((s.data.drop 8).map Char.toLower)) = true
      · rw [isSupported_eval_sw s hS hW, Bool.or_eq_true, hostOk_any_iff, bare_id_iff] at h
        rcases h with ⟨host, hm, hp⟩ | hb
        · refine Or.inl ⟨"https://".data ++ ("www.".data ++ host.data),
            url_combo_mem_sw host hm, ?_⟩
          have h1 : "https://".data <+: s.data.map Char.toLower := by
            rw [← List.isPrefixOf_iff_prefix]; exact hS
          have h2 : "www.".data <+: (s.data.map Char.toLower).drop 8 := by
            rw [← List.isPrefixOf_iff_prefix, ← List.map_drop]; exact hW
          have hp' : host.data <+: (s.data.map Char.toLower).drop 12 := by
            rw [List.map_drop] at hp; exact hp
          have hinner : "www.".data ++ host.data <+: (s.data.map Char.toLower).drop 8 := by
            refine prefix_trans_drop h2 ?_
            show host.data <+: ((s.data.map Char.toLower).drop 8).drop 4
            rw [List.drop_drop]
            exact hp'
          exact prefix_trans_drop h1 hinner
        · exact Or.inr hb
      · have hW' : ("www.".data.isPrefixOf ((s.data.drop 8).map Char.toLower)) = false := by
          rwa [← Bool.not_eq_true]
        rw [isSupported_eval_s s hS hW', Bool.or_eq_true, hostOk_any_iff, bare_id_iff] at h
        rcases h with ⟨host, hm, hp⟩ | hb
        · refine Or.inl ⟨"https://".data ++ host.data, url_combo_mem_snosw host hm, ?_⟩
          have h1 : "https://".data <+: s.data.map Char.toLower := by
            rw [← List.isPrefixOf_iff_prefix]; exact hS
          have hp' : host.data <+: (s.data.map Char.toLower).drop 8 := by
            rw [List.map_drop] at hp; exact hp
          exact prefix_trans_drop h1 hp'
        · exact Or.inr hb
    · have hS' : ("https://".data.isPrefixOf (s.data.map Char.toLower)) = false := by
        rwa [← Bool.not_eq_true]
      by_cases hH : ("http://".data.isPrefixOf (s.data.map Char.toLower)) = true
      · by_cases hW : ("www.".data.isPrefixOf ((s.data.drop 7).map Char.toLower)) = true
        · rw [isSupported_eval_hw s hS' hH hW, Bool.or_eq_true, hostOk_any_iff,
            bare_id_iff] at h
          rcases h with ⟨host, hm, hp⟩ | hb
          · refine Or.inl ⟨"http://".data ++ ("www.".data ++ host.data),
              url_combo_mem_hw host hm, ?_⟩
            have h1 : "http://".data <+: s.data.map Char.toLower := by
              rw [← List.isPrefixOf_iff_prefix]; exact hH
            have h2 : "www.".data <+: (s.data.map Char.toLower).drop 7 := by
              rw [← List.isPrefixOf_iff_prefix, ← List.map_drop]; exact hW
            have hp' : host.data <+: (s.data.map Char.toLower).drop 11 := by
              rw [List.map_drop] at hp; exact hp
            have hinner : "www.".data ++ host.data <+: (s.data.map Char.toLower).drop 7 := by
              refine prefix_trans_drop h2 ?_
              show host.data <+: ((s.data.map Char.toLower).drop 7).drop 4
              rw [List.drop_drop]
              exact hp'
            exact prefix_trans_drop h1 hinner
          · exact Or.inr hb
        · have hW' : ("www.".data.isPrefixOf ((s.data.drop 7).map Char.toLower)) = false := by
            rwa [← Bool.not_eq_true]
          rw [isSupported_eval_h s hS' hH hW', Bool.or_eq_true, hostOk_any_iff,
            bare_id_iff] at h
          rcases h with ⟨host, hm, hp⟩ | hb
          · refine Or.inl ⟨"http://".data ++ host.data, url_combo_mem_hnosw host hm, ?_⟩
            have h1 : "http://".data <+: s.data.map Char.toLower := by
              rw [← List.isPrefixOf_iff_prefix]; exact hH
            have hp' : host.data <+: (s.data.map Char.toLower).drop 7 := by
              rw [List.map_drop] at hp; exact hp
            exact prefix_trans_drop h1 hp'
          · exact Or.inr hb
      · have hH' : ("http://".data.isPrefixOf (s.data.map Char.toLower)) = false := by
          rwa [← Bool.not_eq_true]
        by_cases hW : ("www.".data.isPrefixOf (s.data.map Char.toLower)) = true
        · rw [isSupported_eval_w s hS' hH' hW, Bool.or_eq_true, hostOk_any_iff,
            bare_id_iff] at h
          rcases h with ⟨host, hm, hp⟩ | hb
          · refine Or.inl ⟨"www.".data ++ host.data, url_combo_mem_w host hm, ?_⟩
            have h1 : "www.".data <+: s.data.map Char.toLower := by
              rw [← List.isPrefixOf_iff_prefix]; exact hW
            have hp' : host.data <+: (s.data.map Char.toLower).drop 4 := by
              rw [List.map_drop] at hp; exact hp
            exact prefix_trans_drop h1 hp'
          · exact Or.inr hb
        · have hW' : ("www.".data.isPrefixOf (s.data.map Char.toLower)) = false := by
            rwa [← Bool.not_eq_true]
          rw [isSupported_eval_none s hS' hH' hW', Bool.or_eq_true, hostOk_any_iff,
            bare_id_iff] at h
          rcases h with ⟨host, hm, hp⟩ | hb
          · exact Or.inl ⟨host.data, url_combo_mem_nosw host hm, hp⟩
          · exact Or.inr hb
  · intro h
    rcases h with ⟨p, hp24, hpre⟩ | hbare
    · obtain ⟨sch, hsch, ww, hww, host, hhost, hpeq⟩ := url_hosts_decompose p hp24
      subst hpeq
      have hple := url_hosts_len host hhost
      simp only [List.mem_cons, List.not_mem_nil, or_false] at hsch hww
      rcases hsch with rfl | rfl | rfl
      · -- no scheme
        simp only [show ("" : String).data = [] from rfl, List.nil_append] at hpre
        rcases hww with rfl | rfl
        · -- no www either: the whole prefix is the host
          simp only [show ("" : String).data = [] from rfl, List.nil_append] at hpre
          have hS : ("https://".data.isPrefixOf (s.data.map Char.toLower)) = false := by
            rw [← Bool.not_eq_true]
            intro hq
            rw [List.isPrefixOf_iff_prefix] at hq
            rcases url_hosts_head host hhost with hh | hh | hh <;>
              exact prefix_clash _ hq hpre 0 (by decide) (by omega) (by rw [hh]; decide)
          have hH : ("http://".data.isPrefixOf (s.data.map Char.toLower)) = false := by
            rw [← Bool.not_eq_true]
            intro hq
            rw [List.isPrefixOf_iff_prefix] at hq
            rcases url_hosts_head host hhost with hh | hh | hh <;>
              exact prefix_clash _ hq hpre 0 (by decide) (by omega) (by rw [hh]; decide)
          have hW : ("www.".data.isPrefixOf (s.data.map Char.toLower)) = false := by
            rw [← Bool.not_eq_true]
            intro hq
            rw [List.isPrefixOf_iff_prefix] at hq
            rcases url_hosts_head host hhost with hh | hh | hh <;>
              exact prefix_clash _ hq hpre 0 (by decide) (by omega) (by rw [hh]; decide)
          rw [isSupported_eval_none s hS hH hW, Bool.or_eq_true]
          left
          rw [hostOk_any_iff]
          exact ⟨host, hhost, hpre⟩
        · -- www. prefix
          have hW : ("www.".data.isPrefixOf (s.data.map Char.toLower)) = true := by
            rw [List.isPrefixOf_iff_prefix]
            exact (List.prefix_append _ _).trans hpre
          have hS : ("https://".data.isPrefixOf (s.data.map Char.toLower)) = false := by
            rw [← Bool.not_eq_true]
            intro hq
            rw [List.isPrefixOf_iff_prefix] at hq
            exact prefix_clash _ hq hpre 0 (by decide)
              (by simp only [List.length_append]; omega)
              (by rw [List.getElem?_append, if_pos (by decide)]; decide)
          have hH : ("http://".data.isPrefixOf (s.data.map Char.toLower)) = false := by
            rw [← Bool.not_eq_true]
            intro hq
            rw [List.isPrefixOf_iff_prefix] at hq
            exact prefix_clash _ hq hpre 0 (by decide)
              (by simp only [List.length_append]; omega)
              (by rw [List.getElem?_append, if_pos (by decide)]; decide)
          rw [isSupported_eval_w s hS hH hW, Bool.or_eq_true]
          left
          rw [hostOk_any_iff]
          refine ⟨host, hhost, ?_⟩
          rw [List.map_drop]
          have h4 := prefix_drop 4 hpre
          rwa [List.drop_left' (show ("www.".data).length = 4 from rfl)] at h4
      · -- http:// scheme
        rcases hww with rfl | rfl
        · simp only [show ("" : String).data = [] from rfl, List.nil_append] at hpre
          have hH : ("http://".data.isPrefixOf (s.data.map Char.toLower)) = true := by
            rw [List.isPrefixOf_iff_prefix]
            exact (List.prefix_append _ _).trans hpre
          have hS : ("https://".data.isPrefixOf (s.data.map Char.toLower)) = false := by
            rw [← Bool.not_eq_true]
            intro hq
            rw [List.isPrefixOf_iff_prefix] at hq
            exact prefix_clash _ hq hpre 4 (by decide)
              (by simp only [List.length_append]; omega)
              (by rw [List.getElem?_append, if_pos (by decide)]; decide)
          have hdrop7 : host.data <+: (s.data.map Char.toLower).drop 7 := by
            have h7 := prefix_drop 7 hpre
            rwa [List.drop_left' (show ("http://".data).length = 7 from rfl)] at h7
          have hW : ("www.".data.isPrefixOf ((s.data.drop 7).map Char.toLower)) = false := by
            rw [← Bool.not_eq_true]
            intro hq
            rw [List.isPrefixOf_iff_prefix, List.map_drop] at hq
            rcases url_hosts_head host hhost with hh | hh | hh <;>
              exact prefix_clash _ hq hdrop7 0 (by decide) (by omega) (by rw [hh]; decide)
          rw [isSupported_eval_h s hS hH hW, Bool.or_eq_true]
          left
          rw [hostOk_any_iff]
          refine ⟨host, hhost, ?_⟩
          rw [List.map_drop]
          exact hdrop7
        · have hH : ("http://".data.isPrefixOf (s.data.map Char.toLower)) = true := by
            rw [List.isPrefixOf_iff_prefix]
            exact (List.prefix_append _ _).trans hpre
          have hS : ("https://".data.isPrefixOf (s.data.map Char.toLower)) = false := by
            rw [← Bool.not_eq_true]
            intro hq
            rw [List.isPrefixOf_iff_prefix] at hq
            exact prefix_clash _ hq hpre 4 (by decide)
              (by simp only [List.length_append]; omega)
              (by rw [List.getElem?_append, if_pos (by decide)]; decide)
          have hdrop7 : ("www.".data ++ host.data) <+: (s.data.map Char.toLower).drop 7 := by
            have h7 := prefix_drop 7 hpre
            rwa [List.drop_left' (show ("http://".data).length = 7 from rfl)] at h7
          have hW : ("www.".data.isPrefixOf ((s.data.drop 7).map Char.toLower)) = true := by
            rw [List.isPrefixOf_iff_prefix, List.map_drop]
            exact (List.prefix_append _ _).trans hdrop7
          rw [isSupported_eval_hw s hS hH hW, Bool.or_eq_true]
          left
          rw [hostOk_any_iff]
          refine ⟨host, hhost, ?_⟩
          rw [List.map_drop]
          have h11 := prefix_drop 11 hpre
          rwa [← List.append_assoc,
            List.drop_left' (show ("http://".data ++ "www.".data).length = 11 from rfl)] at h11
      · -- https:// scheme
        rcases hww with rfl | rfl
        · simp only [show ("" : String).data = [] from rfl, List.nil_append] at hpre
          have hS : ("https://".data.isPrefixOf (s.data.map Char.toLower)) = true := by
            rw [List.isPrefixOf_iff_prefix]
            exact (List.prefix_append _ _).trans hpre
          have hdrop8 : host.data <+: (s.data.map Char.toLower).drop 8 := by
            have h8 := prefix_drop 8 hpre
            rwa [List.drop_left' (show ("https://".data).length = 8 from rfl)] at h8
          have hW : ("www.".data.isPrefixOf ((s.data.drop 8).map Char.toLower)) = false := by
            rw [← Bool.not_eq_true]
            intro hq
            rw [List.isPrefixOf_iff_prefix, List.map_drop] at hq
            rcases url_hosts_head host hhost with hh | hh | hh <;>
              exact prefix_clash _ hq hdrop8 0 (by decide) (by omega) (by rw [hh]; decide)
          rw [isSupported_eval_s s hS hW, Bool.or_eq_true]
          left
          rw [hostOk_any_iff]
          refine ⟨host, hhost, ?_⟩
          rw [List.map_drop]
          exact hdrop8
        · have hS : ("https://".data.isPrefixOf (s.data.map Char.toLower)) = true := by
            rw [List.isPrefixOf_iff_prefix]
            exact (List.prefix_append _ _).trans hpre
          have hdrop8 : ("www.".data ++ host.data) <+: (s.data.map Char.toLower).drop 8 := by
            have h8 := prefix_drop 8 hpre
            rwa [List.drop_left' (show ("https://".data).length = 8 from rfl)] at h8
          have hW : ("www.".data.isPrefixOf ((s.data.drop 8).map Char.toLower)) = true := by
            rw [List.isPrefixOf_iff_prefix, List.map_drop]
            exact (List.prefix_append _ _).trans hdrop8
          rw [isSupported_eval_sw s hS hW, Bool.or_eq_true]
          left
          rw [hostOk_any_iff]
          refine ⟨host, hhost, ?_⟩
          rw [List.map_drop]
          have h12 := prefix_drop 12 hpre
          rwa [← List.append_assoc,
            List.drop_left' (show ("https://".data ++ "www.".data).length = 12 from rfl)] at h12
    · unfold isSupportedVideoUrl
      rw [Bool.or_eq_true]
      exact Or.inr ((bare_id_iff s).mpr hbare)

/-! ## Handler evaluation lemmas -/

theorem handler_not_post (ev : HandlerEvent) (skey gkey : Option String)
    (tenv : String → Mode → Option String → AttemptEnv)
    (gem : List String → Except String String) (h : ev.httpMethod ≠ "POST") :
    summarizeHandler ev skey gkey tenv gem
      = ⟨405, jsonHeaders, .err "Method Not Allowed" none⟩ := by
  unfold summarizeHandler
  rw [if_pos h]

theorem handler_invalid_body (skey gkey : Option String)
    (tenv : String → Mode → Option String → AttemptEnv)
    (gem : List String → Except String String) :
    summarizeHandler ⟨"POST", .invalid⟩ skey gkey tenv gem
      = ⟨400, jsonHeaders, .err "Invalid JSON body" none⟩ := rfl

theorem handler_absent_body (skey gkey : Option String)
    (tenv : String → Mode → Option String → AttemptEnv)
    (gem : List String → Except String String) :
    summarizeHandler ⟨"POST", .absent⟩ skey gkey tenv gem
      = ⟨400, jsonHeaders, .err "Missing \x27url\x27 in request body" none⟩ := rfl

theorem handler_bad_urlfield (b : ParsedBody) (skey gkey : Option String)
    (tenv : String → Mode → Option String → AttemptEnv)
    (gem : List String → Except String String)
    (h : b.url = .missing ∨ b.url = .notStr ∨ b.url = .str "") :
    summarizeHandler ⟨"POST", .parsed b⟩ skey gkey tenv gem
      = ⟨400, jsonHeaders, .err "Missing \x27url\x27 in request body" none⟩ := by
  unfold summarizeHandler
  rcases h with h | h | h <;> simp [h, show ("" : String).isEmpty = true from rfl]

theorem handler_unsupported_url (b : ParsedBody) (u : String) (skey gkey : Option String)
    (tenv : String → Mode → Option String → AttemptEnv)
    (gem : List String → Except String String)
    (hu : b.url = .str u) (hne : u.isEmpty = false)
    (hbad : isSupportedVideoUrl u = false) :
    summarizeHandler ⟨"POST", .parsed b⟩ skey gkey tenv gem
      = ⟨400, jsonHeaders,
          .err "Please provide a supported video URL (YouTube, TikTok, Instagram)" none⟩ := by
  unfold summarizeHandler
  simp [hu, hne, hbad]

theorem handler_no_supadata_key (b : ParsedBody) (u : String) (skey gkey : Option String)
    (tenv : String → Mode → Option String → AttemptEnv)
    (gem : List String → Except String String)
    (hu : b.url = .str u) (hne : u.isEmpty = false)
    (hok : isSupportedVideoUrl u = true) (hk : falsyStr skey = true) :
    summarizeHandler ⟨"POST", .parsed b⟩ skey gkey tenv gem
      = ⟨500, jsonHeaders,
          .err "Missing SUPADATA_API_KEY. Set it as a Netlify environment variable or in netlify/functions/config.local.json" none⟩ := by
  unfold summarizeHandler
  simp [hu, hne, hok, hk]

theorem handler_no_gemini_key (b : ParsedBody) (u : String) (skey gkey : Option String)
    (tenv : String → Mode → Option String → AttemptEnv)
    (gem : List String → Except String String)
    (hu : b.url = .str u) (hne : u.isEmpty = false)
    (hok : isSupportedVideoUrl u = true) (hks : falsyStr skey = false)
    (hkg : falsyStr gkey = true) :
    summarizeHandler ⟨"POST", .parsed b⟩ skey gkey tenv gem
      = ⟨500, jsonHeaders,
          .err "Missing GEMINI_API_KEY. Set it as a Netlify environment variable or in netlify/functions/config.local.json" none⟩ := by
  unfold summarizeHandler
  simp [hu, hne, hok, hks, hkg]

theorem handler_transcript_throw (b : ParsedBody) (u : String) (skey gkey : Option String)
    (tenv : String → Mode → Option String → AttemptEnv)
    (gem : List String → Except String String) (msg : String)
    (log : List TranscriptAttemptRecord)
    (hu : b.url = .str u) (hne : u.isEmpty = false)
    (hok : isSupportedVideoUrl u = true) (hks : falsyStr skey = false)
    (hkg : falsyStr gkey = false)
    (ht : getTranscriptWithFallbacks (tenv (requestUrlOf u)) (some true) b.mode
        = (.error msg, log)) :
    summarizeHandler ⟨"POST", .parsed b⟩ skey gkey tenv gem
      = ⟨500, jsonHeaders, .err (shownError msg) none⟩ := by
  unfold summarizeHandler
  simp [hu, hne, hok, hks, hkg, ht]

theorem handler_empty_transcript (b : ParsedBody) (u : String) (skey gkey : Option String)
    (tenv : String → Mode → Option String → AttemptEnv)
    (gem : List String → Except String String) (r : PerformResult)
    (attempts : List TranscriptAttemptRecord)
    (hu : b.url = .str u) (hne : u.isEmpty = false)
    (hok : isSupportedVideoUrl u = true) (hks : falsyStr skey = false)
    (hkg : falsyStr gkey = false)
    (ht : getTranscriptWithFallbacks (tenv (requestUrlOf u)) (some true) b.mode
        = (.ok r, attempts))
    (hempty : r.items.length = 0) :
    summarizeHandler ⟨"POST", .parsed b⟩ skey gkey tenv gem
      = ⟨404, jsonHeaders, .err "No transcript found for this video."
          (if b.debug then some ⟨attempts, r.lang, r.availableLangs⟩ else none)⟩ := by
  unfold summarizeHandler
  simp [hu, hne, hok, hks, hkg, ht, hempty]

theorem handler_success (b : ParsedBody) (u : String) (skey gkey : Option String)
    (tenv : String → Mode → Option String → AttemptEnv)
    (gem : List String → Except String String) (r : PerformResult)
    (attempts : List TranscriptAttemptRecord)
    (hu : b.url = .str u) (hne : u.isEmpty = false)
    (hok : isSupportedVideoUrl u = true) (hks : falsyStr skey = false)
    (hkg : falsyStr gkey = false)
    (ht : getTranscriptWithFallbacks (tenv (requestUrlOf u)) (some true) b.mode
        = (.ok r, attempts))
    (hitems : r.items.length ≠ 0) :
    summarizeHandler ⟨"POST", .parsed b⟩ skey gkey tenv gem
      = (match gem [systemInstruction,
            userInstructionFor (decide ((transcriptTextOf r.items).length > MAX_CHARS)),
            "\n\nTRANSCRIPT:\n"
              ++ (if decide ((transcriptTextOf r.items).length > MAX_CHARS)
                  then (transcriptTextOf r.items).take MAX_CHARS
                  else transcriptTextOf r.items)] with
        | .error msg => ⟨500, jsonHeaders, .err (shownError msg) none⟩
        | .ok summary =>
          ⟨200, jsonHeaders,
            .ok ((extractYouTubeVideoIdOptional u).getD "") summary
              (transcriptTextOf r.items)
              (decide ((transcriptTextOf r.items).length > MAX_CHARS))
              (if b.debug then some ⟨attempts, r.lang, r.availableLangs⟩ else none)⟩) := by
  unfold summarizeHandler
  simp [hu, hne, hok, hks, hkg, ht, hitems]

theorem handler_headers (ev : HandlerEvent) (skey gkey : Option String)
    (tenv : String → Mode → Option String → AttemptEnv)
    (gem : List String → Except String String) :
    (summarizeHandler ev skey gkey tenv gem).headers = jsonHeaders := by
  unfold summarizeHandler
  repeat' split
  all_goals try rfl
  all_goals simp only []
  all_goals split <;> rfl

/-! ## C5, C6, C8: the HTTP handler -/

/-- C5 counterexample: an exception whose message is the *empty string*
(here thrown by the summarization call) is answered with 500 carrying the
fixed fallback text, not the exception message, because of
`e?.message || "Failed to process transcript"`. -/
theorem handler_empty_error_message_default :
    summarizeHandler ⟨"POST", .parsed ⟨.str "https://youtube.com/watch", false, none⟩⟩
        (some "sk") (some "gk") (fun _ => cxGoodEnv) (fun _ => .error "")
      = ⟨500, jsonHeaders, .err "Failed to process transcript" none⟩
    ∧ "Failed to process transcript" ≠ "" := ⟨rfl, by decide⟩

/-- C5 (amended): the summarize handler maps requests to statuses as
claimed — non-POST gives 405; unparsable, absent, missing/non-string/empty
`url`, or an unsupported URL gives 400; a missing (or empty) API key gives
500; an empty transcript gives 404 with the fixed message; a transcript or
summarization exception gives 500 carrying the exception message, *or the
fixed fallback text `Failed to process transcript` when that message is
empty*; otherwise 200 with the `videoId`, `summary`, `transcript` and
`truncated` fields.  Every response carries the JSON content-type header,
and `isSupportedVideoUrl` accepts exactly the four hosts with optional
scheme and `www.` (case-insensitively) or a bare 11-character id. -/
theorem summarizeHandler_status_mapping :
    (∀ (ev : HandlerEvent) (skey gkey : Option String)
        (tenv : String → Mode → Option String → AttemptEnv)
        (gem : List String → Except String String),
      (ev.httpMethod ≠ "POST" →
        summarizeHandler ev skey gkey tenv gem
          = ⟨405, jsonHeaders, .err "Method Not Allowed" none⟩)
      ∧ (summarizeHandler ev skey gkey tenv gem).headers = jsonHeaders)
    ∧ (∀ (skey gkey : Option String) (tenv : String → Mode → Option String → AttemptEnv)
        (gem : List String → Except String String),
      summarizeHandler ⟨"POST", .invalid⟩ skey gkey tenv gem
          = ⟨400, jsonHeaders, .err "Invalid JSON body" none⟩
      ∧ summarizeHandler ⟨"POST", .absent⟩ skey gkey tenv gem
          = ⟨400, jsonHeaders, .err "Missing \x27url\x27 in request body" none⟩
      ∧ (∀ b : ParsedBody, b.url = .missing ∨ b.url = .notStr ∨ b.url = .str "" →
          summarizeHandler ⟨"POST", .parsed b⟩ skey gkey tenv gem
            = ⟨400, jsonHeaders, .err "Missing \x27url\x27 in request body" none⟩)
      ∧ (∀ (b : ParsedBody) (u : String), b.url = .str u → u.isEmpty = false →
          isSupportedVideoUrl u = false →
          summarizeHandler ⟨"POST", .parsed b⟩ skey gkey tenv gem
            = ⟨400, jsonHeaders,
                .err "Please provide a supported video URL (YouTube, TikTok, Instagram)" none⟩)
      ∧ (∀ (b : ParsedBody) (u : String), b.url = .str u → u.isEmpty = false →
          isSupportedVideoUrl u = true → falsyStr skey = true →
          summarizeHandler ⟨"POST", .parsed b⟩ skey gkey tenv gem
            = ⟨500, jsonHeaders,
                .err "Missing SUPADATA_API_KEY. Set it as a Netlify environment variable or in netlify/functions/config.local.json" none⟩)
      ∧ (∀ (b : ParsedBody) (u : String), b.url = .str u → u.isEmpty = false →
          isSupportedVideoUrl u = true → falsyStr skey = false → falsyStr gkey = true →
          summarizeHandler ⟨"POST", .parsed b⟩ skey gkey tenv gem
            = ⟨500, jsonHeaders,
                .err "Missing GEMINI_API_KEY. Set it as a Netlify environment variable or in netlify/functions/config.local.json" none⟩)
      ∧ (∀ (b : ParsedBody) (u : String) (msg : String) (log : List TranscriptAttemptRecord),
          b.url = .str u → u.isEmpty = false → isSupportedVideoUrl u = true →
          falsyStr skey = false → falsyStr gkey = false →
          getTranscriptWithFallbacks (tenv (requestUrlOf u)) (some true) b.mode
              = (.error msg, log) →
          summarizeHandler ⟨"POST", .parsed b⟩ skey gkey tenv gem
            = ⟨500, jsonHeaders, .err (shownError msg) none⟩)
      ∧ (∀ (b : ParsedBody) (u : String) (r : PerformResult)
            (attempts : List TranscriptAttemptRecord),
          b.url = .str u → u.isEmpty = false → isSupportedVideoUrl u = true →
          falsyStr skey = false → falsyStr gkey = false →
          getTranscriptWithFallbacks (tenv (requestUrlOf u)) (some true) b.mode
              = (.ok r, attempts) →
          r.items.length = 0 →
          summarizeHandler ⟨"POST", .parsed b⟩ skey gkey tenv gem
            = ⟨404, jsonHeaders, .err "No transcript found for this video."
                (if b.debug then some ⟨attempts, r.lang, r.availableLangs⟩ else none)⟩)
      ∧ (∀ (b : ParsedBody) (u : String) (r : PerformResult)
            (attempts : List TranscriptAttemptRecord) (summary : String),
          b.url = .str u → u.isEmpty = false → isSupportedVideoUrl u = true →
          falsyStr skey = false → falsyStr gkey = false →
          getTranscriptWithFallbacks (tenv (requestUrlOf u)) (some true) b.mode
              = (.ok r, attempts) →
          r.items.length ≠ 0 →
          gem [systemInstruction,
            userInstructionFor (decide ((transcriptTextOf r.items).length > MAX_CHARS)),
            "\n\nTRANSCRIPT:\n"
              ++ (if decide ((transcriptTextOf r.items).length > MAX_CHARS)
                  then (transcriptTextOf r.items).take MAX_CHARS
                  else transcriptTextOf r.items)] = .ok summary →
          summarizeHandler ⟨"POST", .parsed b⟩ skey gkey tenv gem
            = ⟨200, jsonHeaders,
                .ok ((extractYouTubeVideoIdOptional u).getD "") summary
                  (transcriptTextOf r.items)
                  (decide ((transcriptTextOf r.items).length > MAX_CHARS))
                  (if b.debug then some ⟨attempts, r.lang, r.availableLangs⟩ else none)⟩)
      ∧ (∀ (b : ParsedBody) (u : String) (r : PerformResult)
            (attempts : List TranscriptAttemptRecord) (msg : String),
          b.url = .str u → u.isEmpty = false → isSupportedVideoUrl u = true →
          falsyStr skey = false → falsyStr gkey = false →
          getTranscriptWithFallbacks (tenv (requestUrlOf u)) (some true) b.mode
              = (.ok r, attempts) →
          r.items.length ≠ 0 →
          gem [systemInstruction,
            userInstructionFor (decide ((transcriptTextOf r.items).length > MAX_CHARS)),
            "\n\nTRANSCRIPT:\n"
              ++ (if decide ((transcriptTextOf r.items).length > MAX_CHARS)
                  then (transcriptTextOf r.items).take MAX_CHARS
                  else transcriptTextOf r.items)] = .error msg →
          summarizeHandler ⟨"POST", .parsed b⟩ skey gkey tenv gem
            = ⟨500, jsonHeaders, .err (shownError msg) none⟩))
    ∧ (∀ s : String, isSupportedVideoUrl s = true ↔
        ((∃ p ∈ supportedUrlPrefixes, p <+: s.data.map Char.toLower)
          ∨ (s.data.length = 11 ∧ ∀ c ∈ s.data, isYtIdChar c = true))) := by
  refine ⟨fun ev skey gkey tenv gem => ⟨fun h => handler_not_post ev skey gkey tenv gem h,
      handler_headers ev skey gkey tenv gem⟩,
    fun skey gkey tenv gem => ⟨handler_invalid_body skey gkey tenv gem,
      handler_absent_body skey gkey tenv gem,
      fun b h => handler_bad_urlfield b skey gkey tenv gem h,
      fun b u h1 h2 h3 => handler_unsupported_url b u skey gkey tenv gem h1 h2 h3,
      fun b u h1 h2 h3 h4 => handler_no_supadata_key b u skey gkey tenv gem h1 h2 h3 h4,
      fun b u h1 h2 h3 h4 h5 => handler_no_gemini_key b u skey gkey tenv gem h1 h2 h3 h4 h5,
      fun b u msg log h1 h2 h3 h4 h5 h6 =>
        handler_transcript_throw b u skey gkey tenv gem msg log h1 h2 h3 h4 h5 h6,
      fun b u r attempts h1 h2 h3 h4 h5 h6 h7 =>
        handler_empty_transcript b u skey gkey tenv gem r attempts h1 h2 h3 h4 h5 h6 h7,
      ?_, ?_⟩,
    fun s => isSupportedVideoUrl_iff s⟩
  · intro b u r attempts summary h1 h2 h3 h4 h5 h6 h7 h8
    rw [handler_success b u skey gkey tenv gem r attempts h1 h2 h3 h4 h5 h6 h7, h8]
  · intro b u r attempts msg h1 h2 h3 h4 h5 h6 h7 h8
    rw [handler_success b u skey gkey tenv gem r attempts h1 h2 h3 h4 h5 h6 h7, h8]

/-- Witness for C5 at concrete requests: a GET gives 405 and an empty
transcript gives the 404 with its fixed message. -/
theorem summarizeHandler_status_mapping_witness :
    summarizeHandler ⟨"GET", .absent⟩ none none (fun _ => cxGoodEnv) (fun _ => .ok "s")
        = ⟨405, jsonHeaders, .err "Method Not Allowed" none⟩
    ∧ summarizeHandler ⟨"POST", .parsed ⟨.str "youtube.com/w", false, none⟩⟩
        (some "k") (some "g") (fun _ => cxEmptyEnv) (fun _ => .ok "s")
        = ⟨404, jsonHeaders, .err "No transcript found for this video." none⟩ := by
  constructor
  · exact (summarizeHandler_status_mapping.1 ⟨"GET", .absent⟩ none none
      (fun _ => cxGoodEnv) (fun _ => .ok "s")).1 (by decide)
  · exact (summarizeHandler_status_mapping.2.1 (some "k") (some "g")
      (fun _ => cxEmptyEnv) (fun _ => .ok "s")).2.2.2.2.2.2.2.1
      ⟨.str "youtube.com/w", false, none⟩ "youtube.com/w" ⟨[], some "en", []⟩
      _ rfl rfl (by decide) rfl rfl rfl rfl

/-- C6: processing is strictly sequential — in every execution that stops at
the method check, body parsing, URL validation, API-key checks, a transcript
exception or an empty transcript, the handler's response is independent of
the LLM oracle (the LLM is never consulted), and the corresponding status is
the claimed one. -/
theorem summarizeHandler_sequential (skey gkey : Option String)
    (tenv : String → Mode → Option String → AttemptEnv)
    (gem gem2 : List String → Except String String) :
    (∀ ev : HandlerEvent, ev.httpMethod ≠ "POST" →
      summarizeHandler ev skey gkey tenv gem = summarizeHandler ev skey gkey tenv gem2
        ∧ (summarizeHandler ev skey gkey tenv gem).statusCode = 405)
    ∧ (summarizeHandler ⟨"POST", .invalid⟩ skey gkey tenv gem
          = summarizeHandler ⟨"POST", .invalid⟩ skey gkey tenv gem2
        ∧ (summarizeHandler ⟨"POST", .invalid⟩ skey gkey tenv gem).statusCode = 400)
    ∧ (summarizeHandler ⟨"POST", .absent⟩ skey gkey tenv gem
          = summarizeHandler ⟨"POST", .absent⟩ skey gkey tenv gem2
        ∧ (summarizeHandler ⟨"POST", .absent⟩ skey gkey tenv gem).statusCode = 400)
    ∧ (∀ b : ParsedBody, b.url = .missing ∨ b.url = .notStr ∨ b.url = .str "" →
      summarizeHandler ⟨"POST", .parsed b⟩ skey gkey tenv gem
          = summarizeHandler ⟨"POST", .parsed b⟩ skey gkey tenv gem2
        ∧ (summarizeHandler ⟨"POST", .parsed b⟩ skey gkey tenv gem).statusCode = 400)
    ∧ (∀ (b : ParsedBody) (u : String), b.url = .str u → u.isEmpty = false →
      isSupportedVideoUrl u = false →
      summarizeHandler ⟨"POST", .parsed b⟩ skey gkey tenv gem
          = summarizeHandler ⟨"POST", .parsed b⟩ skey gkey tenv gem2
        ∧ (summarizeHandler ⟨"POST", .parsed b⟩ skey gkey tenv gem).statusCode = 400)
    ∧ (∀ (b : ParsedBody) (u : String), b.url = .str u → u.isEmpty = false →
      isSupportedVideoUrl u = true → falsyStr skey = true →
      summarizeHandler ⟨"POST", .parsed b⟩ skey gkey tenv gem
          = summarizeHandler ⟨"POST", .parsed b⟩ skey gkey tenv gem2
        ∧ (summarizeHandler ⟨"POST", .parsed b⟩ skey gkey tenv gem).statusCode = 500)
    ∧ (∀ (b : ParsedBody) (u : String), b.url = .str u → u.isEmpty = false →
      isSupportedVideoUrl u = true → falsyStr skey = false → falsyStr gkey = true →
      summarizeHandler ⟨"POST", .parsed b⟩ skey gkey tenv gem
          = summarizeHandler ⟨"POST", .parsed b⟩ skey gkey tenv gem2
        ∧ (summarizeHandler ⟨"POST", .parsed b⟩ skey gkey tenv gem).statusCode = 500)
    ∧ (∀ (b : ParsedBody) (u msg : String) (log : List TranscriptAttemptRecord),
      b.url = .str u → u.isEmpty = false → isSupportedVideoUrl u = true →
      falsyStr skey = false → falsyStr gkey = false →
      getTranscriptWithFallbacks (tenv (requestUrlOf u)) (some true) b.mode
          = (.error msg, log) →
      summarizeHandler ⟨"POST", .parsed b⟩ skey gkey tenv gem
          = summarizeHandler ⟨"POST", .parsed b⟩ skey gkey tenv gem2
        ∧ (summarizeHandler ⟨"POST", .parsed b⟩ skey gkey tenv gem).statusCode = 500)
    ∧ (∀ (b : ParsedBody) (u : String) (r : PerformResult)
          (attempts : List TranscriptAttemptRecord),
      b.url = .str u → u.isEmpty = false → isSupportedVideoUrl u = true →
      falsyStr skey = false → falsyStr gkey = false →
      getTranscriptWithFallbacks (tenv (requestUrlOf u)) (some true) b.mode
          = (.ok r, attempts) →
      r.items.length = 0 →
      summarizeHandler ⟨"POST", .parsed b⟩ skey gkey tenv gem
          = summarizeHandler ⟨"POST", .parsed b⟩ skey gkey tenv gem2
        ∧ (summarizeHandler ⟨"POST", .parsed b⟩ skey gkey tenv gem).statusCode = 404) := by
  refine ⟨?_, ?_, ?_, ?_, ?_, ?_, ?_, ?_, ?_⟩
  · intro ev h
    rw [handler_not_post ev skey gkey tenv gem h, handler_not_post ev skey gkey tenv gem2 h]
    exact ⟨rfl, rfl⟩
  · rw [handler_invalid_body skey gkey tenv gem, handler_invalid_body skey gkey tenv gem2]
    exact ⟨rfl, rfl⟩
  · rw [handler_absent_body skey gkey tenv gem, handler_absent_body skey gkey tenv gem2]
    exact ⟨rfl, rfl⟩
  · intro b h
    rw [handler_bad_urlfield b skey gkey tenv gem h, handler_bad_urlfield b skey gkey tenv gem2 h]
    exact ⟨rfl, rfl⟩
  · intro b u h1 h2 h3
    rw [handler_unsupported_url b u skey gkey tenv gem h1 h2 h3,
      handler_unsupported_url b u skey gkey tenv gem2 h1 h2 h3]
    exact ⟨rfl, rfl⟩
  · intro b u h1 h2 h3 h4
    rw [handler_no_supadata_key b u skey gkey tenv gem h1 h2 h3 h4,
      handler_no_supadata_key b u skey gkey tenv gem2 h1 h2 h3 h4]
    exact ⟨rfl, rfl⟩
  · intro b u h1 h2 h3 h4 h5
    rw [handler_no_gemini_key b u skey gkey tenv gem h1 h2 h3 h4 h5,
      handler_no_gemini_key b u skey gkey tenv gem2 h1 h2 h3 h4 h5]
    exact ⟨rfl, rfl⟩
  · intro b u msg log h1 h2 h3 h4 h5 h6
    rw [handler_transcript_throw b u skey gkey tenv gem msg log h1 h2 h3 h4 h5 h6,
      handler_transcript_throw b u skey gkey tenv gem2 msg log h1 h2 h3 h4 h5 h6]
    exact ⟨rfl, rfl⟩
  · intro b u r attempts h1 h2 h3 h4 h5 h6 h7
    rw [handler_empty_transcript b u skey gkey tenv gem r attempts h1 h2 h3 h4 h5 h6 h7,
      handler_empty_transcript b u skey gkey tenv gem2 r attempts h1 h2 h3 h4 h5 h6 h7]
    exact ⟨rfl, rfl⟩

/-- Witness for C6: two different LLM oracles give the same response on a
GET request and on an empty-transcript request. -/
theorem summarizeHandler_sequential_witness :
    summarizeHandler ⟨"GET", .absent⟩ none none (fun _ => cxGoodEnv) (fun _ => .ok "A")
        = summarizeHandler ⟨"GET", .absent⟩ none none (fun _ => cxGoodEnv) (fun _ => .ok "B")
    ∧ summarizeHandler ⟨"POST", .parsed ⟨.str "youtube.com/w", false, none⟩⟩
        (some "k") (some "g") (fun _ => cxEmptyEnv) (fun _ => .ok "A")
        = summarizeHandler ⟨"POST", .parsed ⟨.str "youtube.com/w", false, none⟩⟩
            (some "k") (some "g") (fun _ => cxEmptyEnv) (fun _ => .ok "B") := by
  constructor
  · exact ((summarizeHandler_sequential none none (fun _ => cxGoodEnv)
      (fun _ => .ok "A") (fun _ => .ok "B")).1 ⟨"GET", .absent⟩ (by decide)).1
  · exact ((summarizeHandler_sequential (some "k") (some "g") (fun _ => cxEmptyEnv)
      (fun _ => .ok "A") (fun _ => .ok "B")).2.2.2.2.2.2.2.2
      ⟨.str "youtube.com/w", false, none⟩ "youtube.com/w" ⟨[], some "en", []⟩ _
      rfl rfl (by decide) rfl rfl rfl rfl).1

/-- C8: once a non-empty transcript is retrieved, the transcript sent to the
LLM is capped at `MAX_CHARS = 180000` characters: the third prompt part is
the first 180000 characters of the formatted transcript when it is longer
(and the full text otherwise), the `truncated` field of the 200 response is
true exactly when the full formatted transcript exceeds 180000 characters,
and the `transcript` field always carries the full untruncated text. -/
theorem summarizeHandler_prompt_truncation (b : ParsedBody) (u : String)
    (skey gkey : Option String) (tenv : String → Mode → Option String → AttemptEnv)
    (gem : List String → Except String String) (r : PerformResult)
    (attempts : List TranscriptAttemptRecord)
    (h1 : b.url = .str u) (h2 : u.isEmpty = false)
    (h3 : isSupportedVideoUrl u = true) (h4 : falsyStr skey = false)
    (h5 : falsyStr gkey = false)
    (h6 : getTranscriptWithFallbacks (tenv (requestUrlOf u)) (some true) b.mode
        = (.ok r, attempts))
    (h7 : r.items.length ≠ 0) :
    (summarizeHandler ⟨"POST", .parsed b⟩ skey gkey tenv gem
      = (match gem [systemInstruction,
            userInstructionFor (decide ((transcriptTextOf r.items).length > MAX_CHARS)),
            "\n\nTRANSCRIPT:\n"
              ++ (if decide ((transcriptTextOf r.items).length > MAX_CHARS)
                  then (transcriptTextOf r.items).take MAX_CHARS
                  else transcriptTextOf r.items)] with
        | .error msg => ⟨500, jsonHeaders, .err (shownError msg) none⟩
        | .ok summary =>
          ⟨200, jsonHeaders,
            .ok ((extractYouTubeVideoIdOptional u).getD "") summary
              (transcriptTextOf r.items)
              (decide ((transcriptTextOf r.items).length > MAX_CHARS))
              (if b.debug then some ⟨attempts, r.lang, r.availableLangs⟩ else none)⟩))
    ∧ MAX_CHARS = 180000
    ∧ ((transcriptTextOf r.items).length ≤ MAX_CHARS →
        (if decide ((transcriptTextOf r.items).length > MAX_CHARS)
          then (transcriptTextOf r.items).take MAX_CHARS
          else transcriptTextOf r.items) = transcriptTextOf r.items
        ∧ decide ((transcriptTextOf r.items).length > MAX_CHARS) = false)
    ∧ ((transcriptTextOf r.items).length > MAX_CHARS →
        (if decide ((transcriptTextOf r.items).length > MAX_CHARS)
          then (transcriptTextOf r.items).take MAX_CHARS
          else transcriptTextOf r.items) = (transcriptTextOf r.items).take MAX_CHARS
        ∧ decide ((transcriptTextOf r.items).length > MAX_CHARS) = true) := by
  refine ⟨handler_success b u skey gkey tenv gem r attempts h1 h2 h3 h4 h5 h6 h7,
    rfl, ?_, ?_⟩
  · intro hle
    have hnot : ¬ ((transcriptTextOf r.items).length > MAX_CHARS) := not_lt.mpr hle
    simp [hnot]
  · intro hgt
    simp [hgt]

/-- Witness for C8 at a concrete short transcript. -/
theorem summarizeHandler_prompt_truncation_witness :
    summarizeHandler ⟨"POST", .parsed ⟨.str "https://youtube.com/watch", false, none⟩⟩
        (some "sk") (some "gk") (fun _ => cxGoodEnv) (fun _ => .ok "a summary")
      = ⟨200, jsonHeaders, .ok "" "a summary" "[0:00] hello world" false none⟩ := by
  have h := (summarizeHandler_prompt_truncation
    ⟨.str "https://youtube.com/watch", false, none⟩ "https://youtube.com/watch"
    (some "sk") (some "gk") (fun _ => cxGoodEnv) (fun _ => .ok "a summary")
    ⟨[⟨"hello world", 0, 0, "en"⟩], some "en", []⟩ _
    rfl rfl (by decide) rfl rfl rfl (by decide)).1
  rw [h]
  rfl

/-! ## Renderer safety: the atom-structure invariant -/

theorem InAt.append {A : List (List Char)} {x y : List Char}
    (hx : InAt A x) (hy : InAt A y) : InAt A (x ++ y) := by
  induction hx with
  | nil => exact hy
  | chr h1 h2 h3 _ ih => exact InAt.chr h1 h2 h3 ih
  | tok ha _ ih => rw [List.append_assoc]; exact InAt.tok ha ih

theorem InAt.mono {A B : List (List Char)} (hAB : ∀ a ∈ A, a ∈ B) {l : List Char}
    (h : InAt A l) : InAt B l := by
  induction h with
  | nil => exact InAt.nil
  | chr h1 h2 h3 _ ih => exact InAt.chr h1 h2 h3 ih
  | tok ha _ ih => exact InAt.tok (hAB _ ha) ih

theorem InAt.of_plain {A : List (List Char)} {x : List Char}
    (hx : ∀ c ∈ x, c ≠ '<' ∧ c ≠ '>' ∧ c ≠ '&') : InAt A x := by
  induction x with
  | nil => exact InAt.nil
  | cons c t ih =>
    obtain ⟨h1, h2, h3⟩ := hx c (List.mem_cons_self c t)
    exact InAt.chr h1 h2 h3 (ih (fun d hd => hx d (List.mem_cons_of_mem c hd)))

theorem InAt.cons_inv {A : List (List Char)} (hne : ∀ a ∈ A, a ≠ [])
    {c : Char} {t : List Char} (h : InAt A (c :: t)) :
    (c ≠ '<' ∧ c ≠ '>' ∧ c ≠ '&' ∧ InAt A t) ∨
      (∃ a2 t0, (c :: a2) ∈ A ∧ t = a2 ++ t0 ∧ InAt A t0) := by
  generalize hl : c :: t = l at h
  cases h with
  | nil => simp at hl
  | chr h1 h2 h3 ht =>
    injection hl with h4 h5
    subst h4; subst h5
    exact Or.inl ⟨h1, h2, h3, ht⟩
  | tok ha ht =>
    rename_i a t0
    cases a with
    | nil => exact absurd rfl (hne _ ha)
    | cons a0 a2 =>
      rw [List.cons_append] at hl
      injection hl with h4 h5
      subst h4; subst h5
      exact Or.inr ⟨a2, t0, ha, rfl, ht⟩

theorem InAt.peel {A : List (List Char)} (hne : ∀ a ∈ A, a ≠ [])
    (hheads : ∀ a ∈ A, a.headD ' ' = '<' ∨ a.headD ' ' = '&')
    {c : Char} {t : List Char} (hc1 : c ≠ '<') (hc2 : c ≠ '&')
    (h : InAt A (c :: t)) : InAt A t := by
  rcases h.cons_inv hne with ⟨_, _, _, ht⟩ | ⟨a2, t0, ha, rfl, ht⟩
  · exact ht
  · rcases hheads _ ha with h4 | h4
    · exact absurd h4 hc1
    · exact absurd h4 hc2

theorem InAt.drop_plain {A : List (List Char)} (hne : ∀ a ∈ A, a ≠ [])
    (hheads : ∀ a ∈ A, a.headD ' ' = '<' ∨ a.headD ' ' = '&') :
    ∀ x t, InAt A (x ++ t) → (∀ c ∈ x, c ≠ '<' ∧ c ≠ '&') → InAt A t := by
  intro x
  induction x with
  | nil => intro t h _; exact h
  | cons c x2 ih =>
    intro t h hx
    obtain ⟨h1, h2⟩ := hx c (List.mem_cons_self c x2)
    exact ih t (InAt.peel hne hheads h1 h2 h) (fun d hd => hx d (List.mem_cons_of_mem c hd))

theorem inlineAtoms_ne_nil : ∀ a ∈ inlineAtoms, a ≠ [] := by decide

theorem inlineAtoms_heads :
    ∀ a ∈ inlineAtoms, a.headD ' ' = '<' ∨ a.headD ' ' = '&' := by decide

theorem inlineAtoms_chars :
    ∀ a ∈ inlineAtoms, ∀ c ∈ a, jsWs c = false ∧ c ≠ '*' ∧ c ≠ '_' ∧ c ≠ '[' := by decide

theorem fullInlineAtoms_ne_nil : ∀ a ∈ fullInlineAtoms, a ≠ [] := by decide

theorem fullInlineAtoms_heads :
    ∀ a ∈ fullInlineAtoms, a.headD ' ' = '<' ∨ a.headD ' ' = '&' := by decide

theorem htmlAtoms_ne_nil : ∀ a ∈ htmlAtoms, a ≠ [] := by decide

theorem htmlAtoms_heads :
    ∀ a ∈ htmlAtoms, a.headD ' ' = '<' ∨ a.headD ' ' = '&' := by decide

theorem htmlAtoms_tail_no_lt : ∀ a ∈ htmlAtoms, ∀ c ∈ a.drop 1, c ≠ '<' := by decide

theorem htmlAtoms_pfree :
    ∀ x ∈ htmlAtoms, ∀ y ∈ htmlAtoms, x.isPrefixOf y = true → x = y := by decide

theorem fullInline_sub_html : ∀ a ∈ fullInlineAtoms, a ∈ htmlAtoms := by decide

theorem inline_sub_fullInline : ∀ a ∈ inlineAtoms, a ∈ fullInlineAtoms := by decide

theorem jsWs_not_special : ∀ c : Char, jsWs c = true → c ≠ '<' ∧ c ≠ '>' ∧ c ≠ '&' := by
  intro c h
  refine ⟨?_, ?_, ?_⟩ <;> rintro rfl <;> exact absurd h (by decide)

theorem isPrefixOf_cons_false {D : List Char} {c : Char} {t : List Char}
    (hne : D ≠ []) (hh : D.headD ' ' ≠ c) : D.isPrefixOf (c :: t) = false := by
  cases D with
  | nil => exact absurd rfl hne
  | cons d D2 =>
    simp only [List.headD] at hh
    simp [List.isPrefixOf, hh]

theorem wsCount_cons_false {c : Char} {t : List Char} (hc : jsWs c = false) :
    wsCount (c :: t) = 0 := by simp [wsCount, hc]

theorem wsCount_take_ws : ∀ l : List Char, ∀ c ∈ l.take (wsCount l), jsWs c = true := by
  intro l
  induction l with
  | nil => intro c hc; simp at hc
  | cons c t ih =>
    intro d hd
    by_cases h : jsWs c = true
    · rw [show wsCount (c :: t) = wsCount t + 1 by simp [wsCount, h],
        List.take_succ_cons] at hd
      rcases List.mem_cons.mp hd with rfl | hd2
      · exact h
      · exact ih d hd2
    · rw [show wsCount (c :: t) = 0 by simp [wsCount, h], List.take_zero] at hd
      simp at hd

theorem headD_mem {D : List Char} (hne : D ≠ []) : D.headD ' ' ∈ D := by
  cases D with
  | nil => exact absurd rfl hne
  | cons d D2 => exact List.mem_cons_self d D2

theorem firstIs_true {c : Char} {l : List Char} (h : firstIs c l = true) :
    ∃ t0, l = c :: t0 := by
  cases l with
  | nil => simp [firstIs] at h
  | cons d t =>
    simp [firstIs] at h
    exact ⟨t, by rw [h]⟩

theorem firstIs_cons_false {c d : Char} {t : List Char} (h : d ≠ c) :
    firstIs c (d :: t) = false := by simp [firstIs, h]

theorem starCloseHere_cons_false {c : Char} {t : List Char} (hc : c ≠ '*') :
    starCloseHere (c :: t) = false := by
  simp [starCloseHere, firstIs, hc]

theorem underCloseHere_cons_false {c : Char} {t : List Char} (hc : c ≠ '_') :
    underCloseHere (c :: t) = false := by
  simp [underCloseHere, firstIs, hc]

theorem findDelimClose_skip {D : List Char} (hne : D ≠ []) :
    ∀ x t, (∀ c ∈ x, jsWs c = false ∧ D.headD ' ' ≠ c) →
      findDelimClose D (x ++ t) = (findDelimClose D t).map (fun p => (x ++ p.1, p.2)) := by
  intro x
  induction x with
  | nil =>
    intro t _
    cases h : findDelimClose D t <;> simp [h]
  | cons c x2 ih =>
    intro t hx
    obtain ⟨h1, h2⟩ := hx c (List.mem_cons_self c x2)
    have hstep : findDelimClose D (c :: (x2 ++ t))
        = (findDelimClose D (x2 ++ t)).map (fun p => (c :: p.1, p.2)) := by
      simp only [findDelimClose, wsCount_cons_false h1, List.drop_zero,
        isPrefixOf_cons_false hne h2]
      simp
    rw [List.cons_append, hstep, ih t (fun d hd => hx d (List.mem_cons_of_mem c hd))]
    cases h : findDelimClose D t <;> simp [h]

theorem findStarClose_skip :
    ∀ x t, (∀ c ∈ x, jsWs c = false ∧ c ≠ '*') →
      findStarClose (x ++ t) = (findStarClose t).map (fun p => (x ++ p.1, p.2)) := by
  intro x
  induction x with
  | nil =>
    intro t _
    cases h : findStarClose t <;> simp [h]
  | cons c x2 ih =>
    intro t hx
    obtain ⟨h1, h2⟩ := hx c (List.mem_cons_self c x2)
    have hstep : findStarClose (c :: (x2 ++ t))
        = (findStarClose (x2 ++ t)).map (fun p => (c :: p.1, p.2)) := by
      simp only [findStarClose, wsCount_cons_false h1, List.drop_zero,
        starCloseHere_cons_false h2]
      simp
    rw [List.cons_append, hstep, ih t (fun d hd => hx d (List.mem_cons_of_mem c hd))]
    cases h : findStarClose t <;> simp [h]

theorem findUnderClose_skip :
    ∀ x t, (∀ c ∈ x, jsWs c = false ∧ c ≠ '_') →
      findUnderClose (x ++ t) = (findUnderClose t).map (fun p => (x ++ p.1, p.2)) := by
  intro x
  induction x with
  | nil =>
    intro t _
    cases h : findUnderClose t <;> simp [h]
  | cons c x2 ih =>
    intro t hx
    obtain ⟨h1, h2⟩ := hx c (List.mem_cons_self c x2)
    have hstep : findUnderClose (c :: (x2 ++ t))
        = (findUnderClose (x2 ++ t)).map (fun p => (c :: p.1, p.2)) := by
      simp only [findUnderClose, wsCount_cons_false h1, List.drop_zero,
        underCloseHere_cons_false h2]
      simp
    rw [List.cons_append, hstep, ih t (fun d hd => hx d (List.mem_cons_of_mem c hd))]
    cases h : findUnderClose t <;> simp [h]

theorem findCloseLi_skip :
    ∀ x t, (∀ c ∈ x, c ≠ '<') →
      findCloseLi (x ++ t) = (findCloseLi t).map (fun p => (x ++ p.1, p.2)) := by
  intro x
  induction x with
  | nil =>
    intro t _
    cases h : findCloseLi t <;> simp [h]
  | cons c x2 ih =>
    intro t hx
    have h2 := hx c (List.mem_cons_self c x2)
    have hstep : findCloseLi (c :: (x2 ++ t))
        = (findCloseLi (x2 ++ t)).map (fun p => (c :: p.1, p.2)) := by
      simp only [findCloseLi,
        isPrefixOf_cons_false (by decide : "</li>".data ≠ []) (Ne.symm h2)]
      simp
    rw [List.cons_append, hstep, ih t (fun d hd => hx d (List.mem_cons_of_mem c hd))]
    cases h : findCloseLi t <;> simp [h]

theorem findDelimClose_len {D : List Char} :
    ∀ l g r, findDelimClose D l = some (g, r) → r.length ≤ l.length := by
  intro l
  induction l with
  | nil => intro g r h; simp [findDelimClose] at h
  | cons c t ih =>
    intro g r h
    simp only [findDelimClose] at h
    split at h
    · have hr : (c :: t).drop (wsCount (c :: t) + D.length) = r :=
        congrArg Prod.snd (Option.some.inj h)
      rw [← hr]
      simp [List.length_drop, List.length_cons]
      try omega
    · rcases Option.map_eq_some'.mp h with ⟨q, hq, hfq⟩
      have h5b : q.2 = r := congrArg Prod.snd hfq
      have := ih q.1 q.2 (by rw [hq])
      rw [← h5b]
      calc q.2.length ≤ t.length := this
        _ ≤ (c :: t).length := by simp [List.length_cons]

theorem findStarClose_len :
    ∀ l g r, findStarClose l = some (g, r) → r.length ≤ l.length := by
  intro l
  induction l with
  | nil => intro g r h; simp [findStarClose] at h
  | cons c t ih =>
    intro g r h
    simp only [findStarClose] at h
    split at h
    · have hr : ((c :: t).drop (wsCount (c :: t))).drop 1 = r :=
        congrArg Prod.snd (Option.some.inj h)
      rw [← hr]
      simp [List.length_drop, List.length_cons]
      try omega
    · rcases Option.map_eq_some'.mp h with ⟨q, hq, hfq⟩
      have h5b : q.2 = r := congrArg Prod.snd hfq
      have := ih q.1 q.2 (by rw [hq])
      rw [← h5b]
      calc q.2.length ≤ t.length := this
        _ ≤ (c :: t).length := by simp [List.length_cons]

theorem findUnderClose_len :
    ∀ l g r, findUnderClose l = some (g, r) → r.length ≤ l.length := by
  intro l
  induction l with
  | nil => intro g r h; simp [findUnderClose] at h
  | cons c t ih =>
    intro g r h
    simp only [findUnderClose] at h
    split at h
    · have hr : ((c :: t).drop (wsCount (c :: t))).drop 1 = r :=
        congrArg Prod.snd (Option.some.inj h)
      rw [← hr]
      simp [List.length_drop, List.length_cons]
      try omega
    · rcases Option.map_eq_some'.mp h with ⟨q, hq, hfq⟩
      have h5b : q.2 = r := congrArg Prod.snd hfq
      have := ih q.1 q.2 (by rw [hq])
      rw [← h5b]
      calc q.2.length ≤ t.length := this
        _ ≤ (c :: t).length := by simp [List.length_cons]

theorem findCloseLi_len :
    ∀ l g r, findCloseLi l = some (g, r) → l.length = g.length + 5 + r.length := by
  intro l
  induction l with
  | nil => intro g r h; simp [findCloseLi] at h
  | cons c t ih =>
    intro g r h
    simp only [findCloseLi] at h
    split at h
    · rename_i hpre
      have hg : ([] : List Char) = g := congrArg Prod.fst (Option.some.inj h)
      have hr : (c :: t).drop 5 = r := congrArg Prod.snd (Option.some.inj h)
      have hlen : 5 ≤ (c :: t).length := by
        have := (List.isPrefixOf_iff_prefix.mp hpre).length_le
        simpa using this
      rw [← hg, ← hr]
      simp [List.length_drop, List.length_cons] at hlen ⊢
      omega
    · rcases Option.map_eq_some'.mp h with ⟨q, hq, hfq⟩
      have h5a : c :: q.1 = g := congrArg Prod.fst hfq
      have h5b : q.2 = r := congrArg Prod.snd hfq
      have := ih q.1 q.2 (by rw [hq])
      rw [← h5a, ← h5b]
      simp [List.length_cons] at this ⊢
      omega

theorem inAt_inline_drop_ws {l : List Char} (h : InAt inlineAtoms l) :
    InAt inlineAtoms (l.drop (wsCount l)) :=
  InAt.drop_plain inlineAtoms_ne_nil inlineAtoms_heads (l.take (wsCount l))
    (l.drop (wsCount l)) (by rw [List.take_append_drop]; exact h)
    (fun d hd => by
      obtain ⟨ha, _, hb⟩ := jsWs_not_special d (wsCount_take_ws l d hd)
      exact ⟨ha, hb⟩)

theorem findDelimClose_split {D : List Char} (hne : D ≠ [])
    (hD : ∀ c ∈ D, c = '*' ∨ c = '_') {l : List Char} (h : InAt inlineAtoms l) :
    ∀ g r, findDelimClose D l = some (g, r) → InAt inlineAtoms g ∧ InAt inlineAtoms r := by
  induction h with
  | nil => intro g r hgr; simp [findDelimClose] at hgr
  | chr h1 h2 h3 ht ih =>
    rename_i c t
    intro g r hgr
    simp only [findDelimClose] at hgr
    split at hgr
    · rename_i hpre
      have hg : ([] : List Char) = g := congrArg Prod.fst (Option.some.inj hgr)
      have hr : (c :: t).drop (wsCount (c :: t) + D.length) = r :=
        congrArg Prod.snd (Option.some.inj hgr)
      rcases List.isPrefixOf_iff_prefix.mp hpre with ⟨s, hs⟩
      have hdw : InAt inlineAtoms ((c :: t).drop (wsCount (c :: t))) :=
        inAt_inline_drop_ws (InAt.chr h1 h2 h3 ht)
      have hss : InAt inlineAtoms s :=
        InAt.drop_plain inlineAtoms_ne_nil inlineAtoms_heads D s (by rw [hs]; exact hdw)
          (fun d hd => by rcases hD d hd with rfl | rfl <;> exact ⟨by decide, by decide⟩)
      have hrs : (c :: t).drop (wsCount (c :: t) + D.length) = s := by
        rw [← List.drop_drop, ← hs, List.drop_left]
      exact ⟨hg ▸ InAt.nil, by rw [← hr, hrs]; exact hss⟩
    · rcases Option.map_eq_some'.mp hgr with ⟨q, hq, hfq⟩
      have h5a : c :: q.1 = g := congrArg Prod.fst hfq
      have h5b : q.2 = r := congrArg Prod.snd hfq
      obtain ⟨hg, hr⟩ := ih q.1 q.2 (by rw [hq])
      exact ⟨h5a ▸ InAt.chr h1 h2 h3 hg, h5b ▸ hr⟩
  | tok ha ht ih =>
    rename_i a t
    intro g r hgr
    have hskip := findDelimClose_skip hne a t (fun d hd => by
      obtain ⟨hw, hs2, hu, _⟩ := inlineAtoms_chars a ha d hd
      refine ⟨hw, ?_⟩
      rcases hD _ (headD_mem hne) with he | he
      · rw [he]; exact Ne.symm hs2
      · rw [he]; exact Ne.symm hu)
    rw [hskip] at hgr
    rcases Option.map_eq_some'.mp hgr with ⟨q, hq, hfq⟩
    have h5a : a ++ q.1 = g := congrArg Prod.fst hfq
    have h5b : q.2 = r := congrArg Prod.snd hfq
    obtain ⟨hg, hr⟩ := ih q.1 q.2 (by rw [hq])
    exact ⟨h5a ▸ InAt.tok ha hg, h5b ▸ hr⟩

theorem findStarClose_split {l : List Char} (h : InAt inlineAtoms l) :
    ∀ g r, findStarClose l = some (g, r) → InAt inlineAtoms g ∧ InAt inlineAtoms r := by
  induction h with
  | nil => intro g r hgr; simp [findStarClose] at hgr
  | chr h1 h2 h3 ht ih =>
    rename_i c t
    intro g r hgr
    simp only [findStarClose] at hgr
    split at hgr
    · rename_i hclose
      have hg : ([] : List Char) = g := congrArg Prod.fst (Option.some.inj hgr)
      have hr : ((c :: t).drop (wsCount (c :: t))).drop 1 = r :=
        congrArg Prod.snd (Option.some.inj hgr)
      have hdw : InAt inlineAtoms ((c :: t).drop (wsCount (c :: t))) :=
        inAt_inline_drop_ws (InAt.chr h1 h2 h3 ht)
      have hc2 : firstIs '*' ((c :: t).drop (wsCount (c :: t))) = true := by
        simp [starCloseHere] at hclose
        exact hclose.1
      obtain ⟨v0, hv⟩ := firstIs_true hc2
      rw [hv] at hdw
      have hv0 : InAt inlineAtoms v0 :=
        InAt.peel inlineAtoms_ne_nil inlineAtoms_heads (by decide) (by decide) hdw
      refine ⟨hg ▸ InAt.nil, ?_⟩
      rw [← hr, hv]
      simpa using hv0
    · rcases Option.map_eq_some'.mp hgr with ⟨q, hq, hfq⟩
      have h5a : c :: q.1 = g := congrArg Prod.fst hfq
      have h5b : q.2 = r := congrArg Prod.snd hfq
      obtain ⟨hg, hr⟩ := ih q.1 q.2 (by rw [hq])
      exact ⟨h5a ▸ InAt.chr h1 h2 h3 hg, h5b ▸ hr⟩
  | tok ha ht ih =>
    rename_i a t
    intro g r hgr
    have hskip := findStarClose_skip a t (fun d hd => by
      obtain ⟨hw, hs2, _, _⟩ := inlineAtoms_chars a ha d hd
      exact ⟨hw, hs2⟩)
    rw [hskip] at hgr
    rcases Option.map_eq_some'.mp hgr with ⟨q, hq, hfq⟩
    have h5a : a ++ q.1 = g := congrArg Prod.fst hfq
    have h5b : q.2 = r := congrArg Prod.snd hfq
    obtain ⟨hg, hr⟩ := ih q.1 q.2 (by rw [hq])
    exact ⟨h5a ▸ InAt.tok ha hg, h5b ▸ hr⟩

theorem findUnderClose_split {l : List Char} (h : InAt inlineAtoms l) :
    ∀ g r, findUnderClose l = some (g, r) → InAt inlineAtoms g ∧ InAt inlineAtoms r := by
  induction h with
  | nil => intro g r hgr; simp [findUnderClose] at hgr
  | chr h1 h2 h3 ht ih =>
    rename_i c t
    intro g r hgr
    simp only [findUnderClose] at hgr
    split at hgr
    · rename_i hclose
      have hg : ([] : List Char) = g := congrArg Prod.fst (Option.some.inj hgr)
      have hr : ((c :: t).drop (wsCount (c :: t))).drop 1 = r :=
        congrArg Prod.snd (Option.some.inj hgr)
      have hdw : InAt inlineAtoms ((c :: t).drop (wsCount (c :: t))) :=
        inAt_inline_drop_ws (InAt.chr h1 h2 h3 ht)
      have hc2 : firstIs '_' ((c :: t).drop (wsCount (c :: t))) = true := by
        simp [underCloseHere] at hclose
        exact hclose.1
      obtain ⟨v0, hv⟩ := firstIs_true hc2
      rw [hv] at hdw
      have hv0 : InAt inlineAtoms v0 :=
        InAt.peel inlineAtoms_ne_nil inlineAtoms_heads (by decide) (by decide) hdw
      refine ⟨hg ▸ InAt.nil, ?_⟩
      rw [← hr, hv]
      simpa using hv0
    · rcases Option.map_eq_some'.mp hgr with ⟨q, hq, hfq⟩
      have h5a : c :: q.1 = g := congrArg Prod.fst hfq
      have h5b : q.2 = r := congrArg Prod.snd hfq
      obtain ⟨hg, hr⟩ := ih q.1 q.2 (by rw [hq])
      exact ⟨h5a ▸ InAt.chr h1 h2 h3 hg, h5b ▸ hr⟩
  | tok ha ht ih =>
    rename_i a t
    intro g r hgr
    have hskip := findUnderClose_skip a t (fun d hd => by
      obtain ⟨hw, _, hu, _⟩ := inlineAtoms_chars a ha d hd
      exact ⟨hw, hu⟩)
    rw [hskip] at hgr
    rcases Option.map_eq_some'.mp hgr with ⟨q, hq, hfq⟩
    have h5a : a ++ q.1 = g := congrArg Prod.fst hfq
    have h5b : q.2 = r := congrArg Prod.snd hfq
    obtain ⟨hg, hr⟩ := ih q.1 q.2 (by rw [hq])
    exact ⟨h5a ▸ InAt.tok ha hg, h5b ▸ hr⟩

theorem attemptStar_split {l : List Char} (h : InAt inlineAtoms l) :
    ∀ g r, attemptStar l = some (g, r) → InAt inlineAtoms g ∧ InAt inlineAtoms r := by
  intro g r hgr
  cases l with
  | nil => simp [attemptStar] at hgr
  | cons c t =>
    simp only [attemptStar] at hgr
    split at hgr
    · simp at hgr
    · rename_i hc
      rcases Option.map_eq_some'.mp hgr with ⟨q, hq, hfq⟩
      have h5a : c :: q.1 = g := congrArg Prod.fst hfq
      have h5b : q.2 = r := congrArg Prod.snd hfq
      rcases h.cons_inv inlineAtoms_ne_nil with ⟨k1, k2, k3, kt⟩ | ⟨a2, t0, ha, hteq, ht0⟩
      · obtain ⟨hg, hr⟩ := findStarClose_split kt q.1 q.2 (by rw [hq])
        exact ⟨h5a ▸ InAt.chr k1 k2 k3 hg, h5b ▸ hr⟩
      · subst hteq
        have hskip := findStarClose_skip a2 t0 (fun d hd => by
          obtain ⟨hw, hs2, _, _⟩ := inlineAtoms_chars _ ha d (List.mem_cons_of_mem c hd)
          exact ⟨hw, hs2⟩)
        rw [hskip] at hq
        rcases Option.map_eq_some'.mp hq with ⟨q0, hq0, hfq0⟩
        have h6a : a2 ++ q0.1 = q.1 := by rw [← hfq0]
        have h6b : q0.2 = q.2 := by rw [← hfq0]
        obtain ⟨hg0, hr0⟩ := findStarClose_split ht0 q0.1 q0.2 (by rw [hq0])
        constructor
        · rw [← h5a, ← h6a]
          exact InAt.tok ha hg0
        · rw [← h5b, ← h6b]
          exact hr0

theorem tryStarFrom_split {l : List Char} (h : InAt inlineAtoms l) :
    ∀ lw, lw ≤ wsCount l → ∀ g r, tryStarFrom lw l = some (g, r) →
      InAt inlineAtoms g ∧ InAt inlineAtoms r := by
  intro lw
  induction lw with
  | zero =>
    intro _ g r hgr
    exact attemptStar_split h g r hgr
  | succ lw2 ih =>
    intro hle g r hgr
    simp only [tryStarFrom] at hgr
    cases hatt : attemptStar (l.drop (lw2 + 1)) with
    | some p =>
      rw [hatt] at hgr
      have hp : p = (g, r) := Option.some.inj hgr
      have hdropInAt : InAt inlineAtoms (l.drop (lw2 + 1)) := by
        apply InAt.drop_plain inlineAtoms_ne_nil inlineAtoms_heads (l.take (lw2 + 1))
          (l.drop (lw2 + 1))
        · rw [List.take_append_drop]; exact h
        · intro d hd
          have h7 : l.take (lw2 + 1) = (l.take (wsCount l)).take (lw2 + 1) := by
            rw [List.take_take, Nat.min_eq_left hle]
          rw [h7] at hd
          obtain ⟨ha, _, hb⟩ :=
            jsWs_not_special d (wsCount_take_ws l d (List.take_subset _ _ hd))
          exact ⟨ha, hb⟩
      exact attemptStar_split hdropInAt g r (by rw [hatt, hp])
    | none =>
      rw [hatt] at hgr
      exact ih (le_trans (Nat.le_succ lw2) hle) g r hgr

theorem tryStar_split {l : List Char} (h : InAt inlineAtoms l) :
    ∀ g r, tryStar l = some (g, r) → InAt inlineAtoms g ∧ InAt inlineAtoms r :=
  fun g r hgr => tryStarFrom_split h (wsCount l) le_rfl g r hgr

theorem tryUnder_split {l : List Char} (h : InAt inlineAtoms l) :
    ∀ g r, tryUnder l = some (g, r) → InAt inlineAtoms g ∧ InAt inlineAtoms r := by
  intro g r hgr
  exact findUnderClose_split (inAt_inline_drop_ws h) g r hgr

theorem attemptStar_len : ∀ l g r, attemptStar l = some (g, r) → r.length ≤ l.length := by
  intro l g r h
  cases l with
  | nil => simp [attemptStar] at h
  | cons c t =>
    simp only [attemptStar] at h
    split at h
    · simp at h
    · rcases Option.map_eq_some'.mp h with ⟨q, hq, hfq⟩
      have h5b : q.2 = r := congrArg Prod.snd hfq
      have := findStarClose_len t q.1 q.2 (by rw [hq])
      rw [← h5b]
      calc q.2.length ≤ t.length := this
        _ ≤ (c :: t).length := by simp [List.length_cons]

theorem tryStarFrom_len :
    ∀ lw l g r, tryStarFrom lw l = some (g, r) → r.length ≤ l.length := by
  intro lw
  induction lw with
  | zero => intro l g r h; exact attemptStar_len l g r h
  | succ lw2 ih =>
    intro l g r h
    simp only [tryStarFrom] at h
    cases hatt : attemptStar (l.drop (lw2 + 1)) with
    | some p =>
      rw [hatt] at h
      have hp : p = (g, r) := Option.some.inj h
      have := attemptStar_len (l.drop (lw2 + 1)) g r (by rw [hatt, hp])
      calc r.length ≤ (l.drop (lw2 + 1)).length := this
        _ ≤ l.length := by simp [List.length_drop]
    | none => rw [hatt] at h; exact ih l g r h

theorem tryStar_len : ∀ l g r, tryStar l = some (g, r) → r.length ≤ l.length :=
  fun l g r h => tryStarFrom_len (wsCount l) l g r h

theorem tryUnder_len : ∀ l g r, tryUnder l = some (g, r) → r.length ≤ l.length := by
  intro l g r h
  have := findUnderClose_len (l.drop (wsCount l)) g r h
  calc r.length ≤ (l.drop (wsCount l)).length := this
    _ ≤ l.length := by simp [List.length_drop]

theorem tryTsTail_shape :
    ∀ l g r, tryTsTail l = some (g, r) →
      l = g ++ ']' :: r ∧ ∀ c ∈ g, isJsDigit c = true ∨ c = ':' := by
  intro l g r h
  cases l with
  | nil => simp [tryTsTail] at h
  | cons c0 l1 =>
    simp only [tryTsTail] at h
    by_cases hc0 : c0 = ':'
    on_goal 2 => rw [if_neg hc0] at h; simp at h
    rw [if_pos hc0] at h
    cases l1 with
    | nil => simp at h
    | cons a l2 =>
      simp only [] at h
      by_cases ha : isJsDigit a = true
      on_goal 2 => rw [if_neg ha] at h; simp at h
      rw [if_pos ha] at h
      cases l2 with
      | nil => simp at h
      | cons b rest =>
        simp only [] at h
        by_cases hb : isJsDigit b = true
        on_goal 2 => rw [if_neg hb] at h; simp at h
        rw [if_pos hb] at h
        cases rest with
        | nil => simp at h
        | cons c1 r2 =>
          simp only [] at h
          by_cases hc1 : c1 = ']'
          · rw [if_pos hc1] at h
            injection h with h2
            injection h2 with hg hr
            subst hg; subst hr; subst hc0; subst hc1
            refine ⟨rfl, ?_⟩
            intro c hc
            rcases List.mem_cons.mp hc with rfl | hc2
            · exact Or.inr rfl
            rcases List.mem_cons.mp hc2 with rfl | hc3
            · exact Or.inl ha
            rcases List.mem_cons.mp hc3 with rfl | hc4
            · exact Or.inl hb
            · simp at hc4
          · rw [if_neg hc1] at h
            by_cases hc1b : c1 = ':'
            on_goal 2 => rw [if_neg hc1b] at h; simp at h
            rw [if_pos hc1b] at h
            cases r2 with
            | nil => simp at h
            | cons x r2a =>
              simp only [] at h
              cases r2a with
              | nil => simp at h
              | cons y r2b =>
                simp only [] at h
                cases r2b with
                | nil => simp at h
                | cons c2 r3 =>
                  simp only [] at h
                  by_cases hxy : isJsDigit x = true ∧ isJsDigit y = true ∧ c2 = ']'
                  on_goal 2 => rw [if_neg hxy] at h; simp at h
                  rw [if_pos hxy] at h
                  obtain ⟨hx, hy, hc2⟩ := hxy
                  injection h with h2
                  injection h2 with hg hr
                  subst hg; subst hr; subst hc0; subst hc1b; subst hc2
                  refine ⟨rfl, ?_⟩
                  intro c hc
                  rcases List.mem_cons.mp hc with rfl | hc2
                  · exact Or.inr rfl
                  rcases List.mem_cons.mp hc2 with rfl | hc3
                  · exact Or.inl ha
                  rcases List.mem_cons.mp hc3 with rfl | hc4
                  · exact Or.inl hb
                  rcases List.mem_cons.mp hc4 with rfl | hc5
                  · exact Or.inr rfl
                  rcases List.mem_cons.mp hc5 with rfl | hc6
                  · exact Or.inl hx
                  rcases List.mem_cons.mp hc6 with rfl | hc7
                  · exact Or.inl hy
                  · simp at hc7

theorem tryTs_shape :
    ∀ l g r, tryTs l = some (g, r) →
      l = g ++ ']' :: r ∧ ∀ c ∈ g, (isJsDigit c = true ∨ c = ':') := by
  intro l g r h
  cases l with
  | nil => simp [tryTs] at h
  | cons a t =>
    simp only [tryTs] at h
    by_cases ha : isJsDigit a = true
    on_goal 2 => rw [if_neg ha] at h; simp at h
    rw [if_pos ha] at h
    cases t with
    | nil => simp at h
    | cons b t2 =>
      simp only [] at h
      by_cases hb : isJsDigit b = true
      · rw [if_pos hb] at h
        cases h2 : tryTsTail t2 with
        | some p =>
          rw [h2] at h
          have h5a := congrArg Prod.fst (Option.some.inj h)
          have h5b := congrArg Prod.snd (Option.some.inj h)
          simp only [] at h5a h5b
          obtain ⟨hsh, hmem⟩ := tryTsTail_shape t2 p.1 p.2 (by rw [h2])
          subst h5b
          rw [← h5a, hsh]
          refine ⟨rfl, ?_⟩
          intro c hc
          rcases List.mem_cons.mp hc with rfl | hc2
          · exact Or.inl ha
          rcases List.mem_cons.mp hc2 with rfl | hc3
          · exact Or.inl hb
          · exact hmem c hc3
        | none =>
          rw [h2] at h
          cases h3 : tryTsTail (b :: t2) with
          | some p =>
            rw [h3] at h
            have h5a := congrArg Prod.fst (Option.some.inj h)
            have h5b := congrArg Prod.snd (Option.some.inj h)
            simp only [] at h5a h5b
            obtain ⟨hsh, hmem⟩ := tryTsTail_shape (b :: t2) p.1 p.2 (by rw [h3])
            subst h5b
            rw [← h5a, hsh]
            refine ⟨rfl, ?_⟩
            intro c hc
            rcases List.mem_cons.mp hc with rfl | hc2
            · exact Or.inl ha
            · exact hmem c hc2
          | none => rw [h3] at h; simp at h
      · rw [if_neg hb] at h
        cases h3 : tryTsTail (b :: t2) with
        | some p =>
          rw [h3] at h
          have h5a := congrArg Prod.fst (Option.some.inj h)
          have h5b := congrArg Prod.snd (Option.some.inj h)
          simp only [] at h5a h5b
          obtain ⟨hsh, hmem⟩ := tryTsTail_shape (b :: t2) p.1 p.2 (by rw [h3])
          subst h5b
          rw [← h5a, hsh]
          refine ⟨rfl, ?_⟩
          intro c hc
          rcases List.mem_cons.mp hc with rfl | hc2
          · exact Or.inl ha
          · exact hmem c hc2
        | none => rw [h3] at h; simp at h

theorem inAt_single {A : List (List Char)} {a : List Char} (ha : a ∈ A) : InAt A a := by
  have h2 : InAt A (a ++ []) := InAt.tok ha InAt.nil
  simpa using h2

theorem html_atom_not_prefix {w a : List Char} (hw : w ∈ htmlAtoms) (ha : a ∈ htmlAtoms)
    (hne : w ≠ a) (t : List Char) : w.isPrefixOf (a ++ t) = false := by
  cases hb : w.isPrefixOf (a ++ t) with
  | false => rfl
  | true =>
    exfalso
    have hwp : w <+: a ++ t := List.isPrefixOf_iff_prefix.mp hb
    have hap : a <+: a ++ t := List.prefix_append a t
    rcases le_total w.length a.length with hle | hle
    · exact hne (htmlAtoms_pfree w hw a ha
        (List.isPrefixOf_iff_prefix.mpr (List.prefix_of_prefix_length_le hwp hap hle)))
    · exact hne (htmlAtoms_pfree a ha w hw
        (List.isPrefixOf_iff_prefix.mpr (List.prefix_of_prefix_length_le hap hwp hle))).symm

theorem inAt_head_atom {w : List Char} (hw : w ∈ htmlAtoms) {l : List Char}
    (h : InAt htmlAtoms l) (hp : w.isPrefixOf l = true) :
    ∃ t0, l = w ++ t0 ∧ InAt htmlAtoms t0 := by
  cases l with
  | nil =>
    have hnil : w = [] := List.prefix_nil.mp (List.isPrefixOf_iff_prefix.mp hp)
    exact absurd hnil (htmlAtoms_ne_nil w hw)
  | cons c t =>
    rcases h.cons_inv htmlAtoms_ne_nil with ⟨h1, _, h3, _⟩ | ⟨a2, t0, ha, hteq, ht0⟩
    · exfalso
      obtain ⟨s, hs⟩ := List.isPrefixOf_iff_prefix.mp hp
      cases w with
      | nil => exact absurd rfl (htmlAtoms_ne_nil [] hw)
      | cons w0 w2 =>
        rw [List.cons_append] at hs
        injection hs with hs1 _
        rcases htmlAtoms_heads _ hw with hh | hh
        · exact h1 ((hs1 ▸ hh : c = '<'))
        · exact h3 ((hs1 ▸ hh : c = '&'))
    · subst hteq
      by_cases hwa : w = c :: a2
      · exact ⟨t0, by rw [hwa, List.cons_append], ht0⟩
      · exfalso
        have hnp := html_atom_not_prefix hw ha hwa t0
        rw [show (c :: a2) ++ t0 = c :: (a2 ++ t0) from rfl] at hnp
        rw [hp] at hnp
        exact Bool.noConfusion hnp

theorem findCloseLi_split {l : List Char} (h : InAt htmlAtoms l) :
    ∀ g r, findCloseLi l = some (g, r) → InAt htmlAtoms g ∧ InAt htmlAtoms r := by
  induction h with
  | nil => intro g r hgr; simp [findCloseLi] at hgr
  | chr h1 h2 h3 ht ih =>
    rename_i c t
    intro g r hgr
    simp only [findCloseLi] at hgr
    split at hgr
    · rename_i hpre
      exfalso
      obtain ⟨s, hs⟩ := List.isPrefixOf_iff_prefix.mp hpre
      rw [show "</li>".data ++ s = '<' :: ("/li>".data ++ s) from rfl] at hs
      injection hs with hs1 _
      exact h1 hs1.symm
    · rcases Option.map_eq_some'.mp hgr with ⟨q, hq, hfq⟩
      have h5a : c :: q.1 = g := congrArg Prod.fst hfq
      have h5b : q.2 = r := congrArg Prod.snd hfq
      obtain ⟨hg, hr⟩ := ih q.1 q.2 (by rw [hq])
      exact ⟨h5a ▸ InAt.chr h1 h2 h3 hg, h5b ▸ hr⟩
  | tok ha ht ih =>
    rename_i a t
    intro g r hgr
    by_cases hli : a = "</li>".data
    · subst hli
      rw [show "</li>".data ++ t = '<' :: ('/' :: 'l' :: 'i' :: '>' :: t) from rfl] at hgr
      simp only [findCloseLi] at hgr
      rw [if_pos (by simp [List.isPrefixOf])] at hgr
      have h5a : ([] : List Char) = g := congrArg Prod.fst (Option.some.inj hgr)
      have h5b := congrArg Prod.snd (Option.some.inj hgr)
      simp only [List.drop_succ_cons, List.drop_zero] at h5b
      exact ⟨h5a ▸ InAt.nil, h5b ▸ ht⟩
    · cases a with
      | nil => exact absurd rfl (htmlAtoms_ne_nil [] ha)
      | cons a0 a2 =>
        have hnp : ("</li>".data).isPrefixOf ((a0 :: a2) ++ t) = false :=
          html_atom_not_prefix (by decide) ha (fun he => hli he.symm) t
        rw [List.cons_append] at hgr hnp
        simp only [findCloseLi] at hgr
        rw [if_neg (by rw [hnp]; simp)] at hgr
        rw [findCloseLi_skip a2 t (fun d hd => htmlAtoms_tail_no_lt _ ha d hd),
          Option.map_map] at hgr
        rcases Option.map_eq_some'.mp hgr with ⟨q, hq, hfq⟩
        have h5a : a0 :: (a2 ++ q.1) = g := congrArg Prod.fst hfq
        have h5b : q.2 = r := congrArg Prod.snd hfq
        obtain ⟨hg, hr⟩ := ih q.1 q.2 (by rw [hq])
        constructor
        · rw [← h5a]; exact InAt.tok ha hg
        · rw [← h5b]; exact hr

theorem parseLiUnit_split {l : List Char} (h : InAt htmlAtoms l) :
    ∀ u r, parseLiUnit l = some (u, r) →
      InAt htmlAtoms u ∧ InAt htmlAtoms r ∧ r.length + 9 ≤ l.length := by
  intro u r hur
  unfold parseLiUnit at hur
  split at hur
  case isFalse => simp at hur
  case isTrue hpre =>
    obtain ⟨t0, rfl, ht0⟩ := inAt_head_atom (by decide) h hpre
    rw [show ("<li>".data ++ t0).drop 4 = t0 from by simp] at hur
    rcases Option.map_eq_some'.mp hur with ⟨q, hq, hfq⟩
    obtain ⟨hg, hr⟩ := findCloseLi_split ht0 q.1 q.2 (by rw [hq])
    have hlen := findCloseLi_len t0 q.1 q.2 (by rw [hq])
    by_cases hnl : firstIs '\n' q.2 = true
    · rw [if_pos hnl] at hfq
      obtain ⟨r2, hr2⟩ := firstIs_true hnl
      injection hfq with h5a h5b
      refine ⟨?_, ?_, ?_⟩
      · rw [← h5a]
        exact (((inAt_single (by decide)).append hg).append
          (inAt_single (by decide))).append (InAt.of_plain (by decide))
      · rw [← h5b, hr2]
        simpa using InAt.peel htmlAtoms_ne_nil htmlAtoms_heads (by decide) (by decide)
          (hr2 ▸ hr)
      · have hq2 : q.2.length = r2.length + 1 := by rw [hr2]; simp
        have hrlen : r.length = r2.length := by
          rw [← h5b, hr2]
          simp
        simp only [List.length_append, List.length_cons, List.length_nil]
        omega
    · rw [if_neg hnl] at hfq
      injection hfq with h5a h5b
      refine ⟨?_, ?_, ?_⟩
      · rw [← h5a]
        exact ((inAt_single (by decide)).append hg).append (inAt_single (by decide))
      · rw [← h5b]; exact hr
      · have hrlen : r.length = q.2.length := by rw [← h5b]
        simp only [List.length_append, List.length_cons, List.length_nil]
        omega

theorem parseLiRun_split :
    ∀ f l, InAt htmlAtoms l → ∀ m r, parseLiRun f l = some (m, r) →
      InAt htmlAtoms m ∧ InAt htmlAtoms r ∧ r.length + 9 ≤ l.length := by
  intro f
  induction f with
  | zero => intro l _ m r h; simp [parseLiRun] at h
  | succ f2 ih =>
    intro l hl m r h
    simp only [parseLiRun] at h
    rcases Option.map_eq_some'.mp h with ⟨u, hu, hfu⟩
    obtain ⟨hu1, hu2, hulen⟩ := parseLiUnit_split hl u.1 u.2 (by rw [hu])
    cases hm : parseLiRun f2 u.2 with
    | none =>
      rw [hm] at hfu
      simp only [Option.elim] at hfu
      subst hfu
      exact ⟨hu1, hu2, hulen⟩
    | some m0 =>
      rw [hm] at hfu
      simp only [Option.elim] at hfu
      obtain ⟨hm1, hm2, hmlen⟩ := ih u.2 hu2 m0.1 m0.2 (by rw [hm])
      injection hfu with h5a h5b
      refine ⟨?_, ?_, ?_⟩
      · rw [← h5a]; exact hu1.append hm1
      · rw [← h5b]; exact hm2
      · rw [← h5b]; omega

theorem escAmp_append : ∀ x y : List Char, escAmp (x ++ y) = escAmp x ++ escAmp y := by
  intro x y
  induction x with
  | nil => simp [escAmp]
  | cons c t ih => simp [escAmp, ih]

theorem escLt_append : ∀ x y : List Char, escLt (x ++ y) = escLt x ++ escLt y := by
  intro x y
  induction x with
  | nil => simp [escLt]
  | cons c t ih => simp [escLt, ih]

theorem escGt_append : ∀ x y : List Char, escGt (x ++ y) = escGt x ++ escGt y := by
  intro x y
  induction x with
  | nil => simp [escGt]
  | cons c t ih => simp [escGt, ih]

theorem esc_safe : ∀ r : List Char, InAt inlineAtoms (esc r) := by
  intro r
  induction r with
  | nil => exact InAt.nil
  | cons c t ih =>
    have hsplit : esc (c :: t) = esc [c] ++ esc t := by
      show escGt (escLt (escAmp (c :: t))) = _
      rw [show (c :: t) = [c] ++ t from rfl, escAmp_append, escLt_append, escGt_append]
      rfl
    rw [hsplit]
    refine InAt.append ?_ ih
    by_cases h1 : c = '&'
    · subst h1
      rw [show esc ['&'] = "&amp;".data from by decide]
      exact inAt_single (by decide)
    by_cases h2 : c = '<'
    · subst h2
      rw [show esc ['<'] = "&lt;".data from by decide]
      exact inAt_single (by decide)
    by_cases h3 : c = '>'
    · subst h3
      rw [show esc ['>'] = "&gt;".data from by decide]
      exact inAt_single (by decide)
    · have hid : esc [c] = [c] := by
        simp [esc, escAmp, escLt, escGt, h1, h2, h3]
      rw [hid]
      exact InAt.of_plain (fun d hd => by
        rcases List.mem_singleton.mp hd
        exact ⟨h2, h3, h1⟩)

theorem inAt_two {A : List (List Char)} (a b : List Char) (ha : a ∈ A) (hb : b ∈ A)
    (l : List Char) (hl : l = a ++ b) : InAt A l := by
  rw [hl]
  exact (inAt_single ha).append (inAt_single hb)

theorem replaceDelim_skip {D openT closeT : List Char} (hne : D ≠ []) :
    ∀ x t f, (∀ c ∈ x, D.headD ' ' ≠ c) →
      replaceDelim D openT closeT (f + x.length) (x ++ t)
        = x ++ replaceDelim D openT closeT f t := by
  intro x
  induction x with
  | nil => intro t f _; simp
  | cons c x2 ih =>
    intro t f hx
    have h2 := hx c (List.mem_cons_self c x2)
    have heq : f + (c :: x2).length = (f + x2.length) + 1 := by
      simp [List.length_cons]
      omega
    rw [List.cons_append, heq]
    simp only [replaceDelim]
    rw [if_neg (by simp [isPrefixOf_cons_false hne h2])]
    rw [ih t f (fun d hd => hx d (List.mem_cons_of_mem c hd))]
    rfl

theorem replaceDelim_safe {D openT closeT : List Char} (hne : D ≠ [])
    (hD : ∀ c ∈ D, c = '*' ∨ c = '_')
    (hO : InAt inlineAtoms openT) (hC : InAt inlineAtoms closeT) :
    ∀ fuel l, l.length ≤ fuel → InAt inlineAtoms l →
      InAt inlineAtoms (replaceDelim D openT closeT fuel l) := by
  intro fuel
  induction fuel using Nat.strong_induction_on with
  | _ fuel ih =>
    intro l hlen hl
    cases fuel with
    | zero =>
      simp only [replaceDelim]
      exact hl
    | succ fuel2 =>
      cases l with
      | nil =>
        simp only [replaceDelim]
        exact InAt.nil
      | cons c t =>
        have hlen2 : t.length + 1 ≤ fuel2 + 1 := by
          simpa [List.length_cons] using hlen
        rcases hl.cons_inv inlineAtoms_ne_nil with ⟨h1, h2, h3, ht⟩ | ⟨a2, t0, ha, hteq, ht0⟩
        · simp only [replaceDelim]
          split
          · rename_i hpre
            cases hq : findDelimClose D
                (((c :: t).drop D.length).drop (wsCount ((c :: t).drop D.length))) with
            | none =>
              show InAt inlineAtoms (c :: replaceDelim D openT closeT fuel2 t)
              exact InAt.chr h1 h2 h3
                (ih fuel2 (Nat.lt_succ_self _) t (by omega) ht)
            | some q =>
              show InAt inlineAtoms
                (openT ++ q.1 ++ closeT ++ replaceDelim D openT closeT fuel2 q.2)
              have hql := findDelimClose_len _ q.1 q.2 (by rw [hq])
              have hD1 : 1 ≤ D.length := List.length_pos.mpr hne
              have hq2 : q.2.length ≤ fuel2 := by
                simp [List.length_drop, List.length_cons] at hql
                omega
              obtain ⟨s, hs⟩ := List.isPrefixOf_iff_prefix.mp hpre
              have hsd : (c :: t).drop D.length = s := by rw [← hs, List.drop_left]
              have hsIn : InAt inlineAtoms s :=
                InAt.drop_plain inlineAtoms_ne_nil inlineAtoms_heads D s
                  (by rw [hs]; exact hl)
                  (fun d hd => by
                    rcases hD d hd with rfl | rfl <;> exact ⟨by decide, by decide⟩)
              have hin2 : InAt inlineAtoms
                  (((c :: t).drop D.length).drop (wsCount ((c :: t).drop D.length))) := by
                rw [hsd]
                exact inAt_inline_drop_ws hsIn
              obtain ⟨hg, hr⟩ := findDelimClose_split hne hD hin2 q.1 q.2 (by rw [hq])
              exact ((hO.append hg).append hC).append
                (ih fuel2 (Nat.lt_succ_self _) q.2 hq2 hr)
          · exact InAt.chr h1 h2 h3 (ih fuel2 (Nat.lt_succ_self _) t (by omega) ht)
        · subst hteq
          have hlen3 : (c :: a2).length ≤ fuel2 + 1 := by
            simp [List.length_cons, List.length_append] at hlen ⊢
            omega
          have hfa : fuel2 + 1 = (fuel2 + 1 - (c :: a2).length) + (c :: a2).length := by
            omega
          rw [show c :: (a2 ++ t0) = (c :: a2) ++ t0 from rfl, hfa,
            replaceDelim_skip hne (c :: a2) t0 _ (fun d hd => by
              obtain ⟨_, hs2, hu, _⟩ := inlineAtoms_chars _ ha d hd
              rcases hD _ (headD_mem hne) with he | he
              · rw [he]; exact Ne.symm hs2
              · rw [he]; exact Ne.symm hu)]
          refine InAt.tok ha (ih _ ?_ t0 ?_ ht0)
          · simp [List.length_cons]
            omega
          · simp [List.length_cons, List.length_append] at hlen ⊢
            omega

theorem stageA_safe {l : List Char} (h : InAt inlineAtoms l) :
    InAt inlineAtoms (stageA l) :=
  replaceDelim_safe (by decide) (by decide)
    (inAt_two "<em>".data "<strong>".data (by decide) (by decide) _ (by decide))
    (inAt_two "</strong>".data "</em>".data (by decide) (by decide) _ (by decide))
    l.length l le_rfl h

theorem stageB_safe {l : List Char} (h : InAt inlineAtoms l) :
    InAt inlineAtoms (stageB l) :=
  replaceDelim_safe (by decide) (by decide) (inAt_single (by decide))
    (inAt_single (by decide)) l.length l le_rfl h

theorem stageC_safe {l : List Char} (h : InAt inlineAtoms l) :
    InAt inlineAtoms (stageC l) :=
  replaceDelim_safe (by decide) (by decide) (inAt_single (by decide))
    (inAt_single (by decide)) l.length l le_rfl h

theorem stageDGo_flag {l : List Char} (hc : firstIsStar l = false) :
    ∀ f b, stageDGo f b l = stageDGo f false l := by
  intro f b
  cases b with
  | false => rfl
  | true =>
    cases f with
    | zero => rfl
    | succ f2 =>
      cases l with
      | nil => rfl
      | cons c t =>
        have hcs : c ≠ '*' := by
          intro h
          rw [h] at hc
          simp [firstIsStar, firstIs] at hc
        simp only [stageDGo]
        have hA : ¬(True ∧ c = '*') := fun h => hcs h.2
        have hB : ¬(false = true ∧ c = '*') := by simp
        rw [if_neg hA, if_neg hB]

theorem stageDGo_skip_mid :
    ∀ x z t f b, (∀ c ∈ x, c ≠ '*') → z ≠ '*' →
      stageDGo (f + x.length) b (x ++ z :: t) = x ++ stageDGo f false (z :: t) := by
  intro x
  induction x with
  | nil =>
    intro z t f b _ hz
    rw [List.length_nil, Nat.add_zero, List.nil_append, List.nil_append,
      stageDGo_flag (firstIs_cons_false hz) f b]
  | cons c x2 ih =>
    intro z t f b hx hz
    have hc := hx c (List.mem_cons_self c x2)
    have heq : f + (c :: x2).length = (f + x2.length) + 1 := by
      simp [List.length_cons]
      omega
    rw [List.cons_append, heq]
    simp only [stageDGo]
    rw [if_neg (fun h => hc h.2)]
    have hfs : firstIsStar (x2 ++ z :: t) = false := by
      cases x2 with
      | nil => exact firstIs_cons_false hz
      | cons d x3 =>
        exact firstIs_cons_false (hx d (List.mem_cons_of_mem c (List.mem_cons_self d x3)))
    rw [if_neg (fun h => by rw [hfs] at h; exact Bool.noConfusion h.2)]
    rw [ih z t f false (fun d hd => hx d (List.mem_cons_of_mem c hd)) hz, List.cons_append]

theorem stageDGo_all_chars :
    ∀ x f b, (∀ c ∈ x, c ≠ '*') → stageDGo (f + x.length) b x = x := by
  intro x
  induction x with
  | nil => intro f b _; cases f <;> rfl
  | cons c x2 ih =>
    intro f b hx
    have hc := hx c (List.mem_cons_self c x2)
    have heq : f + (c :: x2).length = (f + x2.length) + 1 := by
      simp [List.length_cons]
      omega
    rw [heq]
    simp only [stageDGo]
    rw [if_neg (fun h => hc h.2)]
    have hfs : firstIsStar x2 = false := by
      cases x2 with
      | nil => rfl
      | cons d x3 =>
        exact firstIs_cons_false (hx d (List.mem_cons_of_mem c (List.mem_cons_self d x3)))
    rw [if_neg (fun h => by rw [hfs] at h; exact Bool.noConfusion h.2)]
    rw [ih f false (fun d hd => hx d (List.mem_cons_of_mem c hd))]

theorem stageDGo_safe :
    ∀ fuel b l, l.length ≤ fuel → InAt inlineAtoms l →
      InAt inlineAtoms (stageDGo fuel b l) := by
  intro fuel
  induction fuel using Nat.strong_induction_on with
  | _ fuel ih =>
    intro b l hlen hl
    cases fuel with
    | zero =>
      simp only [stageDGo]
      exact hl
    | succ fuel2 =>
      cases l with
      | nil =>
        simp only [stageDGo]
        exact InAt.nil
      | cons c t =>
        have hlen2 : t.length + 1 ≤ fuel2 + 1 := by simpa [List.length_cons] using hlen
        rcases hl.cons_inv inlineAtoms_ne_nil with ⟨h1, h2, h3, ht⟩ | ⟨a2, t0, ha, hteq, ht0⟩
        · simp only [stageDGo]
          split
          · rename_i hbs
            cases hq : tryStar t with
            | none =>
              show InAt inlineAtoms (c :: stageDGo fuel2 false t)
              exact InAt.chr h1 h2 h3 (ih fuel2 (Nat.lt_succ_self _) false t (by omega) ht)
            | some q =>
              show InAt inlineAtoms
                ("<em>".data ++ q.1 ++ "</em>".data ++ stageDGo fuel2 false q.2)
              obtain ⟨hg, hr⟩ := tryStar_split ht q.1 q.2 (by rw [hq])
              have hql := tryStar_len t q.1 q.2 (by rw [hq])
              exact (((inAt_single (by decide)).append hg).append
                (inAt_single (by decide))).append
                (ih fuel2 (Nat.lt_succ_self _) false q.2 (by omega) hr)
          · split
            · rename_i hcond
              obtain ⟨t2, hteq2⟩ := firstIs_true (show firstIs '*' t = true from hcond.2)
              subst hteq2
              have ht2 : InAt inlineAtoms t2 :=
                InAt.peel inlineAtoms_ne_nil inlineAtoms_heads (by decide) (by decide) ht
              rw [show (('*' :: t2).drop 1) = t2 from rfl]
              cases hq : tryStar t2 with
              | none =>
                show InAt inlineAtoms (c :: stageDGo fuel2 false ('*' :: t2))
                exact InAt.chr h1 h2 h3
                  (ih fuel2 (Nat.lt_succ_self _) false _ (by omega) ht)
              | some q =>
                show InAt inlineAtoms
                  (c :: ("<em>".data ++ q.1 ++ "</em>".data ++ stageDGo fuel2 false q.2))
                obtain ⟨hg, hr⟩ := tryStar_split ht2 q.1 q.2 (by rw [hq])
                have hql := tryStar_len t2 q.1 q.2 (by rw [hq])
                have hlt2 : t2.length + 2 ≤ fuel2 + 1 := by
                  simpa [List.length_cons] using hlen2
                exact InAt.chr h1 h2 h3
                  ((((inAt_single (by decide)).append hg).append
                    (inAt_single (by decide))).append
                    (ih fuel2 (Nat.lt_succ_self _) false q.2 (by omega) hr))
            · exact InAt.chr h1 h2 h3 (ih fuel2 (Nat.lt_succ_self _) false t (by omega) ht)
        · subst hteq
          have hchars : ∀ d ∈ (c :: a2), d ≠ '*' := fun d hd =>
            (inlineAtoms_chars _ ha d hd).2.1
          have hlenatom : (c :: a2).length + t0.length ≤ fuel2 + 1 := by
            simpa [List.length_cons, List.length_append, Nat.add_assoc,
              Nat.add_comm, Nat.add_left_comm] using hlen
          cases t0 with
          | nil =>
            rw [List.append_nil]
            have hfa : fuel2 + 1 = (fuel2 + 1 - (c :: a2).length) + (c :: a2).length := by
              simp [List.length_cons] at hlenatom ⊢
              omega
            rw [hfa, stageDGo_all_chars (c :: a2) _ b hchars]
            exact inAt_single ha
          | cons d t1 =>
            by_cases hd : d = '*'
            · subst hd
              obtain ⟨y, z, hyz, hychars, hz⟩ :
                  ∃ y z, c :: a2 = y ++ [z] ∧ (∀ e ∈ y, e ≠ '*') ∧ z ≠ '*' := by
                refine ⟨(c :: a2).dropLast, (c :: a2).getLast (by simp), ?_, ?_, ?_⟩
                · exact (List.dropLast_append_getLast (by simp)).symm
                · intro e he
                  exact hchars e ((List.dropLast_prefix _).subset he)
                · exact hchars _ (List.getLast_mem (by simp))
              rw [show c :: (a2 ++ '*' :: t1) = (c :: a2) ++ '*' :: t1 from rfl, hyz,
                List.append_assoc, List.singleton_append]
              have hylen : y.length + 2 + t1.length ≤ fuel2 + 1 := by
                have hcy : (c :: a2).length = y.length + 1 := by rw [hyz]; simp
                simp [List.length_cons] at hlenatom hcy
                omega
              have hfa : fuel2 + 1 = (fuel2 + 1 - y.length) + y.length := by omega
              rw [hfa, stageDGo_skip_mid y z ('*' :: t1) _ b hychars hz]
              obtain ⟨f2, hf2⟩ : ∃ f2, fuel2 + 1 - y.length = f2 + 1 :=
                ⟨fuel2 - y.length, by omega⟩
              rw [hf2]
              simp only [stageDGo]
              rw [if_neg (by simp)]
              rw [if_pos ⟨hz, by simp [firstIsStar, firstIs]⟩]
              rw [show (('*' :: t1).drop 1) = t1 from rfl]
              have ht1 : InAt inlineAtoms t1 :=
                InAt.peel inlineAtoms_ne_nil inlineAtoms_heads (by decide) (by decide) ht0
              cases hq : tryStar t1 with
              | none =>
                show InAt inlineAtoms (y ++ (z :: stageDGo f2 false ('*' :: t1)))
                have hre : y ++ (z :: stageDGo f2 false ('*' :: t1))
                    = (c :: a2) ++ stageDGo f2 false ('*' :: t1) := by
                  simp [hyz]
                rw [hre]
                refine InAt.tok ha (ih f2 (by omega) false ('*' :: t1) ?_ ht0)
                simp [List.length_cons]
                omega
              | some q =>
                show InAt inlineAtoms
                  (y ++ (z :: ("<em>".data ++ q.1 ++ "</em>".data ++ stageDGo f2 false q.2)))
                obtain ⟨hg, hr⟩ := tryStar_split ht1 q.1 q.2 (by rw [hq])
                have hql := tryStar_len t1 q.1 q.2 (by rw [hq])
                have hre : y ++ (z :: ("<em>".data ++ q.1 ++ "</em>".data
                      ++ stageDGo f2 false q.2))
                    = (c :: a2) ++ ("<em>".data ++ q.1 ++ "</em>".data
                      ++ stageDGo f2 false q.2) := by
                  simp [hyz]
                rw [hre]
                refine InAt.tok ha ?_
                exact (((inAt_single (by decide)).append hg).append
                  (inAt_single (by decide))).append (ih f2 (by omega) false q.2 (by omega) hr)
            · have hfa : fuel2 + 1 = (fuel2 + 1 - (c :: a2).length) + (c :: a2).length := by
                simp [List.length_cons] at hlenatom ⊢
                omega
              rw [show c :: (a2 ++ d :: t1) = (c :: a2) ++ d :: t1 from rfl, hfa,
                stageDGo_skip_mid (c :: a2) d t1 _ b hchars hd]
              refine InAt.tok ha (ih _ ?_ false (d :: t1) ?_ ht0)
              · simp [List.length_cons]
                omega
              · simp [List.length_cons] at hlenatom ⊢
                omega

theorem stageD_safe {l : List Char} (h : InAt inlineAtoms l) :
    InAt inlineAtoms (stageD l) :=
  stageDGo_safe l.length true l le_rfl h

theorem stageEGo_flag {l : List Char} (hc : firstIsUnder l = false) :
    ∀ f b, stageEGo f b l = stageEGo f false l := by
  intro f b
  cases b with
  | false => rfl
  | true =>
    cases f with
    | zero => rfl
    | succ f2 =>
      cases l with
      | nil => rfl
      | cons c t =>
        have hcs : c ≠ '_' := by
          intro h
          rw [h] at hc
          simp [firstIsUnder, firstIs] at hc
        simp only [stageEGo]
        have hA : ¬(True ∧ c = '_' ∧ firstIsUnder t = false) := fun h => hcs h.2.1
        have hB : ¬(false = true ∧ c = '_' ∧ firstIsUnder t = false) := by simp
        rw [if_neg hA, if_neg hB]

theorem stageEGo_skip_mid :
    ∀ x z t f b, (∀ c ∈ x, c ≠ '_') → z ≠ '_' →
      stageEGo (f + x.length) b (x ++ z :: t) = x ++ stageEGo f false (z :: t) := by
  intro x
  induction x with
  | nil =>
    intro z t f b _ hz
    rw [List.length_nil, Nat.add_zero, List.nil_append, List.nil_append,
      stageEGo_flag (firstIs_cons_false hz) f b]
  | cons c x2 ih =>
    intro z t f b hx hz
    have hc := hx c (List.mem_cons_self c x2)
    have heq : f + (c :: x2).length = (f + x2.length) + 1 := by
      simp [List.length_cons]
      omega
    rw [List.cons_append, heq]
    simp only [stageEGo]
    rw [if_neg (fun h => hc h.2.1)]
    have hfs : firstIsUnder (x2 ++ z :: t) = false := by
      cases x2 with
      | nil => exact firstIs_cons_false hz
      | cons d x3 =>
        exact firstIs_cons_false (hx d (List.mem_cons_of_mem c (List.mem_cons_self d x3)))
    rw [if_neg (fun h => by rw [hfs] at h; exact Bool.noConfusion h.2.1)]
    rw [ih z t f false (fun d hd => hx d (List.mem_cons_of_mem c hd)) hz, List.cons_append]

theorem stageEGo_all_chars :
    ∀ x f b, (∀ c ∈ x, c ≠ '_') → stageEGo (f + x.length) b x = x := by
  intro x
  induction x with
  | nil => intro f b _; cases f <;> rfl
  | cons c x2 ih =>
    intro f b hx
    have hc := hx c (List.mem_cons_self c x2)
    have heq : f + (c :: x2).length = (f + x2.length) + 1 := by
      simp [List.length_cons]
      omega
    rw [heq]
    simp only [stageEGo]
    rw [if_neg (fun h => hc h.2.1)]
    have hfs : firstIsUnder x2 = false := by
      cases x2 with
      | nil => rfl
      | cons d x3 =>
        exact firstIs_cons_false (hx d (List.mem_cons_of_mem c (List.mem_cons_self d x3)))
    rw [if_neg (fun h => by rw [hfs] at h; exact Bool.noConfusion h.2.1)]
    rw [ih f false (fun d hd => hx d (List.mem_cons_of_mem c hd))]

theorem stageEGo_safe :
    ∀ fuel b l, l.length ≤ fuel → InAt inlineAtoms l →
      InAt inlineAtoms (stageEGo fuel b l) := by
  intro fuel
  induction fuel using Nat.strong_induction_on with
  | _ fuel ih =>
    intro b l hlen hl
    cases fuel with
    | zero =>
      simp only [stageEGo]
      exact hl
    | succ fuel2 =>
      cases l with
      | nil =>
        simp only [stageEGo]
        exact InAt.nil
      | cons c t =>
        have hlen2 : t.length + 1 ≤ fuel2 + 1 := by simpa [List.length_cons] using hlen
        rcases hl.cons_inv inlineAtoms_ne_nil with ⟨h1, h2, h3, ht⟩ | ⟨a2, t0, ha, hteq, ht0⟩
        · simp only [stageEGo]
          split
          · rename_i hbs
            cases hq : tryUnder t with
            | none =>
              show InAt inlineAtoms (c :: stageEGo fuel2 false t)
              exact InAt.chr h1 h2 h3 (ih fuel2 (Nat.lt_succ_self _) false t (by omega) ht)
            | some q =>
              show InAt inlineAtoms
                ("<em>".data ++ q.1 ++ "</em>".data ++ stageEGo fuel2 false q.2)
              obtain ⟨hg, hr⟩ := tryUnder_split ht q.1 q.2 (by rw [hq])
              have hql := tryUnder_len t q.1 q.2 (by rw [hq])
              exact (((inAt_single (by decide)).append hg).append
                (inAt_single (by decide))).append
                (ih fuel2 (Nat.lt_succ_self _) false q.2 (by omega) hr)
          · split
            · rename_i hcond
              obtain ⟨t2, hteq2⟩ := firstIs_true (show firstIs '_' t = true from hcond.2.1)
              subst hteq2
              have ht2 : InAt inlineAtoms t2 :=
                InAt.peel inlineAtoms_ne_nil inlineAtoms_heads (by decide) (by decide) ht
              rw [show (('_' :: t2).drop 1) = t2 from rfl]
              cases hq : tryUnder t2 with
              | none =>
                show InAt inlineAtoms (c :: stageEGo fuel2 false ('_' :: t2))
                exact InAt.chr h1 h2 h3
                  (ih fuel2 (Nat.lt_succ_self _) false _ (by omega) ht)
              | some q =>
                show InAt inlineAtoms
                  (c :: ("<em>".data ++ q.1 ++ "</em>".data ++ stageEGo fuel2 false q.2))
                obtain ⟨hg, hr⟩ := tryUnder_split ht2 q.1 q.2 (by rw [hq])
                have hql := tryUnder_len t2 q.1 q.2 (by rw [hq])
                have hlt2 : t2.length + 2 ≤ fuel2 + 1 := by
                  simpa [List.length_cons] using hlen2
                exact InAt.chr h1 h2 h3
                  ((((inAt_single (by decide)).append hg).append
                    (inAt_single (by decide))).append
                    (ih fuel2 (Nat.lt_succ_self _) false q.2 (by omega) hr))
            · exact InAt.chr h1 h2 h3 (ih fuel2 (Nat.lt_succ_self _) false t (by omega) ht)
        · subst hteq
          have hchars : ∀ d ∈ (c :: a2), d ≠ '_' := fun d hd =>
            (inlineAtoms_chars _ ha d hd).2.2.1
          have hlenatom : (c :: a2).length + t0.length ≤ fuel2 + 1 := by
            simpa [List.length_cons, List.length_append, Nat.add_assoc,
              Nat.add_comm, Nat.add_left_comm] using hlen
          cases t0 with
          | nil =>
            rw [List.append_nil]
            have hfa : fuel2 + 1 = (fuel2 + 1 - (c :: a2).length) + (c :: a2).length := by
              simp [List.length_cons] at hlenatom ⊢
              omega
            rw [hfa, stageEGo_all_chars (c :: a2) _ b hchars]
            exact inAt_single ha
          | cons d t1 =>
            by_cases hd : d = '_'
            · subst hd
              obtain ⟨y, z, hyz, hychars, hz⟩ :
                  ∃ y z, c :: a2 = y ++ [z] ∧ (∀ e ∈ y, e ≠ '_') ∧ z ≠ '_' := by
                refine ⟨(c :: a2).dropLast, (c :: a2).getLast (by simp), ?_, ?_, ?_⟩
                · exact (List.dropLast_append_getLast (by simp)).symm
                · intro e he
                  exact hchars e ((List.dropLast_prefix _).subset he)
                · exact hchars _ (List.getLast_mem (by simp))
              rw [show c :: (a2 ++ '_' :: t1) = (c :: a2) ++ '_' :: t1 from rfl, hyz,
                List.append_assoc, List.singleton_append]
              have hylen : y.length + 2 + t1.length ≤ fuel2 + 1 := by
                have hcy : (c :: a2).length = y.length + 1 := by rw [hyz]; simp
                simp [List.length_cons] at hlenatom hcy
                omega
              have hfa : fuel2 + 1 = (fuel2 + 1 - y.length) + y.length := by omega
              rw [hfa, stageEGo_skip_mid y z ('_' :: t1) _ b hychars hz]
              obtain ⟨f2, hf2⟩ : ∃ f2, fuel2 + 1 - y.length = f2 + 1 :=
                ⟨fuel2 - y.length, by omega⟩
              rw [hf2]
              simp only [stageEGo]
              rw [if_neg (by simp)]
              cases hu1 : firstIsUnder t1 with
              | true =>
                rw [if_neg (fun h => by
                  have := h.2.2
                  rw [show (('_' :: t1).drop 1) = t1 from rfl, hu1] at this
                  exact Bool.noConfusion this)]
                show InAt inlineAtoms (y ++ (z :: stageEGo f2 false ('_' :: t1)))
                have hre : y ++ (z :: stageEGo f2 false ('_' :: t1))
                    = (c :: a2) ++ stageEGo f2 false ('_' :: t1) := by
                  simp [hyz]
                rw [hre]
                refine InAt.tok ha (ih f2 (by omega) false ('_' :: t1) ?_ ht0)
                simp [List.length_cons]
                omega
              | false =>
                rw [if_pos ⟨hz, by simp [firstIsUnder, firstIs],
                  (show firstIsUnder (('_' :: t1).drop 1) = false from hu1)⟩]
                rw [show (('_' :: t1).drop 1) = t1 from rfl]
                have ht1 : InAt inlineAtoms t1 :=
                  InAt.peel inlineAtoms_ne_nil inlineAtoms_heads (by decide) (by decide) ht0
                cases hq : tryUnder t1 with
                | none =>
                  show InAt inlineAtoms (y ++ (z :: stageEGo f2 false ('_' :: t1)))
                  have hre : y ++ (z :: stageEGo f2 false ('_' :: t1))
                      = (c :: a2) ++ stageEGo f2 false ('_' :: t1) := by
                    simp [hyz]
                  rw [hre]
                  refine InAt.tok ha (ih f2 (by omega) false ('_' :: t1) ?_ ht0)
                  simp [List.length_cons]
                  omega
                | some q =>
                  show InAt inlineAtoms
                    (y ++ (z :: ("<em>".data ++ q.1 ++ "</em>".data
                      ++ stageEGo f2 false q.2)))
                  obtain ⟨hg, hr⟩ := tryUnder_split ht1 q.1 q.2 (by rw [hq])
                  have hql := tryUnder_len t1 q.1 q.2 (by rw [hq])
                  have hre : y ++ (z :: ("<em>".data ++ q.1 ++ "</em>".data
                        ++ stageEGo f2 false q.2))
                      = (c :: a2) ++ ("<em>".data ++ q.1 ++ "</em>".data
                        ++ stageEGo f2 false q.2) := by
                    simp [hyz]
                  rw [hre]
                  refine InAt.tok ha ?_
                  exact (((inAt_single (by decide)).append hg).append
                    (inAt_single (by decide))).append
                    (ih f2 (by omega) false q.2 (by omega) hr)
            · have hfa : fuel2 + 1 = (fuel2 + 1 - (c :: a2).length) + (c :: a2).length := by
                simp [List.length_cons] at hlenatom ⊢
                omega
              rw [show c :: (a2 ++ d :: t1) = (c :: a2) ++ d :: t1 from rfl, hfa,
                stageEGo_skip_mid (c :: a2) d t1 _ b hchars hd]
              refine InAt.tok ha (ih _ ?_ false (d :: t1) ?_ ht0)
              · simp [List.length_cons]
                omega
              · simp [List.length_cons] at hlenatom ⊢
                omega

theorem stageE_safe {l : List Char} (h : InAt inlineAtoms l) :
    InAt inlineAtoms (stageE l) :=
  stageEGo_safe l.length true l le_rfl h

theorem stageFGo_skip :
    ∀ x t f, (∀ c ∈ x, c ≠ '[') →
      stageFGo (f + x.length) (x ++ t) = x ++ stageFGo f t := by
  intro x
  induction x with
  | nil => intro t f _; simp
  | cons c x2 ih =>
    intro t f hx
    have hc := hx c (List.mem_cons_self c x2)
    have heq : f + (c :: x2).length = (f + x2.length) + 1 := by
      simp [List.length_cons]
      omega
    rw [List.cons_append, heq]
    simp only [stageFGo]
    rw [if_neg hc]
    rw [ih t f (fun d hd => hx d (List.mem_cons_of_mem c hd)), List.cons_append]

theorem stageFGo_safe :
    ∀ fuel l, l.length ≤ fuel → InAt inlineAtoms l →
      InAt fullInlineAtoms (stageFGo fuel l) := by
  intro fuel
  induction fuel using Nat.strong_induction_on with
  | _ fuel ih =>
    intro l hlen hl
    cases fuel with
    | zero =>
      simp only [stageFGo]
      exact hl.mono inline_sub_fullInline
    | succ fuel2 =>
      cases l with
      | nil =>
        simp only [stageFGo]
        exact InAt.nil
      | cons c t =>
        have hlen2 : t.length + 1 ≤ fuel2 + 1 := by simpa [List.length_cons] using hlen
        rcases hl.cons_inv inlineAtoms_ne_nil with ⟨h1, h2, h3, ht⟩ | ⟨a2, t0, ha, hteq, ht0⟩
        · simp only [stageFGo]
          split
          · cases hq : tryTs t with
            | none =>
              show InAt fullInlineAtoms (c :: stageFGo fuel2 t)
              exact InAt.chr h1 h2 h3 (ih fuel2 (Nat.lt_succ_self _) t (by omega) ht)
            | some q =>
              show InAt fullInlineAtoms
                ("<span class=\"timestamp\">[".data ++ q.1 ++ "]</span>".data
                  ++ stageFGo fuel2 q.2)
              obtain ⟨hsh, hmem⟩ := tryTs_shape t q.1 q.2 (by rw [hq])
              have hrest : InAt inlineAtoms q.2 := by
                have hpl : InAt inlineAtoms ((q.1 ++ [']']) ++ q.2) := by
                  rw [List.append_assoc, List.singleton_append, ← hsh]
                  exact ht
                refine InAt.drop_plain inlineAtoms_ne_nil inlineAtoms_heads (q.1 ++ [']'])
                  q.2 hpl (fun d hd => ?_)
                rcases List.mem_append.mp hd with hd1 | hd2
                · rcases hmem d hd1 with hdig | rfl
                  · constructor <;>
                      (intro he; rw [he] at hdig; exact absurd hdig (by decide))
                  · exact ⟨by decide, by decide⟩
                · rcases List.mem_singleton.mp hd2
                  exact ⟨by decide, by decide⟩
              have htl : t.length = q.1.length + 1 + q.2.length := by
                rw [hsh]
                simp [List.length_append, List.length_cons]
                omega
              refine InAt.append (InAt.append ?_ ?_)
                (ih fuel2 (Nat.lt_succ_self _) q.2 (by omega) hrest)
              · have heq2 : "<span class=\"timestamp\">[".data ++ q.1
                    = "<span class=\"timestamp\">".data ++ ('[' :: q.1) := rfl
                rw [heq2]
                refine InAt.tok (by decide) ?_
                refine InAt.chr (by decide) (by decide) (by decide) ?_
                refine InAt.of_plain (fun d hd => ?_)
                rcases hmem d hd with hdig | rfl
                · refine ⟨?_, ?_, ?_⟩ <;>
                    (intro he; rw [he] at hdig; exact absurd hdig (by decide))
                · exact ⟨by decide, by decide, by decide⟩
              · exact InAt.chr (by decide) (by decide) (by decide)
                  (inAt_single (by decide))
          · show InAt fullInlineAtoms (c :: stageFGo fuel2 t)
            exact InAt.chr h1 h2 h3 (ih fuel2 (Nat.lt_succ_self _) t (by omega) ht)
        · subst hteq
          have hchars : ∀ d ∈ (c :: a2), d ≠ '[' := fun d hd =>
            (inlineAtoms_chars _ ha d hd).2.2.2
          have hlenatom : (c :: a2).length + t0.length ≤ fuel2 + 1 := by
            simpa [List.length_cons, List.length_append, Nat.add_assoc,
              Nat.add_comm, Nat.add_left_comm] using hlen
          have hfa : fuel2 + 1 = (fuel2 + 1 - (c :: a2).length) + (c :: a2).length := by
            simp [List.length_cons] at hlenatom ⊢
            omega
          rw [show c :: (a2 ++ t0) = (c :: a2) ++ t0 from rfl, hfa,
            stageFGo_skip (c :: a2) t0 _ hchars]
          refine InAt.tok (inline_sub_fullInline _ ha) (ih _ ?_ t0 ?_ ht0)
          · simp [List.length_cons]
            omega
          · simp [List.length_cons] at hlenatom ⊢
            omega

theorem stageF_safe {l : List Char} (h : InAt inlineAtoms l) :
    InAt fullInlineAtoms (stageF l) :=
  stageFGo_safe l.length l le_rfl h

theorem toInlineHtml_safe (raw : List Char) : InAt fullInlineAtoms (toInlineHtml raw) :=
  stageF_safe (stageE_safe (stageD_safe (stageC_safe (stageB_safe (stageA_safe
    (esc_safe raw))))))

theorem hTag_mem {lvl : Nat} (h1 : 1 ≤ lvl) (h2 : lvl ≤ 6) :
    hOpen lvl ∈ htmlAtoms ∧ hClose lvl ∈ htmlAtoms := by
  interval_cases lvl <;> exact ⟨by decide, by decide⟩

theorem renderLine_safe (original : List Char) : InAt htmlAtoms (renderLine original) := by
  simp only [renderLine]
  split
  · exact InAt.nil
  split
  · rename_i hht
    have hcnt : 1 ≤ hashCount (trimJs original) := by
      simp only [headingTest, Bool.and_eq_true, decide_eq_true_eq] at hht
      exact hht.1
    have hh1 : 1 ≤ headingLevel (trimJs original) := by
      simp only [headingLevel]
      exact le_min_iff.mpr ⟨by omega, hcnt⟩
    have hh2 : headingLevel (trimJs original) ≤ 6 := min_le_left _ _
    obtain ⟨hmo, hmc⟩ := hTag_mem hh1 hh2
    exact ((inAt_single hmo).append
      ((toInlineHtml_safe _).mono fullInline_sub_html)).append (inAt_single hmc)
  split
  · exact ((inAt_single (by decide)).append
      ((toInlineHtml_safe _).mono fullInline_sub_html)).append (inAt_single (by decide))
  split
  · exact ((inAt_single (by decide)).append
      ((toInlineHtml_safe _).mono fullInline_sub_html)).append (inAt_single (by decide))
  · exact ((inAt_single (by decide)).append
      ((toInlineHtml_safe _).mono fullInline_sub_html)).append (inAt_single (by decide))

theorem joinNl_safe : ∀ xs : List (List Char), (∀ x ∈ xs, InAt htmlAtoms x) →
    InAt htmlAtoms (joinNl xs) := by
  intro xs
  induction xs with
  | nil => intro _; exact InAt.nil
  | cons x ys ih =>
    intro hall
    cases ys with
    | nil => simpa [joinNl] using hall x (by simp)
    | cons y zs =>
      simp only [joinNl]
      exact (hall x (by simp)).append (InAt.chr (by decide) (by decide) (by decide)
        (ih (fun z hz => hall z (List.mem_cons_of_mem x hz))))

theorem parseLiRun_not_li {l : List Char} (h : "<li>".data.isPrefixOf l = false) :
    ∀ f, parseLiRun f l = none := by
  intro f
  cases f with
  | zero => rfl
  | succ f2 =>
    simp only [parseLiRun]
    rw [show parseLiUnit l = none from by unfold parseLiUnit; rw [h]; simp]
    rfl

theorem ulWrapGo_skip :
    ∀ x t f, (∀ c ∈ x, c ≠ '<') →
      ulWrapGo (f + x.length) (x ++ t) = x ++ ulWrapGo f t := by
  intro x
  induction x with
  | nil => intro t f _; simp
  | cons c x2 ih =>
    intro t f hx
    have hc := hx c (List.mem_cons_self c x2)
    have heq : f + (c :: x2).length = (f + x2.length) + 1 := by
      simp [List.length_cons]
      omega
    rw [List.cons_append, heq]
    simp only [ulWrapGo]
    rw [parseLiRun_not_li (isPrefixOf_cons_false (by decide) (Ne.symm hc)) _]
    show c :: ulWrapGo (f + x2.length) (x2 ++ t) = (c :: x2) ++ ulWrapGo f t
    rw [ih t f (fun d hd => hx d (List.mem_cons_of_mem c hd)), List.cons_append]

theorem ulWrapGo_safe :
    ∀ fuel l, l.length ≤ fuel → InAt htmlAtoms l → InAt htmlAtoms (ulWrapGo fuel l) := by
  intro fuel
  induction fuel using Nat.strong_induction_on with
  | _ fuel ih =>
    intro l hlen hl
    cases fuel with
    | zero =>
      simp only [ulWrapGo]
      exact hl
    | succ fuel2 =>
      cases l with
      | nil =>
        simp only [ulWrapGo]
        exact InAt.nil
      | cons c t =>
        simp only [ulWrapGo]
        cases hr : parseLiRun (c :: t).length (c :: t) with
        | some m =>
          show InAt htmlAtoms
            ("<ul class=\"list\">\n".data ++ m.1 ++ "\n</ul>\n".data ++ ulWrapGo fuel2 m.2)
          obtain ⟨hm1, hm2, hmlen⟩ := parseLiRun_split _ _ hl m.1 m.2 (by rw [hr])
          have hmfit : m.2.length ≤ fuel2 := by
            simp [List.length_cons] at hmlen hlen
            omega
          have p1 : InAt htmlAtoms ("<ul class=\"list\">\n".data) := by
            rw [show "<ul class=\"list\">\n".data
              = "<ul class=\"list\">".data ++ ['\n'] from rfl]
            exact (inAt_single (by decide)).append (InAt.of_plain (by decide))
          have p2 : InAt htmlAtoms ("\n</ul>\n".data) := by
            rw [show "\n</ul>\n".data = ['\n'] ++ ("</ul>".data ++ ['\n']) from rfl]
            exact (InAt.of_plain (by decide)).append
              ((inAt_single (by decide)).append (InAt.of_plain (by decide)))
          exact ((p1.append hm1).append p2).append
            (ih fuel2 (Nat.lt_succ_self _) m.2 hmfit hm2)
        | none =>
          show InAt htmlAtoms (c :: ulWrapGo fuel2 t)
          rcases hl.cons_inv htmlAtoms_ne_nil with ⟨h1, h2, h3, ht⟩ | ⟨a2, t0, ha, hteq, ht0⟩
          · exact InAt.chr h1 h2 h3
              (ih fuel2 (Nat.lt_succ_self _) t (by simpa [List.length_cons] using hlen) ht)
          · subst hteq
            have hchars2 : ∀ d ∈ a2, d ≠ '<' := fun d hd =>
              htmlAtoms_tail_no_lt (c :: a2) ha d hd
            have hla : a2.length + t0.length + 1 ≤ fuel2 + 1 := by
              simpa [List.length_cons, List.length_append, Nat.add_assoc,
                Nat.add_comm, Nat.add_left_comm] using hlen
            have hfa : fuel2 = (fuel2 - a2.length) + a2.length := by omega
            rw [hfa, ulWrapGo_skip a2 t0 _ hchars2]
            have hre : c :: (a2 ++ ulWrapGo (fuel2 - a2.length) t0)
                = (c :: a2) ++ ulWrapGo (fuel2 - a2.length) t0 := rfl
            rw [hre]
            refine InAt.tok ha (ih _ ?_ t0 ?_ ht0)
            · omega
            · omega

theorem filter_head_unique {L : List (List Char)} {p : List Char → Bool} {x : List Char}
    (hx : x ∈ L) (hpx : p x = true) (huniq : ∀ y ∈ L, p y = true → y = x) :
    (L.filter p).head? = some x := by
  induction L with
  | nil => simp at hx
  | cons z L2 ih =>
    by_cases hz : p z = true
    · have hzx : z = x := huniq z (List.mem_cons_self z L2) hz
      subst hzx
      simp [List.filter_cons, hz]
    · have hz2 : p z = false := by
        rw [← Bool.not_eq_true]
        exact hz
      have hxz : x ∈ L2 := by
        rcases List.mem_cons.mp hx with rfl | h2
        · exact absurd hpx hz
        · exact h2
      rw [List.filter_cons, if_neg (by rw [hz2]; simp)]
      exact ih hxz (fun y hy hpy => huniq y (List.mem_cons_of_mem z hy) hpy)

theorem safeOkGo_complete :
    ∀ fuel l, l.length ≤ fuel → InAt htmlAtoms l → safeOkGo fuel l = true := by
  intro fuel
  induction fuel using Nat.strong_induction_on with
  | _ fuel ih =>
    intro l hlen hl
    cases fuel with
    | zero =>
      have hnil : l = [] := List.length_eq_zero.mp (Nat.le_zero.mp hlen)
      subst hnil
      simp [safeOkGo]
    | succ fuel2 =>
      cases l with
      | nil => simp [safeOkGo]
      | cons c t =>
        rcases hl.cons_inv htmlAtoms_ne_nil with ⟨h1, h2, h3, ht⟩ | ⟨a2, t0, ha, hteq, ht0⟩
        · simp only [safeOkGo]
          rw [if_neg (fun h => h.elim h1 h3), if_neg h2]
          exact ih fuel2 (Nat.lt_succ_self _) t (by simpa [List.length_cons] using hlen) ht
        · subst hteq
          simp only [safeOkGo]
          have hcond : c = '<' ∨ c = '&' := by
            have := htmlAtoms_heads _ ha
            simpa [List.headD] using this
          rw [if_pos hcond]
          have hpfx : (c :: a2).isPrefixOf (c :: (a2 ++ t0)) = true := by
            apply List.isPrefixOf_iff_prefix.mpr
            exact ⟨t0, by simp⟩
          have hhead : (htmlAtoms.filter
              (fun a => a.isPrefixOf (c :: (a2 ++ t0)))).head? = some (c :: a2) := by
            apply filter_head_unique ha hpfx
            intro y hy hpy
            have hyp : y <+: (c :: a2) ++ t0 := by
              rw [List.cons_append]
              exact List.isPrefixOf_iff_prefix.mp hpy
            have hap : (c :: a2) <+: (c :: a2) ++ t0 := List.prefix_append _ _
            rcases le_total y.length (c :: a2).length with hle | hle
            · exact htmlAtoms_pfree y hy _ ha
                (List.isPrefixOf_iff_prefix.mpr (List.prefix_of_prefix_length_le hyp hap hle))
            · exact (htmlAtoms_pfree _ ha y hy
                (List.isPrefixOf_iff_prefix.mpr
                  (List.prefix_of_prefix_length_le hap hyp hle))).symm
          rw [hhead]
          show safeOkGo (fuel2 - ((c :: a2).length - 1))
            ((c :: (a2 ++ t0)).drop (c :: a2).length) = true
          have hdrop : (c :: (a2 ++ t0)).drop (c :: a2).length = t0 := by
            rw [show c :: (a2 ++ t0) = (c :: a2) ++ t0 from rfl, List.drop_left]
          rw [hdrop]
          have hla : a2.length + t0.length + 1 ≤ fuel2 + 1 := by
            simpa [List.length_cons, List.length_append, Nat.add_assoc,
              Nat.add_comm, Nat.add_left_comm] using hlen
          refine ih _ ?_ t0 ?_ ht0
          · simp [List.length_cons]
            omega
          · simp [List.length_cons]
            omega

theorem safeOk_of_inAt {l : List Char} (h : InAt htmlAtoms l) : safeOk l = true :=
  safeOkGo_complete l.length l le_rfl h

theorem renderRichSummaryL_safe (text : List Char) :
    InAt htmlAtoms (renderRichSummaryL text) := by
  unfold renderRichSummaryL
  refine ulWrapGo_safe _ _ le_rfl ?_
  refine joinNl_safe _ ?_
  intro x hx
  rcases List.mem_map.mp hx with ⟨orig, _, rfl⟩
  exact renderLine_safe orig

/-- C10: for every input string, renderRichSummary HTML-escapes every `&`,
`<` and `>` of the input before assembling HTML: its output passes the
`safeOk` checker, which accepts a string only if it decomposes into the
renderer's fixed tag set (`h1`-`h6`, `p`, `li`, `ul`, `em`, `strong`,
`span` open/close tags, as listed in `htmlAtoms`), the three entities
`&amp;`, `&lt;`, `&gt;`, and plain characters none of which is `<`, `>`
or `&` - so every tag in the produced HTML belongs to the renderer's
fixed set and no markup present verbatim in the model output is emitted
unescaped. -/
theorem renderRichSummary_escapes (s : String) :
    safeOk (renderRichSummary s).data = true :=
  safeOk_of_inAt (renderRichSummaryL_safe s.data)
